import Mathlib

/-!
Verification of the rhashmap Robin Hood hash table.

This file contains a shallow embedding of the C sources:

* `src/fastdiv.h`  — the Granlund–Montgomery fast 32-bit division helper
  (`fast_div32_init`, `fast_div32`, `fast_rem32`).
* `src/rhashmap.c` — the hash-table engine (`rhashmap_create`, `rhashmap_get`,
  `rhashmap_insert`, `rhashmap_resize`, `rhashmap_put`, `rhashmap_del`,
  `rhashmap_walk`, and the debug checker `validate_psl_p`).

Modelling conventions:

* Machine integers become `Nat`.  The 64-bit bucket bit-field of the C code
  (`hash : 32`, `psl : 16`, `len : 16`) is modelled by reducing every value
  stored into the `psl`/`len` fields modulo `2^16` and every hash modulo
  `2^32`, exactly where the C assignments truncate.
* A key is the byte sequence the caller passes, modelled as `List Nat`;
  the `len` argument of the C API is the length of that list.  `NULL` key
  pointers are `Option.none` in buckets.
* Values (`void *`) are opaque words, modelled as `Nat`.  Functions that
  return `NULL` to mean "not found" / "allocation failure" return `Option`.
* The two concrete hash functions (murmurhash3 / halfsiphash, selected by
  the `RHM_NONCRYPTO` flag) are pluggable strategies; the whole development
  is parametrised by an arbitrary `hashFn : List Nat → Nat → Nat` standing
  for the selected digest function of `(key bytes, seed)`; `compute_hash`
  truncates its result to 32 bits like the `uint32_t` return type does.
* `malloc`/`calloc` outcomes are an explicit input: a `List Bool` stream,
  one entry per allocation attempt; an empty stream means every allocation
  succeeds.  Likewise `random()` draws from a `List Nat` stream (empty
  stream: zeros).  Loops whose termination the C code gets from the data
  (probe loops, the backward-shift loop) are modelled with explicit fuel;
  theorems below prove the chosen fuel is never exhausted in the situations
  the claims speak about.
-/

namespace RHM

/-! ### `src/fastdiv.h` -/

/-- `2^32`, the modulus of `uint32_t` arithmetic. -/
def pow32 : Nat := 4294967296

/-- `2^16`, the modulus of the 16-bit `psl`/`len` bit-fields. -/
def pow16 : Nat := 65536

/-- Bit length by halving, with enough fuel for a 64-bit word. -/
def flsAux : Nat → Nat → Nat
  | 0, _ => 0
  | fuel + 1, x => if x = 0 then 0 else flsAux fuel (x / 2) + 1

/-- Model of `fls` from `utils.h`: the number of significant bits of `x`
(`fls 0 = 0`), i.e. `sizeof(int)*CHAR_BIT - __builtin_clz(x)` for `x ≠ 0`. -/
def fls (x : Nat) : Nat := flsAux 64 x

/-- `fast_div32_init` from `fastdiv.h`.  The C code packs the three parts with
`m << 32 | s1 << 8 | s2`; since `s1, s2 < 256` the bit-or is plain addition. -/
def fast_div32_init (div : Nat) : Nat :=
  let l := fls (div - 1)
  let mt := pow32 * (2 ^ l - div)
  let s1 := if 1 < l then 1 else l
  let s2 := if l = 0 then 0 else l - 1
  (mt / div + 1) * pow32 + s1 * 256 + s2

/-- `fast_div32` from `fastdiv.h`.  `t ≤ v` always holds (because
`m = divinfo >> 32 < 2^32`), so the `uint32_t` subtraction `v - t` never
wraps and `Nat` subtraction is faithful.  The `div` argument is unused,
exactly as in the C code. -/
def fast_div32 (v div divinfo : Nat) : Nat :=
  let m := divinfo / pow32
  let s1 := divinfo % 65536 / 256
  let s2 := divinfo % 256
  let t := v * m / pow32
  (t + (v - t) / 2 ^ s1) / 2 ^ s2

/-- `fast_rem32` from `fastdiv.h`: `v - div * fast_div32 v div divinfo`. -/
def fast_rem32 (v div divinfo : Nat) : Nat :=
  v - div * fast_div32 v div divinfo

/-! ### Data model (`rh_bucket_t`, `struct rhashmap`) -/

/-- `rh_bucket_t`: an empty bucket has `key = none`; `hash`, `psl` and `len`
model the packed 32/16/16-bit fields. -/
structure Bucket where
  key : Option (List Nat)
  val : Nat
  hash : Nat
  psl : Nat
  len : Nat
deriving Repr, DecidableEq

/-- An all-zero bucket, as produced by `calloc`/`memset`. -/
def emptyBucket : Bucket := ⟨none, 0, 0, 0, 0⟩

/-- `struct rhashmap`.  The `RHM_NONCRYPTO` flag only selects which concrete
digest function `hashFn` denotes, so only the `RHM_NOCOPY` bit is kept. -/
structure HMap where
  size : Nat
  nitems : Nat
  nocopy : Bool
  minsize : Nat
  divinfo : Nat
  buckets : List Bucket
  hashkey : Nat
deriving Repr, DecidableEq

/-- A map together with the environment streams: outcomes of future
allocation attempts and of future `random()` calls. -/
structure St where
  hm : HMap
  allocs : List Bool
  rands : List Nat
deriving Repr, DecidableEq

/-- Draw the outcome of one allocation attempt; an exhausted stream means
the allocation succeeds. -/
def takeAlloc : List Bool → Bool × List Bool
  | [] => (true, [])
  | b :: r => (b, r)

/-- Draw one `random()` result; an exhausted stream yields 0. -/
def takeRand : List Nat → Nat × List Nat
  | [] => (0, [])
  | n :: r => (n, r)

/-- `hmap->buckets[i]`. -/
def bget (hm : HMap) (i : Nat) : Bucket := hm.buckets.getD i emptyBucket

/-- `hmap->buckets[i] = b`. -/
def bset (hm : HMap) (i : Nat) (b : Bucket) : HMap :=
  { hm with buckets := hm.buckets.set i b }

/-- `compute_hash`: the selected digest of the key under the current seed,
truncated to the `uint32_t` return type. -/
def compute_hash (hashFn : List Nat → Nat → Nat) (hm : HMap) (key : List Nat) : Nat :=
  hashFn key hm.hashkey % pow32

/-- The byte comparison `memcmp(bucket->key, key, len) == 0` (guarded in the
C code by `bucket->hash == hash && bucket->len == len`, so it is never
reached with a `NULL` bucket key — claim C10). -/
def keyEq : Option (List Nat) → List Nat → Bool
  | none, _ => false
  | some bs, k => bs.take k.length == k

/-- `validate_psl_p` from `rhashmap.c` (the debug assertion checking the
PSL invariant of one bucket). -/
def validate_psl_p (hm : HMap) (bucket : Bucket) (i : Nat) : Bool :=
  let base_i := fast_rem32 bucket.hash hm.size hm.divinfo
  let diff := if i < base_i then hm.size - base_i + i else i - base_i
  decide (bucket.key = none ∨ diff = bucket.psl)

/-! ### `rhashmap_get` -/

/-- The linear-probe loop of `rhashmap_get` (`probe:` label), with fuel. -/
def getLoop (hm : HMap) (hash : Nat) (key : List Nat) : Nat → Nat → Nat → Option Nat
  | 0, _, _ => none
  | fuel + 1, n, i =>
    let bucket := bget hm i
    if bucket.hash = hash ∧ bucket.len = key.length ∧ keyEq bucket.key key then
      some bucket.val
    else if bucket.key = none ∨ bucket.psl < n then
      none
    else
      getLoop hm hash key fuel (n + 1) (fast_rem32 (i + 1) hm.size hm.divinfo)

/-- `rhashmap_get`.  The fuel `size + 2` is enough to reach any key whose
PSL invariant holds (proved below); a miss returns `none` for any fuel. -/
def rhashmap_get (hashFn : List Nat → Nat → Nat) (hm : HMap) (key : List Nat) : Option Nat :=
  let hash := compute_hash hashFn hm key
  getLoop hm hash key (hm.size + 2) 0 (fast_rem32 hash hm.size hm.divinfo)

/-! ### `rhashmap_insert` -/

/-- The Robin Hood displacement loop of `rhashmap_insert` (`probe:` label).
Swaps happen when the candidate's PSL is strictly greater than the
resident's; `entry.psl++` wraps at the 16-bit field width. -/
def insertLoop (hash : Nat) (key : List Nat) (val : Nat) :
    Nat → HMap → Bucket → Nat → Option Nat × HMap
  | 0, hm, _, _ => (none, hm)
  | fuel + 1, hm, entry, i =>
    let bucket := bget hm i
    if bucket.key = none then
      let hm1 := bset hm i entry
      (some val, { hm1 with nitems := hm1.nitems + 1 })
    else if bucket.hash = hash ∧ bucket.len = key.length ∧ keyEq bucket.key key then
      (some bucket.val, hm)
    else
      let ehm : Bucket × HMap :=
        if bucket.psl < entry.psl then (bucket, bset hm i entry) else (entry, hm)
      insertLoop hash key val fuel ehm.2 { ehm.1 with psl := (ehm.1.psl + 1) % pow16 }
        (fast_rem32 (i + 1) hm.size hm.divinfo)

/-- `rhashmap_insert`: build the candidate bucket (copying the key costs one
allocation unless `RHM_NOCOPY`) and run the displacement loop.  The stored
`len` field is 16 bits wide, hence the `% pow16`. -/
def rhashmap_insert (hashFn : List Nat → Nat → Nat) (st : St) (key : List Nat) (val : Nat) :
    Option Nat × St :=
  let hash := compute_hash hashFn st.hm key
  let entry : Bucket := ⟨some key, val, hash, 0, key.length % pow16⟩
  let start := fast_rem32 hash st.hm.size st.hm.divinfo
  if st.hm.nocopy then
    let rhm := insertLoop hash key val (st.hm.size + 1) st.hm entry start
    (rhm.1, { st with hm := rhm.2 })
  else
    let ar := takeAlloc st.allocs
    if ar.1 then
      let rhm := insertLoop hash key val (st.hm.size + 1) st.hm entry start
      (rhm.1, { hm := rhm.2, allocs := ar.2, rands := st.rands })
    else
      (none, { st with allocs := ar.2 })

/-! ### `rhashmap_resize` -/

/-- The rehash loop of `rhashmap_resize`: re-insert every occupied bucket of
the old array, in old physical slot order, ignoring the insert result.
(The C code passes `bucket->len`, which always equals the length of the
stored byte sequence.) -/
def rehash (hashFn : List Nat → Nat → Nat) (oldbuckets : List Bucket) (st : St) : St :=
  oldbuckets.foldl
    (fun acc b =>
      match b.key with
      | none => acc
      | some bs => (rhashmap_insert hashFn acc bs b.val).2)
    st

/-- The mutation part of `rhashmap_resize` once the new bucket array exists:
install the empty array, reset `nitems`, recompute `divinfo`, mix fresh
entropy into the seed (`hashkey ^= random() | (random() << 32)`), rehash. -/
def resizeCore (hashFn : List Nat → Nat → Nat) (st : St) (newsize : Nat)
    (oldbuckets : List Bucket) : St :=
  let t1 := takeRand st.rands
  let t2 := takeRand t1.2
  let hm1 : HMap :=
    { st.hm with
      buckets := List.replicate newsize emptyBucket,
      size := newsize,
      nitems := 0,
      divinfo := fast_div32_init newsize,
      hashkey := st.hm.hashkey ^^^ (t1.1 ||| t2.1 * pow32) }
  rehash hashFn oldbuckets { hm := hm1, allocs := st.allocs, rands := t2.2 }

/-- `rhashmap_resize`.  `newsize = 1` uses the inline `init_bucket` (no
allocation); `newsize > UINT_MAX` fails; otherwise one `calloc`. -/
def rhashmap_resize (hashFn : List Nat → Nat → Nat) (st : St) (newsize : Nat) : Bool × St :=
  if newsize = 1 then
    (true, resizeCore hashFn st 1 st.hm.buckets)
  else if 4294967295 < newsize then
    (false, st)
  else
    let ar := takeAlloc st.allocs
    let st1 := { st with allocs := ar.2 }
    if ar.1 then (true, resizeCore hashFn st1 newsize st.hm.buckets)
    else (false, st1)

/-! ### `rhashmap_put` -/

/-- `APPROX_85_PERCENT(x) = (x * 870) >> 10`, computed on the 32-bit
`unsigned` field `size`: the product wraps modulo `2^32`. -/
def approx85 (x : Nat) : Nat := x * 870 % pow32 / 1024

/-- `APPROX_40_PERCENT(x) = (x * 409) >> 10`, computed on the 32-bit
`unsigned` field `size`: the product wraps modulo `2^32`. -/
def approx40 (x : Nat) : Nat := x * 409 % pow32 / 1024

/-- `MAX_GROWTH_STEP = 1024 * 1024`. -/
def maxGrowthStep : Nat := 1048576

/-- `rhashmap_put`: grow (capped doubling) when `nitems > APPROX_85_PERCENT
(size)`, then insert.  `size << 1` and `size + MAX_GROWTH_STEP` are 32-bit
`unsigned` computations and wrap modulo `2^32`. -/
def rhashmap_put (hashFn : List Nat → Nat → Nat) (st : St) (key : List Nat) (val : Nat) :
    Option Nat × St :=
  let threshold := approx85 st.hm.size
  if threshold < st.hm.nitems then
    let grow_limit := (st.hm.size + maxGrowthStep) % pow32
    let newsize := min (st.hm.size * 2 % pow32) grow_limit
    let r := rhashmap_resize hashFn st newsize
    if r.1 then rhashmap_insert hashFn r.2 key val
    else (none, r.2)
  else
    rhashmap_insert hashFn st key val

/-! ### `rhashmap_del` -/

/-- The probe loop of `rhashmap_del` (same probing as lookup, but the
stop test comes before the match test); returns the slot of the key. -/
def delLoop (hm : HMap) (hash : Nat) (key : List Nat) : Nat → Nat → Nat → Option Nat
  | 0, _, _ => none
  | fuel + 1, n, i =>
    let bucket := bget hm i
    if bucket.key = none ∨ bucket.psl < n then
      none
    else if bucket.hash = hash ∧ bucket.len = key.length ∧ keyEq bucket.key key then
      some i
    else
      delLoop hm hash key fuel (n + 1) (fast_rem32 (i + 1) hm.size hm.divinfo)

/-- Sum of the PSL fields of the occupied buckets; each backward-shift step
decreases it by one, which bounds the shift loop (fuel lemma below). -/
def pslSum (hm : HMap) : Nat :=
  (hm.buckets.map fun b => if b.key = none then 0 else b.psl).sum

/-- The backward-shift loop of `rhashmap_del`: clear the freed slot
(`key = NULL`, `len = 0`, other fields left stale, as in the C code), stop
when the next bucket is empty or at PSL 0, otherwise pull it one slot back
decrementing its PSL. -/
def bshiftLoop : Nat → HMap → Nat → HMap
  | 0, hm, _ => hm
  | fuel + 1, hm, i =>
    let b := bget hm i
    let hm1 := bset hm i { b with key := none, len := 0 }
    let j := fast_rem32 (i + 1) hm1.size hm1.divinfo
    let nb := bget hm1 j
    if nb.key = none ∨ nb.psl = 0 then hm1
    else bshiftLoop fuel (bset hm1 i { nb with psl := nb.psl - 1 }) j

/-- `rhashmap_del`: probe, free the bucket, backward-shift, then shrink
(best effort, result ignored) when `nitems > minsize` and
`nitems < APPROX_40_PERCENT(size)` (threshold computed at entry). -/
def rhashmap_del (hashFn : List Nat → Nat → Nat) (st : St) (key : List Nat) : Option Nat × St :=
  let threshold := approx40 st.hm.size
  let hash := compute_hash hashFn st.hm key
  match delLoop st.hm hash key (st.hm.size + 2) 0 (fast_rem32 hash st.hm.size st.hm.divinfo) with
  | none => (none, st)
  | some i =>
    let val := (bget st.hm i).val
    let hm1 := { st.hm with nitems := st.hm.nitems - 1 }
    let hm2 := bshiftLoop (pslSum hm1 + 2) hm1 i
    let st2 := { st with hm := hm2 }
    if st2.hm.minsize < st2.hm.nitems ∧ st2.hm.nitems < threshold then
      (some val, (rhashmap_resize hashFn st2 (max (st2.hm.size / 2) st2.hm.minsize)).2)
    else
      (some val, st2)

/-! ### `rhashmap_walk` -/

/-- `rhashmap_walk`: scan physical slots from the cursor forward, skip empty
buckets, return the first occupied one and the advanced cursor; `none` at
the end of the array (the C code then leaves the cursor untouched). -/
def walkFrom (hm : HMap) : Nat → Nat → Option (List Nat × Nat × Nat × Nat)
  | 0, _ => none
  | fuel + 1, i =>
    if hm.size ≤ i then none
    else
      let bucket := bget hm i
      match bucket.key with
      | none => walkFrom hm fuel (i + 1)
      | some bs => some (bs, bucket.len, bucket.val, i + 1)

/-- `rhashmap_walk` (the fuel `size + 1 - iter` covers the whole scan). -/
def rhashmap_walk (hm : HMap) (iter : Nat) : Option (List Nat × Nat × Nat × Nat) :=
  walkFrom hm (hm.size + 1 - iter) iter

/-- Repeatedly call `rhashmap_walk`, threading the cursor, collecting the
`(key, length, value)` triples until it reports the end (or fuel runs out). -/
def walkList (hm : HMap) : Nat → Nat → List (List Nat × Nat × Nat)
  | 0, _ => []
  | fuel + 1, iter =>
    match rhashmap_walk hm iter with
    | none => []
    | some (k, l, v, iter2) => (k, l, v) :: walkList hm fuel iter2

/-! ### `rhashmap_create` -/

/-- `rhashmap_create`: `calloc` the zeroed structure (one allocation), set
`minsize = MAX(size, 1)`, and resize to it; on resize failure return `NULL`. -/
def rhashmap_create (hashFn : List Nat → Nat → Nat) (size : Nat) (nocopy : Bool)
    (allocs : List Bool) (rands : List Nat) : Option St :=
  let ar := takeAlloc allocs
  if ar.1 then
    let hm0 : HMap :=
      { size := 0, nitems := 0, nocopy := nocopy, minsize := max size 1,
        divinfo := 0, buckets := [], hashkey := 0 }
    let r := rhashmap_resize hashFn { hm := hm0, allocs := ar.2, rands := rands } (max size 1)
    if r.1 then some r.2 else none
  else none

/-! ### Abstraction: the association list / multiset of stored pairs -/

/-- The `(key, value)` pair stored in a bucket, if occupied. -/
def bucketEntry (b : Bucket) : Option (List Nat × Nat) :=
  b.key.map fun k => (k, b.val)

/-- The stored pairs in physical slot order. -/
def entriesL (hm : HMap) : List (List Nat × Nat) := hm.buckets.filterMap bucketEntry

/-- The stored pairs as a multiset (the observable contents of the table). -/
def entriesM (hm : HMap) : Multiset (List Nat × Nat) := (entriesL hm : Multiset (List Nat × Nat))

/-- The stored keys in physical slot order. -/
def keysL (hm : HMap) : List (List Nat) := (entriesL hm).map Prod.fst

/-! ### Correctness of the fast division (`fastdiv.h`) -/

theorem pow32_pos : 0 < pow32 := by decide

theorem pow16_pos : 0 < pow16 := by decide

theorem flsAux_zero (fuel : Nat) : flsAux fuel 0 = 0 := by
  cases fuel <;> rfl

/-- Upper bound: `x < 2 ^ fls x` (for `x` within the fuel range). -/
theorem flsAux_ub : ∀ fuel x, x < 2 ^ fuel → x < 2 ^ flsAux fuel x := by
  intro fuel
  induction fuel with
  | zero =>
    intro x hx
    simp only [pow_zero] at hx
    have hx0 : x = 0 := by omega
    subst hx0
    decide
  | succ fuel ih =>
    intro x hx
    by_cases h0 : x = 0
    · subst h0; simp [flsAux]
    · have hdiv : x / 2 < 2 ^ fuel := by
        have h2 : (2:Nat) ^ (fuel + 1) = 2 ^ fuel * 2 := by rw [pow_succ]
        omega
      have := ih (x / 2) hdiv
      simp only [flsAux, if_neg h0]
      have h2 : (2:Nat) ^ (flsAux fuel (x / 2) + 1) = 2 ^ flsAux fuel (x / 2) * 2 := by
        rw [pow_succ]
      omega

/-- Lower bound: `2 ^ (fls x - 1) ≤ x` for `x ≥ 1`, and `fls x ≥ 1`. -/
theorem flsAux_lb : ∀ fuel x, 0 < x → x < 2 ^ fuel →
    2 ^ (flsAux fuel x - 1) ≤ x ∧ 1 ≤ flsAux fuel x := by
  intro fuel
  induction fuel with
  | zero => intro x hx hlt; simp at hlt; omega
  | succ fuel ih =>
    intro x hx hlt
    have h0 : x ≠ 0 := by omega
    simp only [flsAux, if_neg h0]
    by_cases hhalf : x / 2 = 0
    · rw [hhalf, flsAux_zero]
      simpa using hx
    · have hdiv : x / 2 < 2 ^ fuel := by
        have h2 : (2:Nat) ^ (fuel + 1) = 2 ^ fuel * 2 := by rw [pow_succ]
        omega
      obtain ⟨hA, hB⟩ := ih (x / 2) (by omega) hdiv
      constructor
      · have he : flsAux fuel (x / 2) + 1 - 1 = (flsAux fuel (x / 2) - 1) + 1 := by omega
        rw [he, pow_succ]
        omega
      · omega

/-- Monotone bound: if `x < 2 ^ l` and `l ≤ fuel` then `fls x ≤ l`. -/
theorem flsAux_mono : ∀ fuel x l, x < 2 ^ l → l ≤ fuel → flsAux fuel x ≤ l := by
  intro fuel
  induction fuel with
  | zero => intro x l hx hl; interval_cases l; simp [flsAux]
  | succ fuel ih =>
    intro x l hx hl
    by_cases h0 : x = 0
    · subst h0; simp [flsAux]
    · simp only [flsAux, if_neg h0]
      have hl1 : 1 ≤ l := by
        by_contra h
        have : l = 0 := by omega
        subst this
        simp at hx
        omega
      have hxd : x / 2 < 2 ^ (l - 1) := by
        have h2 : (2:Nat) ^ l = 2 ^ (l - 1) * 2 := by
          rw [← pow_succ]
          congr 1
          omega
        omega
      have := ih (x / 2) (l - 1) hxd (by omega)
      omega

/-- For `div = 1` the packed constant is exactly `2^32` and the divider is
the identity. -/
theorem fast_div32_init_one : fast_div32_init 1 = pow32 := by decide

theorem fast_div32_one (v : Nat) (hv : v < pow32) :
    fast_div32 v 1 (fast_div32_init 1) = v := by
  rw [fast_div32_init_one]
  have h0 : v * (pow32 / pow32) / pow32 = 0 := by
    rw [Nat.div_self pow32_pos, Nat.mul_one]
    exact Nat.div_eq_of_lt hv
  simp only [fast_div32]
  rw [h0]
  norm_num [pow32]

/-- Structure of the packed `divinfo` for `div ≥ 2`:
it is `m * 2^32 + 1 * 256 + (l - 1)` with `m < 2^32`. -/
theorem fast_div32_init_decomp (div : Nat) (h2 : 2 ≤ div) (hlt : div < pow32) :
    fast_div32_init div =
      (pow32 * (2 ^ fls (div - 1) - div) / div + 1) * pow32 + 256 + (fls (div - 1) - 1) ∧
      pow32 * (2 ^ fls (div - 1) - div) / div + 1 < pow32 ∧
      1 ≤ fls (div - 1) ∧ fls (div - 1) ≤ 32 ∧
      2 ^ (fls (div - 1) - 1) < div ∧ div ≤ 2 ^ fls (div - 1) := by
  have hp : pow32 = 4294967296 := rfl
  have h64 : div - 1 < 2 ^ 64 := by norm_num; omega
  have hub : div - 1 < 2 ^ fls (div - 1) := flsAux_ub 64 (div - 1) h64
  obtain ⟨hlb0, hl10⟩ := flsAux_lb 64 (div - 1) (by omega) h64
  have hlb : 2 ^ (fls (div - 1) - 1) ≤ div - 1 := hlb0
  have hl1 : 1 ≤ fls (div - 1) := hl10
  clear hlb0 hl10
  have hl32 : fls (div - 1) ≤ 32 := by
    refine flsAux_mono 64 (div - 1) 32 ?_ (by omega)
    norm_num
    omega
  have hdub : div ≤ 2 ^ fls (div - 1) := by omega
  have hdlb : 2 ^ (fls (div - 1) - 1) < div := by omega
  have hmlt : pow32 * (2 ^ fls (div - 1) - div) / div + 1 < pow32 := by
    have hdouble : 2 ^ fls (div - 1) = 2 ^ (fls (div - 1) - 1) * 2 := by
      rw [← pow_succ]
      congr 1
      omega
    have hstep : 2 ^ fls (div - 1) ≤ 2 * div - 2 := by omega
    have hnum : pow32 * (2 ^ fls (div - 1) - div) ≤ pow32 * (div - 2) :=
      Nat.mul_le_mul_left _ (by omega)
    have hq : pow32 * (2 ^ fls (div - 1) - div) / div < pow32 - 1 := by
      rw [Nat.div_lt_iff_lt_mul (by omega)]
      have e1 : pow32 * (div - 2) + pow32 * 2 = pow32 * div := by
        rw [← Nat.mul_add]
        congr 1
        omega
      have e2 : (pow32 - 1) * div + div = pow32 * div := by
        have h1 : pow32 - 1 + 1 = pow32 := by omega
        calc (pow32 - 1) * div + div = (pow32 - 1 + 1) * div := by ring
          _ = pow32 * div := by rw [h1]
      omega
    omega
  refine ⟨?_, hmlt, hl1, hl32, hdlb, hdub⟩
  have hs1 : (if 1 < fls (div - 1) then 1 else fls (div - 1)) = 1 := by
    rcases Nat.lt_or_ge 1 (fls (div - 1)) with h | h
    · rw [if_pos h]
    · rw [if_neg (by omega)]
      omega
  have hs2 : (if fls (div - 1) = 0 then 0 else fls (div - 1) - 1) = fls (div - 1) - 1 := by
    rw [if_neg (by omega)]
  simp only [fast_div32_init]
  rw [hs1, hs2]

/-- Field extraction from the packed `divinfo` for `div ≥ 2`. -/
theorem fast_div32_fields (m l : Nat) (hm : m < pow32) (hl1 : 1 ≤ l) (hl32 : l ≤ 32) :
    (m * pow32 + 256 + (l - 1)) / pow32 = m ∧
    (m * pow32 + 256 + (l - 1)) % 65536 / 256 = 1 ∧
    (m * pow32 + 256 + (l - 1)) % 256 = l - 1 := by
  have hp : pow32 = 4294967296 := rfl
  refine ⟨?_, ?_, ?_⟩ <;> · rw [hp] at *; omega

/-- The key floor-division identity: with `M = 2^(32+l)/div + 1` and
`div ≤ 2^l`, the scaled multiplication computes the true quotient of any
`v < 2^32`. -/
theorem granlund_core (v div l : Nat) (hv : v < 2 ^ 32) (h2 : 2 ≤ div)
    (hdub : div ≤ 2 ^ l) :
    v * (2 ^ (32 + l) / div + 1) / 2 ^ (32 + l) = v / div := by
  have hdivpos : 0 < div := by omega
  have hPpos : 0 < 2 ^ (32 + l) := Nat.pos_pow_of_pos _ (by omega)
  have hPsplit : div * (2 ^ (32 + l) / div) + 2 ^ (32 + l) % div = 2 ^ (32 + l) :=
    Nat.div_add_mod _ _
  have hrlt : 2 ^ (32 + l) % div < div := Nat.mod_lt _ hdivpos
  have hvsplit : div * (v / div) + v % div = v := Nat.div_add_mod _ _
  have hvrlt : v % div < div := Nat.mod_lt _ hdivpos
  have hple : 2 ^ 32 * div ≤ 2 ^ (32 + l) := by
    rw [pow_add]
    exact Nat.mul_le_mul_left _ hdub
  set P := 2 ^ (32 + l) with hP
  set Q := P / div with hQ
  set q := v / div with hq
  have hlow : q * P ≤ v * (Q + 1) := by
    have h1 : q * P * div ≤ v * (Q + 1) * div := by
      have e1 : q * P * div = div * q * P := by ring
      have e2 : v * (Q + 1) * div = v * (div * Q + div) := by ring
      rw [e1, e2]
      calc div * q * P ≤ v * P := Nat.mul_le_mul_right _ (by omega)
        _ ≤ v * (div * Q + div) := Nat.mul_le_mul_left _ (by omega)
    exact Nat.le_of_mul_le_mul_right h1 hdivpos
  have hup : v * (Q + 1) < (q + 1) * P := by
    have h1 : v * (Q + 1) * div < (q + 1) * P * div := by
      have e2 : v * (Q + 1) * div = v * (div * Q) + v * div := by ring
      have e4 : (q + 1) * P * div = (q + 1) * div * P := by ring
      have e6 : v * (div * Q) ≤ v * P := Nat.mul_le_mul_left _ (by omega)
      have e7 : v * div < 2 ^ 32 * div := (Nat.mul_lt_mul_right hdivpos).mpr hv
      have e8 : (v + 1) * P ≤ (q + 1) * div * P := by
        refine Nat.mul_le_mul_right _ ?_
        have e9 : (q + 1) * div = div * q + div := by ring
        omega
      have e10 : (v + 1) * P = v * P + P := by ring
      rw [e2, e4]
      omega
    exact (Nat.mul_lt_mul_right hdivpos).mp h1
  have hge : q ≤ v * (Q + 1) / P := (Nat.le_div_iff_mul_le hPpos).mpr hlow
  have hlt2 : v * (Q + 1) / P < q + 1 := (Nat.div_lt_iff_lt_mul hPpos).mpr hup
  omega

/-- Correctness of `fast_div32` for every divisor the table can use:
`fast_div32 v div (fast_div32_init div) = v / div` for all `v < 2^32`,
`1 ≤ div < 2^32`. -/
theorem fast_div32_correct (v div : Nat) (hv : v < pow32) (h1 : 0 < div)
    (hlt : div < pow32) :
    fast_div32 v div (fast_div32_init div) = v / div := by
  have hp : pow32 = 4294967296 := rfl
  have h32 : (2:Nat) ^ 32 = 4294967296 := by norm_num
  rcases Nat.lt_or_ge div 2 with h2 | h2
  · have hd1 : div = 1 := by omega
    subst hd1
    rw [fast_div32_one v hv, Nat.div_one]
  · obtain ⟨hdec, hmlt, hl1, hl32, hdlb, hdub⟩ := fast_div32_init_decomp div h2 hlt
    have hfields := fast_div32_fields (pow32 * (2 ^ fls (div - 1) - div) / div + 1)
      (fls (div - 1)) hmlt hl1 hl32
    simp only [fast_div32]
    rw [hdec, hfields.1, hfields.2.1, hfields.2.2]
    set l := fls (div - 1) with hldef
    set m := pow32 * (2 ^ l - div) / div + 1 with hmdef
    have ht_le : v * m / pow32 ≤ v := by
      have h1 : v * m ≤ v * pow32 := Nat.mul_le_mul_left _ (by omega)
      calc v * m / pow32 ≤ v * pow32 / pow32 := Nat.div_le_div_right h1
        _ = v := Nat.mul_div_cancel _ pow32_pos
    set t := v * m / pow32 with htdef
    have hmQ : pow32 + m = 2 ^ (32 + l) / div + 1 := by
      have hge : div * pow32 ≤ 2 ^ (32 + l) := by
        rw [pow_add, h32, ← hp]
        calc div * pow32 ≤ 2 ^ l * pow32 := Nat.mul_le_mul_right _ hdub
          _ = pow32 * 2 ^ l := by ring
      have hsub : pow32 * (2 ^ l - div) = 2 ^ (32 + l) - div * pow32 := by
        rw [Nat.mul_sub, pow_add, h32, ← hp]
        congr 1
        ring
      have hQ32 : pow32 ≤ 2 ^ (32 + l) / div := by
        rw [Nat.le_div_iff_mul_le (by omega)]
        calc pow32 * div = div * pow32 := by ring
          _ ≤ 2 ^ (32 + l) := hge
      have hqd : (2 ^ (32 + l) - div * pow32) / div = 2 ^ (32 + l) / div - pow32 :=
        Nat.sub_mul_div _ _ _ hge
      rw [hmdef, hsub, hqd]
      omega
    have step1 : t + (v - t) / 2 ^ 1 = (v + t) / 2 := by
      have hh : ((v - t) + 2 * t) / 2 = (v - t) / 2 + t :=
        Nat.add_mul_div_left _ _ (by omega)
      have he : (v - t) + 2 * t = v + t := by omega
      rw [he] at hh
      have h21 : (2:Nat) ^ 1 = 2 := by norm_num
      rw [h21]
      omega
    have step2 : (v + t) / 2 = v * (pow32 + m) / (pow32 * 2) := by
      have h1 : v * m + pow32 * v = v * (pow32 + m) := by ring
      have hh : (v * m + pow32 * v) / pow32 = v * m / pow32 + v :=
        Nat.add_mul_div_left _ _ pow32_pos
      rw [h1] at hh
      rw [← Nat.div_div_eq_div_mul, hh]
      have : v * m / pow32 + v = v + t := by omega
      rw [this]
    have step3 : v * (pow32 + m) / (pow32 * 2) / 2 ^ (l - 1) =
        v * (pow32 + m) / 2 ^ (32 + l) := by
      rw [Nat.div_div_eq_div_mul]
      congr 1
      rw [hp, ← h32, ← pow_succ, ← pow_add]
      congr 1
      omega
    rw [step1, step2, step3, hmQ]
    exact granlund_core v div l (by omega) h2 hdub

/-- Correctness of `fast_rem32`: with the packed constant it computes the
true remainder. -/
theorem fast_rem32_correct (v div : Nat) (hv : v < pow32) (h1 : 0 < div)
    (hlt : div < pow32) :
    fast_rem32 v div (fast_div32_init div) = v % div := by
  show v - div * fast_div32 v div (fast_div32_init div) = v % div
  rw [fast_div32_correct v div hv h1 hlt]
  have := Nat.div_add_mod v div
  omega

/-- `fast_rem32` used with the cached `divinfo` of a table is plain `% size`. -/
theorem fast_rem32_idx (hm : HMap) (x : Nat) (hdiv : hm.divinfo = fast_div32_init hm.size)
    (h1 : 0 < hm.size) (hlt : hm.size < pow32) (hx : x < pow32) :
    fast_rem32 x hm.size hm.divinfo = x % hm.size := by
  rw [hdiv]
  exact fast_rem32_correct x hm.size hx h1 hlt

/-! ### Bucket-array access lemmas -/

theorem bset_size (hm : HMap) (i : Nat) (b : Bucket) : (bset hm i b).size = hm.size := rfl

theorem bset_nitems (hm : HMap) (i : Nat) (b : Bucket) : (bset hm i b).nitems = hm.nitems := rfl

theorem bset_divinfo (hm : HMap) (i : Nat) (b : Bucket) : (bset hm i b).divinfo = hm.divinfo := rfl

theorem bset_minsize (hm : HMap) (i : Nat) (b : Bucket) : (bset hm i b).minsize = hm.minsize := rfl

theorem bset_nocopy (hm : HMap) (i : Nat) (b : Bucket) : (bset hm i b).nocopy = hm.nocopy := rfl

theorem bset_hashkey (hm : HMap) (i : Nat) (b : Bucket) : (bset hm i b).hashkey = hm.hashkey := rfl

theorem bset_blen (hm : HMap) (i : Nat) (b : Bucket) :
    (bset hm i b).buckets.length = hm.buckets.length := List.length_set _ _ _

theorem bget_lt (hm : HMap) (i : Nat) (h : i < hm.buckets.length) :
    hm.buckets[i]? = some (bget hm i) := by
  rw [bget, List.getD_eq_getElem?_getD, List.getElem?_eq_getElem h]
  rfl

theorem bget_bset_self (hm : HMap) (i : Nat) (b : Bucket) (h : i < hm.buckets.length) :
    bget (bset hm i b) i = b := by
  show (hm.buckets.set i b).getD i emptyBucket = b
  rw [List.getD_eq_getElem?_getD, List.getElem?_set_self h]
  rfl

theorem bget_bset_ne (hm : HMap) (i j : Nat) (b : Bucket) (h : i ≠ j) :
    bget (bset hm i b) j = bget hm j := by
  show (hm.buckets.set i b).getD j emptyBucket = hm.buckets.getD j emptyBucket
  rw [List.getD_eq_getElem?_getD, List.getElem?_set_ne h, ← List.getD_eq_getElem?_getD]

/-! ### Multiset bookkeeping for the stored pairs -/

/-- The multiset contributed by one optional element. -/
def ofOpt {α : Type} : Option α → Multiset α
  | none => 0
  | some a => {a}

theorem filterMap_ms_cons {α β : Type} (f : α → Option β) (a : α) (l : List α) :
    ((List.filterMap f (a :: l) : List β) : Multiset β) =
      ofOpt (f a) + ((List.filterMap f l : List β) : Multiset β) := by
  rw [List.filterMap_cons]
  cases f a <;> simp [ofOpt]

theorem filterMap_set_ms {α β : Type} (f : α → Option β) :
    ∀ (l : List α) (i : Nat) (a b : α), l[i]? = some a →
    (((l.set i b).filterMap f : List β) : Multiset β) + ofOpt (f a) =
      ((l.filterMap f : List β) : Multiset β) + ofOpt (f b) := by
  intro l
  induction l with
  | nil => intro i a b h; simp at h
  | cons x t ih =>
    intro i a b h
    cases i with
    | zero =>
      simp only [List.getElem?_cons_zero, Option.some.injEq] at h
      subst h
      rw [List.set_cons_zero, filterMap_ms_cons, filterMap_ms_cons]
      abel
    | succ n =>
      simp only [List.getElem?_cons_succ] at h
      rw [List.set_cons_succ, filterMap_ms_cons, filterMap_ms_cons,
        add_assoc, add_assoc, ih n a b h]

theorem entriesM_bset (hm : HMap) (i : Nat) (b : Bucket) (h : i < hm.buckets.length) :
    entriesM (bset hm i b) + ofOpt (bucketEntry (bget hm i)) =
      entriesM hm + ofOpt (bucketEntry b) :=
  filterMap_set_ms bucketEntry hm.buckets i (bget hm i) b (bget_lt hm i h)

theorem length_filterMap_countP {α β : Type} (f : α → Option β) (l : List α) :
    (l.filterMap f).length = l.countP fun a => (f a).isSome := by
  induction l with
  | nil => rfl
  | cons x t ih =>
    rw [List.filterMap_cons, List.countP_cons]
    cases hfx : f x <;> simp [ih, hfx]

theorem countP_eq_countP_range {α : Type} (p : α → Bool) (d : α) :
    ∀ l : List α, l.countP p = (List.range l.length).countP fun i => p (l.getD i d) := by
  intro l
  induction l with
  | nil => rfl
  | cons x t ih =>
    have hfun : ((fun i => p ((x :: t).getD i d)) ∘ Nat.succ) = fun i => p (t.getD i d) := by
      funext i
      simp [List.getD_cons_succ]
    rw [List.countP_cons, List.length_cons, List.range_succ_eq_map, List.countP_cons,
      List.countP_map, hfun]
    simp only [List.getD_cons_zero]
    omega

/-- The occupied physical slots of a table, as a duplicate-free list. -/
def occList (hm : HMap) : List Nat :=
  (List.range hm.size).filter fun i => (bget hm i).key.isSome

theorem bucketEntry_isSome (b : Bucket) : (bucketEntry b).isSome = b.key.isSome := by
  cases hb : b.key <;> simp [bucketEntry, hb]

theorem occList_nodup (hm : HMap) : (occList hm).Nodup :=
  (List.nodup_range _).filter _

theorem length_occList (hm : HMap) (hlen : hm.buckets.length = hm.size) :
    (occList hm).length = (entriesL hm).length := by
  show _ = (hm.buckets.filterMap bucketEntry).length
  rw [length_filterMap_countP]
  have h1 := countP_eq_countP_range (fun b => (bucketEntry b).isSome) emptyBucket hm.buckets
  rw [h1, hlen, occList, ← List.countP_eq_length_filter]
  refine List.countP_congr ?_
  intro i _
  rw [bucketEntry_isSome]
  exact Iff.rfl

theorem mem_occList (hm : HMap) (i : Nat) :
    i ∈ occList hm ↔ i < hm.size ∧ (bget hm i).key ≠ none := by
  rw [occList, List.mem_filter, List.mem_range, Option.isSome_iff_ne_none]

theorem distinct_occ_le (hm : HMap) (hlen : hm.buckets.length = hm.size) (S : List Nat)
    (hnd : S.Nodup) (hS : ∀ i ∈ S, i < hm.size ∧ (bget hm i).key ≠ none) :
    S.length ≤ (entriesL hm).length := by
  rw [← length_occList hm hlen]
  refine List.Subperm.length_le (hnd.subperm ?_)
  intro i hi
  exact (mem_occList hm i).mpr (hS i hi)

/-! ### Modular index arithmetic -/

theorem mod_step (s a : Nat) : (a % s + 1) % s = (a + 1) % s := Nat.mod_add_mod a s 1

theorem mod_self_lt (s a : Nat) (hs : 0 < s) : a % s < s := Nat.mod_lt _ hs

theorem mod_base_eq (s base : Nat) (hb : base < s) : (base + 0) % s = base := by
  rw [Nat.add_zero, Nat.mod_eq_of_lt hb]

theorem mod_prev (s base m : Nat) (hs : 0 < s) (hm : 1 ≤ m) :
    ((base + m) % s + s - 1) % s = (base + (m - 1)) % s := by
  have h1 : (base + m) % s < s := Nat.mod_lt _ hs
  have h2 : (base + m) % s + s - 1 = (base + m) % s + (s - 1) := by omega
  rw [h2, Nat.mod_add_mod]
  have h3 : base + m + (s - 1) = (base + (m - 1)) + s := by omega
  rw [h3, Nat.add_mod_right]

theorem probe_inj (s base : Nat) {n1 n2 : Nat} (h1 : n1 < s) (h2 : n2 < s)
    (he : (base + n1) % s = (base + n2) % s) : n1 = n2 := by
  have hmq : n1 % s = n2 % s := Nat.ModEq.add_left_cancel' base he
  rwa [Nat.mod_eq_of_lt h1, Nat.mod_eq_of_lt h2] at hmq

/-- If fewer items than slots are stored, every probe sequence reaches an
empty slot within `size` steps. -/
theorem exists_empty_slot (hm : HMap) (hlen : hm.buckets.length = hm.size)
    (hsz : 0 < hm.size) (hlt : (entriesL hm).length < hm.size) (base : Nat) :
    ∃ n, n < hm.size ∧ (bget hm ((base + n) % hm.size)).key = none := by
  by_contra hcon
  push_neg at hcon
  have hcard : hm.size ≤ (entriesL hm).length := by
    have hnd : ((List.range hm.size).map fun n => (base + n) % hm.size).Nodup := by
      refine (List.nodup_range hm.size).map_on ?_
      intro n1 h1 n2 h2 he
      rw [List.mem_range] at h1 h2
      exact probe_inj hm.size base h1 h2 he
    have hle := distinct_occ_le hm hlen ((List.range hm.size).map fun n => (base + n) % hm.size)
      hnd ?_
    · rwa [List.length_map, List.length_range] at hle
    · intro i hi
      rw [List.mem_map] at hi
      obtain ⟨n, hn, rfl⟩ := hi
      rw [List.mem_range] at hn
      exact ⟨Nat.mod_lt _ hsz, hcon n hn⟩
  omega

/-! ### Well-formedness frames -/

/-- Basic shape facts every live table has: positive size below `UINT_MAX`,
a bucket array of exactly `size` slots, and the cached division constant. -/
structure Frame (hm : HMap) : Prop where
  size_pos : 0 < hm.size
  size_lt : hm.size < pow32
  blen : hm.buckets.length = hm.size
  dinfo : hm.divinfo = fast_div32_init hm.size

theorem Frame.idx {hm : HMap} (hf : Frame hm) (x : Nat) (hx : x < pow32) :
    fast_rem32 x hm.size hm.divinfo = x % hm.size :=
  fast_rem32_idx hm x hf.dinfo hf.size_pos hf.size_lt hx

theorem Frame.idx_succ {hm : HMap} (hf : Frame hm) (i : Nat) (hi : i < hm.size) :
    fast_rem32 (i + 1) hm.size hm.divinfo = (i + 1) % hm.size := by
  refine hf.idx (i + 1) ?_
  have := hf.size_lt
  omega

/-- The stored key bytes of a bucket (meaningful when occupied). -/
def keyOf (b : Bucket) : List Nat := b.key.getD []

/-- Per-bucket length soundness: empty buckets have `len = 0`; occupied
buckets have `len` equal to the stored key length, which is in `1..65535`. -/
def lenOkB (b : Bucket) : Prop :=
  (b.key = none → b.len = 0) ∧
  (b.key ≠ none → b.len = (keyOf b).length ∧ 0 < (keyOf b).length ∧ (keyOf b).length ≤ 65535)

/-- Length soundness of every bucket of the table. -/
def LensOk (hm : HMap) : Prop := ∀ i, i < hm.size → lenOkB (bget hm i)

theorem lenOkB_some {b : Bucket} {bs : List Nat} (h : lenOkB b) (hk : b.key = some bs) :
    b.len = bs.length ∧ 0 < bs.length ∧ bs.length ≤ 65535 := by
  have h2 := h.2 (by rw [hk]; exact Option.some_ne_none bs)
  rwa [keyOf, hk, Option.getD_some] at h2

/-- The C match condition minus the hash test, characterised: under length
soundness it holds exactly of the bucket storing `key`. -/
theorem match_iff_key {b : Bucket} {k : List Nat} (hlen : lenOkB b) (hkpos : 0 < k.length) :
    (b.len = k.length ∧ keyEq b.key k = true) ↔ b.key = some k := by
  constructor
  · rintro ⟨h1, h2⟩
    cases hb : b.key with
    | none => rw [hb] at h2; exact absurd h2 (by simp [keyEq])
    | some bs =>
      obtain ⟨hl, _, _⟩ := lenOkB_some hlen hb
      rw [hb] at h2
      have h3 : bs.take k.length = k := by simpa [keyEq] using h2
      have h4 : bs.length = k.length := by omega
      rw [← h4, List.take_length] at h3
      exact congrArg some h3
  · intro hb
    obtain ⟨hl, _, _⟩ := lenOkB_some hlen hb
    refine ⟨by omega, ?_⟩
    rw [hb]
    simp [keyEq]

/-- Alloc-stream hypothesis for one `rhashmap_insert` call: the key-copy
allocation (only present in copy mode) succeeds and leaves `suffix`. -/
def InsAlloc (st : St) (suffix : List Bool) : Prop :=
  if st.hm.nocopy then suffix = st.allocs
  else (takeAlloc st.allocs).1 = true ∧ suffix = (takeAlloc st.allocs).2

/-- The first `n` allocation attempts succeed and leave stream `suf`. -/
def FeedsTrue : Nat → List Bool → List Bool → Prop
  | 0, l, suf => suf = l
  | n + 1, l, suf => (takeAlloc l).1 = true ∧ FeedsTrue n (takeAlloc l).2 suf

theorem feedsTrue_nil : ∀ n, FeedsTrue n [] [] := by
  intro n
  induction n with
  | zero => rfl
  | succ n ih => exact ⟨rfl, ih⟩

theorem feedsTrue_replicate (suf : List Bool) : ∀ n, FeedsTrue n (List.replicate n true ++ suf) suf := by
  intro n
  induction n with
  | zero => rfl
  | succ n ih => exact ⟨rfl, ih⟩

/-! ### Buckets versus the stored multiset -/

/-- The stored keys as a multiset. -/
def keysM (hm : HMap) : Multiset (List Nat) := (entriesM hm).map Prod.fst

theorem bget_eq_getElem (hm : HMap) (i : Nat) (hi : i < hm.buckets.length) :
    bget hm i = hm.buckets[i] := by
  rw [bget, List.getD_eq_getElem?_getD, List.getElem?_eq_getElem hi, Option.getD_some]

theorem bget_mem (hm : HMap) (i : Nat) (hi : i < hm.buckets.length) :
    bget hm i ∈ hm.buckets := by
  rw [bget_eq_getElem hm i hi]
  exact List.getElem_mem hi

theorem mem_entriesM_of_bget (hm : HMap) (i : Nat) (hi : i < hm.buckets.length)
    (bs : List Nat) (hb : (bget hm i).key = some bs) :
    (bs, (bget hm i).val) ∈ entriesM hm := by
  show (bs, (bget hm i).val) ∈ entriesL hm
  rw [entriesL, List.mem_filterMap]
  refine ⟨bget hm i, bget_mem hm i hi, ?_⟩
  rw [bucketEntry, hb]
  rfl

theorem bget_of_mem_entriesM (hm : HMap) (k : List Nat) (v : Nat)
    (h : (k, v) ∈ entriesM hm) :
    ∃ i, i < hm.buckets.length ∧ (bget hm i).key = some k ∧ (bget hm i).val = v := by
  have h2 : (k, v) ∈ entriesL hm := h
  rw [entriesL, List.mem_filterMap] at h2
  obtain ⟨b, hb, hbe⟩ := h2
  obtain ⟨i, hlt, hget⟩ := List.getElem_of_mem hb
  have hkv : b.key = some k ∧ b.val = v := by
    cases hbk : b.key with
    | none => rw [bucketEntry, hbk] at hbe; simp at hbe
    | some bs =>
      rw [bucketEntry, hbk] at hbe
      simp at hbe
      obtain ⟨h1, h2⟩ := hbe
      exact ⟨congrArg some h1, h2⟩
  refine ⟨i, hlt, ?_, ?_⟩
  · rw [bget, List.getD_eq_getElem?_getD, List.getElem?_eq_getElem hlt, Option.getD_some, hget]
    exact hkv.1
  · rw [bget, List.getD_eq_getElem?_getD, List.getElem?_eq_getElem hlt, Option.getD_some, hget]
    exact hkv.2

theorem noKey_iff (hm : HMap) (hlen : hm.buckets.length = hm.size) (k : List Nat) :
    (∀ i, i < hm.size → (bget hm i).key ≠ some k) ↔ k ∉ keysM hm := by
  constructor
  · intro h hk
    rw [keysM, Multiset.mem_map] at hk
    obtain ⟨⟨k2, v⟩, hmem, hfst⟩ := hk
    obtain ⟨i, hi, hbk, _⟩ := bget_of_mem_entriesM hm k2 v hmem
    refine h i (by omega) ?_
    rw [hbk]
    simp only at hfst
    rw [hfst]
  · intro h i hi hbk
    refine h ?_
    rw [keysM, Multiset.mem_map]
    exact ⟨(k, (bget hm i).val), mem_entriesM_of_bget hm i (by omega) k hbk, rfl⟩

theorem entriesL_length_eq_card (hm : HMap) :
    (entriesL hm).length = Multiset.card (entriesM hm) := (Multiset.coe_card _).symm

/-! ### The displacement loop: multiset-level specification -/

theorem Frame.bsetF {hm : HMap} (hf : Frame hm) (i : Nat) (b : Bucket) :
    Frame (bset hm i b) := by
  refine ⟨hf.size_pos, hf.size_lt, ?_, hf.dinfo⟩
  rw [bset_blen]
  exact hf.blen

theorem lenOkB_psl (b : Bucket) (x : Nat) : lenOkB { b with psl := x } ↔ lenOkB b :=
  Iff.rfl

theorem bucketEntry_psl (b : Bucket) (x : Nat) :
    bucketEntry { b with psl := x } = bucketEntry b := rfl

/-- Multiset-level behaviour of the Robin Hood displacement loop when the
candidate key is absent and an empty slot lies `d < size` steps ahead: the
loop terminates, returns the inserted value, adds exactly the carried
entry to the stored multiset, bumps `nitems`, and preserves the frame and
length soundness.  (PSL bookkeeping is treated separately.) -/
theorem insertLoopWeak (hash : Nat) (key : List Nat) (val : Nat) :
    ∀ (fuel : Nat) (hm : HMap) (entry : Bucket) (i d : Nat),
    Frame hm → LensOk hm →
    entry.key ≠ none → lenOkB entry →
    0 < key.length →
    i < hm.size → d < fuel → d < hm.size →
    (bget hm ((i + d) % hm.size)).key = none →
    (∀ m, m ≤ d → (bget hm ((i + m) % hm.size)).key ≠ some key) →
    ∃ hm2, insertLoop hash key val fuel hm entry i = (some val, hm2) ∧
      hm2.size = hm.size ∧ hm2.divinfo = hm.divinfo ∧ hm2.minsize = hm.minsize ∧
      hm2.nocopy = hm.nocopy ∧ hm2.hashkey = hm.hashkey ∧
      hm2.buckets.length = hm.buckets.length ∧
      hm2.nitems = hm.nitems + 1 ∧
      entriesM hm2 = entriesM hm + ofOpt (bucketEntry entry) ∧
      LensOk hm2 := by
  intro fuel
  induction fuel with
  | zero =>
    intro hm entry i d _ _ _ _ _ _ hdf _ _ _
    omega
  | succ fuel ih =>
    intro hm entry i d hf hlens hek helen hkey hi hdf hds hempty habs
    have hi0 : (i + 0) % hm.size = i := mod_base_eq hm.size i hi
    have hilen : i < hm.buckets.length := by rw [hf.blen]; exact hi
    by_cases hc1 : (bget hm i).key = none
    · -- the current slot is free: place the carried entry
      refine ⟨{ bset hm i entry with nitems := hm.nitems + 1 }, ?_, rfl, rfl, rfl, rfl, rfl,
        ?_, rfl, ?_, ?_⟩
      · simp only [insertLoop]
        rw [if_pos hc1]
        rfl
      · exact List.length_set _ _ _
      · have hms := entriesM_bset hm i entry hilen
        have hz : bucketEntry (bget hm i) = none := by rw [bucketEntry, hc1]; rfl
        rw [hz] at hms
        show entriesM (bset hm i entry) = _
        rw [show ofOpt (α := List Nat × Nat) none = 0 from rfl, add_zero] at hms
        exact hms
      · intro j hj
        show lenOkB (bget (bset hm i entry) j)
        by_cases hji : j = i
        · subst hji
          rw [bget_bset_self hm j entry hilen]
          exact helen
        · rw [bget_bset_ne hm i j entry (fun he => hji he.symm)]
          exact hlens j hj
    · -- occupied: the duplicate test cannot fire (the key is absent)
      have hnomatch : ¬((bget hm i).hash = hash ∧ (bget hm i).len = key.length ∧
          keyEq (bget hm i).key key = true) := by
        rintro ⟨_, h2, h3⟩
        have := (match_iff_key (hlens i hi) hkey).mp ⟨h2, h3⟩
        have habs0 := habs 0 (Nat.zero_le d)
        rw [hi0] at habs0
        exact habs0 this
      have hd1 : 1 ≤ d := by
        rcases Nat.eq_zero_or_pos d with h | h
        · subst h
          rw [hi0] at hempty
          exact absurd hempty hc1
        · exact h
      -- step facts shared by both branches
      have hstep : ∀ m : Nat, ((i + 1) % hm.size + m) % hm.size = (i + (1 + m)) % hm.size := by
        intro m
        rw [Nat.mod_add_mod]
        congr 1
        omega
      have hne_i : ∀ m : Nat, 1 ≤ m → m ≤ d → (i + m) % hm.size ≠ i := by
        intro m h1 h2 he
        have he2 : (i + m) % hm.size = (i + 0) % hm.size := by rw [hi0]; exact he
        have := probe_inj hm.size i (Nat.lt_of_le_of_lt h2 hds) hf.size_pos he2
        omega
      by_cases hswap : (bget hm i).psl < entry.psl
      · -- swap: the resident is evicted and carried forward
        have hf2 : Frame (bset hm i entry) := hf.bsetF i entry
        have hlens2 : LensOk (bset hm i entry) := by
          intro j hj
          by_cases hji : j = i
          · subst hji
            rw [bget_bset_self hm j entry hilen]
            exact helen
          · rw [bget_bset_ne hm i j entry (fun he => hji he.symm)]
            exact hlens j hj
        have hempty2 : (bget (bset hm i entry) (((i + 1) % hm.size + (d - 1)) % hm.size)).key
            = none := by
          rw [hstep (d - 1), show 1 + (d - 1) = d by omega,
            bget_bset_ne hm i _ entry (fun he => hne_i d hd1 le_rfl he.symm)]
          exact hempty
        have habs2 : ∀ m, m ≤ d - 1 →
            (bget (bset hm i entry) (((i + 1) % hm.size + m) % hm.size)).key ≠ some key := by
          intro m hmle
          rw [hstep m, bget_bset_ne hm i _ entry
            (fun he => hne_i (1 + m) (by omega) (by omega) he.symm)]
          exact habs (1 + m) (by omega)
        obtain ⟨hm2, heq, f1, f2, f3, f4, f5, f6, f7, f8, f9⟩ :=
          ih (bset hm i entry) { bget hm i with psl := ((bget hm i).psl + 1) % pow16 }
            ((i + 1) % hm.size) (d - 1) hf2 hlens2 hc1 ((lenOkB_psl _ _).mpr (hlens i hi))
            hkey (mod_self_lt _ _ hf.size_pos) (by omega)
            (by show d - 1 < hm.size; omega) hempty2 habs2
        refine ⟨hm2, ?_, f1, f2, f3, f4, f5, ?_, ?_, ?_, f9⟩
        · simp only [insertLoop]
          rw [if_neg hc1, if_neg hnomatch]
          simp only [if_pos hswap]
          rw [hf.idx_succ i hi]
          exact heq
        · rw [f6, bset_blen]
        · rw [f7]
          rfl
        · rw [f8, bucketEntry_psl]
          exact entriesM_bset hm i entry hilen
      · -- no swap: the candidate keeps probing
        have hempty2 : (bget hm (((i + 1) % hm.size + (d - 1)) % hm.size)).key = none := by
          rw [hstep (d - 1), show 1 + (d - 1) = d by omega]
          exact hempty
        have habs2 : ∀ m, m ≤ d - 1 →
            (bget hm (((i + 1) % hm.size + m) % hm.size)).key ≠ some key := by
          intro m hmle
          rw [hstep m]
          exact habs (1 + m) (by omega)
        obtain ⟨hm2, heq, f1, f2, f3, f4, f5, f6, f7, f8, f9⟩ :=
          ih hm { entry with psl := (entry.psl + 1) % pow16 }
            ((i + 1) % hm.size) (d - 1) hf hlens hek ((lenOkB_psl _ _).mpr helen)
            hkey (mod_self_lt _ _ hf.size_pos) (by omega) (by omega) hempty2 habs2
        refine ⟨hm2, ?_, f1, f2, f3, f4, f5, f6, f7, ?_, f9⟩
        · simp only [insertLoop]
          rw [if_neg hc1, if_neg hnomatch]
          simp only [if_neg hswap]
          rw [hf.idx_succ i hi]
          exact heq
        · rw [f8, bucketEntry_psl]

/-- Multiset-level specification of `rhashmap_insert` for an absent key
whose key-copy allocation (in copy mode) succeeds: the pair is added, the
count grows by one, everything else is framed. -/
theorem insert_weak (hashFn : List Nat → Nat → Nat) (st : St) (key : List Nat) (val : Nat)
    (suffix : List Bool)
    (hf : Frame st.hm) (hlens : LensOk st.hm)
    (hkey : 0 < key.length) (hkey2 : key.length ≤ 65535)
    (habs : ∀ i, i < st.hm.size → (bget st.hm i).key ≠ some key)
    (hroom : (entriesL st.hm).length < st.hm.size)
    (halloc : InsAlloc st suffix) :
    ∃ hm2, rhashmap_insert hashFn st key val = (some val, ⟨hm2, suffix, st.rands⟩) ∧
      hm2.size = st.hm.size ∧ hm2.divinfo = st.hm.divinfo ∧ hm2.minsize = st.hm.minsize ∧
      hm2.nocopy = st.hm.nocopy ∧ hm2.hashkey = st.hm.hashkey ∧
      hm2.buckets.length = st.hm.buckets.length ∧
      hm2.nitems = st.hm.nitems + 1 ∧
      entriesM hm2 = entriesM st.hm + {(key, val)} ∧
      LensOk hm2 := by
  have hhash : compute_hash hashFn st.hm key < pow32 := Nat.mod_lt _ pow32_pos
  have hbase : fast_rem32 (compute_hash hashFn st.hm key) st.hm.size st.hm.divinfo =
      compute_hash hashFn st.hm key % st.hm.size := hf.idx _ hhash
  have hbaselt : compute_hash hashFn st.hm key % st.hm.size < st.hm.size :=
    mod_self_lt _ _ hf.size_pos
  obtain ⟨d, hds, hdempty⟩ := exists_empty_slot st.hm hf.blen hf.size_pos hroom
    (compute_hash hashFn st.hm key % st.hm.size)
  have hentry : lenOkB (⟨some key, val, compute_hash hashFn st.hm key, 0,
      key.length % pow16⟩ : Bucket) := by
    constructor
    · intro h
      simp at h
    · intro _
      have : key.length % pow16 = key.length := by
        have hp16 : pow16 = 65536 := rfl
        rw [hp16]
        omega
      refine ⟨?_, hkey, hkey2⟩
      show key.length % pow16 = (keyOf _).length
      rw [this]
      rfl
  obtain ⟨hm2, hloop, f1, f2, f3, f4, f5, f6, f7, f8, f9⟩ :=
    insertLoopWeak (compute_hash hashFn st.hm key) key val (st.hm.size + 1) st.hm
      ⟨some key, val, compute_hash hashFn st.hm key, 0, key.length % pow16⟩
      (compute_hash hashFn st.hm key % st.hm.size) d hf hlens (by simp) hentry hkey
      hbaselt (by omega) hds hdempty
      (fun m _ => habs _ (mod_self_lt _ _ hf.size_pos))
  have hofopt : ofOpt (bucketEntry (⟨some key, val, compute_hash hashFn st.hm key, 0,
      key.length % pow16⟩ : Bucket)) = {(key, val)} := rfl
  rw [hofopt] at f8
  refine ⟨hm2, ?_, f1, f2, f3, f4, f5, f6, f7, f8, f9⟩
  by_cases hnc : st.hm.nocopy = true
  · simp only [rhashmap_insert, hnc]
    rw [if_pos trivial, hbase, hloop]
    have hsuf : suffix = st.allocs := by
      have h2 := halloc
      rw [InsAlloc, hnc] at h2
      rw [if_pos rfl] at h2
      exact h2
    rw [hsuf]
  · have hnc2 : st.hm.nocopy = false := by
      cases hb : st.hm.nocopy
      · rfl
      · exact absurd hb hnc
    have h2 := halloc
    rw [InsAlloc, hnc2] at h2
    rw [if_neg Bool.false_ne_true] at h2
    obtain ⟨hta, hsuf⟩ := h2
    simp only [rhashmap_insert, hnc2]
    rw [if_neg Bool.false_ne_true, hbase, hloop, hta, hsuf]
    rw [if_pos rfl]

/-! ### Rehash and resize: multiset-level specification -/

/-- The pairs stored in a plain bucket list. -/
def entriesOf (bl : List Bucket) : Multiset (List Nat × Nat) :=
  ((bl.filterMap bucketEntry : List (List Nat × Nat)) : Multiset (List Nat × Nat))

/-- The number of occupied buckets in a list. -/
def occCount (bl : List Bucket) : Nat := bl.countP fun b => b.key.isSome

/-- The stored keys of a bucket list, in order. -/
def keysOfL (bl : List Bucket) : List (List Nat) := (bl.filterMap bucketEntry).map Prod.fst

/-- Stored keys have legal lengths. -/
def blKeysOk (bl : List Bucket) : Prop :=
  ∀ b ∈ bl, ∀ bs, b.key = some bs → 0 < bs.length ∧ bs.length ≤ 65535

/-- Number of allocations the rehash loop performs over `bl`. -/
def popsFor (nocopy : Bool) (bl : List Bucket) : Nat := if nocopy then 0 else occCount bl

theorem rehash_cons (hashFn : List Nat → Nat → Nat) (b : Bucket) (rest : List Bucket) (st : St) :
    rehash hashFn (b :: rest) st =
      rehash hashFn rest
        (match b.key with
         | none => st
         | some bs => (rhashmap_insert hashFn st bs b.val).2) := by
  rw [rehash, rehash, List.foldl_cons]

theorem keysM_add_pair (m : Multiset (List Nat × Nat)) (k : List Nat) (v : Nat) :
    (m + {(k, v)}).map Prod.fst = m.map Prod.fst + {k} := by
  rw [Multiset.map_add, Multiset.map_singleton]

/-- Multiset-level specification of the rehash loop: with distinct, legal,
absent keys and room in the table, it transfers exactly the stored pairs. -/
theorem rehash_weak (hashFn : List Nat → Nat → Nat) :
    ∀ (rest : List Bucket) (st : St) (suffix : List Bool),
    Frame st.hm → LensOk st.hm →
    st.hm.nitems = (entriesL st.hm).length →
    blKeysOk rest →
    (keysOfL rest).Nodup →
    (∀ k, k ∈ keysOfL rest → k ∉ keysM st.hm) →
    (entriesL st.hm).length + occCount rest ≤ st.hm.size →
    FeedsTrue (popsFor st.hm.nocopy rest) st.allocs suffix →
    ∃ hm2, rehash hashFn rest st = ⟨hm2, suffix, st.rands⟩ ∧
      hm2.size = st.hm.size ∧ hm2.divinfo = st.hm.divinfo ∧ hm2.minsize = st.hm.minsize ∧
      hm2.nocopy = st.hm.nocopy ∧ hm2.hashkey = st.hm.hashkey ∧
      hm2.buckets.length = st.hm.buckets.length ∧
      hm2.nitems = st.hm.nitems + occCount rest ∧
      entriesM hm2 = entriesM st.hm + entriesOf rest ∧
      LensOk hm2 := by
  intro rest
  induction rest with
  | nil =>
    intro st suffix hf hlens hitems _ _ _ _ halloc
    have hp0 : popsFor st.hm.nocopy [] = 0 := by
      rw [popsFor, occCount]
      cases st.hm.nocopy <;> rfl
    rw [hp0] at halloc
    have hsuf : suffix = st.allocs := halloc
    refine ⟨st.hm, ?_, rfl, rfl, rfl, rfl, rfl, rfl, ?_, ?_, hlens⟩
    · rw [hsuf]
      rfl
    · show st.hm.nitems = st.hm.nitems + occCount []
      rfl
    · show entriesM st.hm = entriesM st.hm + entriesOf []
      have h0 : entriesOf [] = 0 := rfl
      rw [h0, add_zero]
  | cons b rest ih =>
    intro st suffix hf hlens hitems hkok hnodup habs hcap halloc
    cases hbk : b.key with
    | none =>
      have hocc : occCount (b :: rest) = occCount rest := by
        rw [occCount, List.countP_cons, hbk]
        simp [occCount]
      have hentr : entriesOf (b :: rest) = entriesOf rest := by
        rw [entriesOf, List.filterMap_cons, bucketEntry, hbk]
        rfl
      have hkeys : keysOfL (b :: rest) = keysOfL rest := by
        rw [keysOfL, List.filterMap_cons, bucketEntry, hbk]
        rfl
      rw [rehash_cons, hbk]
      rw [hkeys] at hnodup habs
      rw [hocc] at hcap
      have hpops : popsFor st.hm.nocopy (b :: rest) = popsFor st.hm.nocopy rest := by
        rw [popsFor, popsFor, hocc]
      rw [hpops] at halloc
      obtain ⟨hm2, heq, rest_facts⟩ := ih st suffix hf hlens hitems
        (fun b2 hb2 => hkok b2 (List.mem_cons_of_mem b hb2)) hnodup habs hcap halloc
      refine ⟨hm2, heq, ?_⟩
      rw [hocc, hentr]
      exact rest_facts
    | some bs =>
      have hbe : bucketEntry b = some (bs, b.val) := by rw [bucketEntry, hbk]; rfl
      have hkeys : keysOfL (b :: rest) = bs :: keysOfL rest := by
        rw [keysOfL, List.filterMap_cons, hbe, keysOfL]
        rfl
      have hocc : occCount (b :: rest) = occCount rest + 1 := by
        rw [occCount, List.countP_cons, hbk]
        simp [occCount]
      have hentr : entriesOf (b :: rest) = {(bs, b.val)} + entriesOf rest := by
        rw [entriesOf, List.filterMap_cons, hbe, entriesOf]
        simp
      rw [hkeys] at hnodup habs
      obtain ⟨hbs1, hbs2⟩ := hkok b (List.mem_cons_self b rest) bs hbk
      -- split the alloc stream at this insert
      have hinsal : ∃ mid, InsAlloc st mid ∧ FeedsTrue (popsFor st.hm.nocopy rest) mid suffix := by
        by_cases hnc : st.hm.nocopy = true
        · refine ⟨st.allocs, ?_, ?_⟩
          · rw [InsAlloc, hnc, if_pos rfl]
          · have h2 := halloc
            rw [popsFor, hnc, if_pos rfl] at h2
            rw [popsFor, hnc, if_pos rfl]
            exact h2
        · have hnc2 : st.hm.nocopy = false := by
            cases hb2 : st.hm.nocopy
            · rfl
            · exact absurd hb2 hnc
          have h2 := halloc
          rw [popsFor, hnc2, if_neg Bool.false_ne_true, hocc] at h2
          obtain ⟨hta, hrest⟩ := h2
          refine ⟨(takeAlloc st.allocs).2, ?_, ?_⟩
          · rw [InsAlloc, hnc2, if_neg Bool.false_ne_true]
            exact ⟨hta, rfl⟩
          · rw [popsFor, hnc2, if_neg Bool.false_ne_true]
            exact hrest
      obtain ⟨mid, hmid, hmidfeeds⟩ := hinsal
      have habsB : ∀ i, i < st.hm.size → (bget st.hm i).key ≠ some bs :=
        (noKey_iff st.hm hf.blen bs).mpr (habs bs (List.mem_cons_self _ _))
      have hroom : (entriesL st.hm).length < st.hm.size := by
        rw [hocc] at hcap
        omega
      obtain ⟨hm2, hins, g1, g2, g3, g4, g5, g6, g7, g8, g9⟩ :=
        insert_weak hashFn st bs b.val mid hf hlens hbs1 hbs2 habsB hroom hmid
      have hstep1 : rehash hashFn (b :: rest) st =
          rehash hashFn rest (rhashmap_insert hashFn st bs b.val).2 := by
        rw [rehash_cons]
        congr 1
        rw [hbk]
      -- the state after this insert
      have hlen2 : (entriesL hm2).length = (entriesL st.hm).length + 1 := by
        rw [entriesL_length_eq_card, entriesL_length_eq_card, g8, Multiset.card_add,
          Multiset.card_singleton]
      have hf2 : Frame hm2 := by
        refine ⟨?_, ?_, ?_, ?_⟩
        · rw [g1]; exact hf.size_pos
        · rw [g1]; exact hf.size_lt
        · rw [g6, g1]; exact hf.blen
        · rw [g2, g1]; exact hf.dinfo
      have hkeys2 : keysM hm2 = keysM st.hm + {bs} := by
        rw [keysM, entriesM, keysM, ← keysM_add_pair (entriesM st.hm) bs b.val]
        rw [← g8]
        rfl
      obtain ⟨hm3, heq3, k1, k2, k3, k4, k5, k6, k7, k8, k9⟩ :=
        ih ⟨hm2, mid, st.rands⟩ suffix hf2 g9 (by rw [g7, hlen2, hitems])
          (fun b2 hb2 => hkok b2 (List.mem_cons_of_mem b hb2))
          hnodup.of_cons
          (fun k hk => by
            rw [hkeys2]
            intro hmem
            rw [Multiset.mem_add] at hmem
            rcases hmem with h | h
            · exact habs k (List.mem_cons_of_mem bs hk) h
            · rw [Multiset.mem_singleton] at h
              subst h
              exact (List.nodup_cons.mp hnodup).1 hk)
          (by rw [hlen2, g1]; rw [hocc] at hcap; omega)
          (by rw [g4]; exact hmidfeeds)
      refine ⟨hm3, ?_, ?_, ?_, ?_, ?_, ?_, ?_, ?_, ?_, k9⟩
      · rw [hstep1, hins]
        exact heq3
      · rw [k1, g1]
      · rw [k2, g2]
      · rw [k3, g3]
      · rw [k4, g4]
      · rw [k5, g5]
      · rw [k6, g6]
      · rw [k7, g7, hocc]
        omega
      · rw [k8, g8, hentr]
        have : entriesM st.hm + {(bs, b.val)} + entriesOf rest =
            entriesM st.hm + ({(bs, b.val)} + entriesOf rest) := by rw [add_assoc]
        exact this

/-! ### Fresh (all-empty) tables -/

theorem bget_of_buckets (hm : HMap) (i : Nat) : bget hm i = hm.buckets.getD i emptyBucket := rfl

theorem getD_replicate (n i : Nat) (b d : Bucket) :
    (List.replicate n b).getD i d = if i < n then b else d := by
  rw [List.getD_eq_getElem?_getD, List.getElem?_replicate]
  by_cases h : i < n
  · rw [if_pos h, if_pos h]
    rfl
  · rw [if_neg h, if_neg h]
    rfl

theorem filterMap_replicate_empty (n : Nat) :
    List.filterMap bucketEntry (List.replicate n emptyBucket) = [] := by
  induction n with
  | zero => rfl
  | succ n ih =>
    rw [List.replicate_succ, List.filterMap_cons]
    exact ih

/-- The table produced by `resizeCore`: empty slots, fresh seed, zero count. -/
theorem resizeCore_spec (hashFn : List Nat → Nat → Nat) (st : St) (newsize : Nat)
    (oldbuckets : List Bucket) (suffix : List Bool)
    (hns1 : 0 < newsize) (hns2 : newsize < pow32)
    (hkok : blKeysOk oldbuckets)
    (hnodup : (keysOfL oldbuckets).Nodup)
    (hocc : occCount oldbuckets ≤ newsize)
    (halloc : FeedsTrue (popsFor st.hm.nocopy oldbuckets) st.allocs suffix) :
    ∃ hm2, resizeCore hashFn st newsize oldbuckets =
        ⟨hm2, suffix, (takeRand (takeRand st.rands).2).2⟩ ∧
      hm2.size = newsize ∧ hm2.divinfo = fast_div32_init newsize ∧
      hm2.minsize = st.hm.minsize ∧ hm2.nocopy = st.hm.nocopy ∧
      hm2.buckets.length = newsize ∧
      hm2.nitems = occCount oldbuckets ∧
      entriesM hm2 = entriesOf oldbuckets ∧
      LensOk hm2 ∧ Frame hm2 := by
  have hfresh : ∀ hk, Frame ({ st.hm with
      buckets := List.replicate newsize emptyBucket,
      size := newsize, nitems := 0,
      divinfo := fast_div32_init newsize,
      hashkey := hk } : HMap) := by
    intro hk
    exact ⟨hns1, hns2, List.length_replicate _ _, rfl⟩
  have hlens1 : ∀ hk, LensOk ({ st.hm with
      buckets := List.replicate newsize emptyBucket,
      size := newsize, nitems := 0,
      divinfo := fast_div32_init newsize,
      hashkey := hk } : HMap) := by
    intro hk j hj
    show lenOkB ((List.replicate newsize emptyBucket).getD j emptyBucket)
    rw [getD_replicate, if_pos hj]
    exact ⟨fun _ => rfl, fun h => absurd rfl h⟩
  have hentr1 : ∀ hk, entriesL ({ st.hm with
      buckets := List.replicate newsize emptyBucket,
      size := newsize, nitems := 0,
      divinfo := fast_div32_init newsize,
      hashkey := hk } : HMap) = [] := by
    intro hk
    exact filterMap_replicate_empty newsize
  rw [resizeCore]
  obtain ⟨hm2, heq, k1, k2, k3, k4, k5, k6, k7, k8, k9⟩ :=
    rehash_weak hashFn oldbuckets
      ⟨{ st.hm with
          buckets := List.replicate newsize emptyBucket,
          size := newsize, nitems := 0,
          divinfo := fast_div32_init newsize,
          hashkey := st.hm.hashkey ^^^ ((takeRand st.rands).1 ||| (takeRand (takeRand st.rands).2).1 * pow32) },
        st.allocs, (takeRand (takeRand st.rands).2).2⟩
      suffix (hfresh _) (hlens1 _) (by rw [hentr1]; rfl) hkok hnodup
      (fun k _ hk => by rw [keysM, entriesM, hentr1] at hk; simp at hk)
      (by rw [hentr1]; simpa using hocc) halloc
  refine ⟨hm2, ?_, ?_, ?_, ?_, ?_, ?_, ?_, ?_, k9, ?_⟩
  · exact heq
  · rw [k1]
  · rw [k2]
  · rw [k3]
  · rw [k4]
  · rw [k6]
    exact List.length_replicate _ _
  · rw [k7]
    exact Nat.zero_add _
  · rw [k8, entriesM, hentr1]
    have h0 : (([] : List (List Nat × Nat)) : Multiset (List Nat × Nat)) = 0 := rfl
    rw [h0, zero_add]
  · exact ⟨by rw [k1]; exact hns1, by rw [k1]; exact hns2,
      by rw [k6, k1]; exact List.length_replicate _ _, by rw [k2, k1]⟩

/-- Multiset-level specification of a successful `rhashmap_resize`: the new
table holds exactly the old pairs and count, at the new capacity. -/
theorem resize_weak (hashFn : List Nat → Nat → Nat) (st : St) (newsize : Nat)
    (suffix : List Bool)
    (hns1 : 0 < newsize) (hns2 : newsize ≤ 4294967295)
    (hkok : blKeysOk st.hm.buckets)
    (hnodup : (keysOfL st.hm.buckets).Nodup)
    (hocc : occCount st.hm.buckets ≤ newsize)
    (halloc : FeedsTrue (popsFor st.hm.nocopy st.hm.buckets + (if newsize = 1 then 0 else 1))
      st.allocs suffix) :
    ∃ hm2, rhashmap_resize hashFn st newsize =
        (true, ⟨hm2, suffix, (takeRand (takeRand st.rands).2).2⟩) ∧
      hm2.size = newsize ∧ hm2.divinfo = fast_div32_init newsize ∧
      hm2.minsize = st.hm.minsize ∧ hm2.nocopy = st.hm.nocopy ∧
      hm2.buckets.length = newsize ∧
      hm2.nitems = occCount st.hm.buckets ∧
      entriesM hm2 = entriesOf st.hm.buckets ∧
      LensOk hm2 ∧ Frame hm2 := by
  have hnslt : newsize < pow32 := by
    have : pow32 = 4294967296 := rfl
    omega
  by_cases h1 : newsize = 1
  · subst h1
    rw [if_pos rfl, Nat.add_zero] at halloc
    obtain ⟨hm2, heq, rest⟩ := resizeCore_spec hashFn st 1 st.hm.buckets suffix
      hns1 hnslt hkok hnodup hocc halloc
    refine ⟨hm2, ?_, rest⟩
    rw [rhashmap_resize, if_pos rfl, heq]
  · rw [if_neg h1] at halloc
    obtain ⟨hta, hfeeds⟩ := halloc
    obtain ⟨hm2, heq, rest⟩ := resizeCore_spec hashFn
      ⟨st.hm, (takeAlloc st.allocs).2, st.rands⟩ newsize st.hm.buckets suffix
      hns1 hnslt hkok hnodup hocc hfeeds
    refine ⟨hm2, ?_, rest⟩
    rw [rhashmap_resize, if_neg h1, if_neg (by omega)]
    show (if (takeAlloc st.allocs).1 = true
        then (true, resizeCore hashFn ⟨st.hm, (takeAlloc st.allocs).2, st.rands⟩ newsize st.hm.buckets)
        else (false, ⟨st.hm, (takeAlloc st.allocs).2, st.rands⟩)) = _
    rw [hta, if_pos rfl]
    exact congrArg (fun x => (true, x)) heq

/-! ### The documented table invariant -/

/-- Per-bucket soundness of the stored hash and PSL fields: the stored hash
is the digest of the stored key, and the PSL is the true displacement
`(i - idealSlot) mod size` of the bucket from its ideal slot, within the
16-bit field range. -/
def bsound (hashFn : List Nat → Nat → Nat) (hm : HMap) (i : Nat) : Prop :=
  (bget hm i).key ≠ none →
    (bget hm i).hash = compute_hash hashFn hm (keyOf (bget hm i)) ∧
    (bget hm i).psl =
      (i + hm.size - compute_hash hashFn hm (keyOf (bget hm i)) % hm.size) % hm.size ∧
    (bget hm i).psl < pow16

/-- Run continuity: a displaced bucket follows an occupied bucket whose PSL
is at most one smaller (probe paths have no holes). -/
def bcont (hm : HMap) (i : Nat) : Prop :=
  (bget hm i).key ≠ none → 0 < (bget hm i).psl →
    (bget hm ((i + hm.size - 1) % hm.size)).key ≠ none ∧
    (bget hm i).psl ≤ (bget hm ((i + hm.size - 1) % hm.size)).psl + 1

/-- The data-model invariant of the specification (section 3): frame facts,
`count` bookkeeping, key uniqueness, hash/PSL/length soundness and run
continuity. -/
structure Inv (hashFn : List Nat → Nat → Nat) (hm : HMap) : Prop where
  frame : Frame hm
  min_pos : 0 < hm.minsize
  min_le : hm.minsize ≤ hm.size
  items : hm.nitems = (entriesL hm).length
  items_le : hm.nitems ≤ hm.size
  lens : LensOk hm
  nodupKeys : (keysL hm).Nodup
  sound : ∀ i, i < hm.size → bsound hashFn hm i
  cont : ∀ i, i < hm.size → bcont hm i

theorem Inv.bsound_some {hashFn : List Nat → Nat → Nat} {hm : HMap}
    (hinv : Inv hashFn hm) {i : Nat} {bs : List Nat} (hi : i < hm.size)
    (hk : (bget hm i).key = some bs) :
    (bget hm i).hash = compute_hash hashFn hm bs ∧
    (bget hm i).psl = (i + hm.size - compute_hash hashFn hm bs % hm.size) % hm.size ∧
    (bget hm i).psl < pow16 := by
  have h := hinv.sound i hi (by rw [hk]; exact Option.some_ne_none bs)
  rwa [keyOf, hk, Option.getD_some] at h

theorem disp_repr (s base j : Nat) (hs : 0 < s) (hb : base ≤ s) (hj : j < s) :
    (base + (j + s - base) % s) % s = j := by
  rw [Nat.add_comm base, Nat.mod_add_mod, Nat.add_comm _ base]
  have h1 : base + (j + s - base) = j + s := by omega
  rw [h1, Nat.add_mod_right, Nat.mod_eq_of_lt hj]

/-- The probe-chain fact: behind any occupied bucket of displacement `d`,
the `d` buckets back to its ideal slot are all occupied with PSLs at least
their own distance from that ideal slot. -/
theorem Inv.chain {hashFn : List Nat → Nat → Nat} {hm : HMap} (hinv : Inv hashFn hm)
    (base d : Nat) (hd : d < hm.size)
    (hocc : (bget hm ((base + d) % hm.size)).key ≠ none)
    (hpsl : d ≤ (bget hm ((base + d) % hm.size)).psl) :
    ∀ m, m ≤ d → (bget hm ((base + m) % hm.size)).key ≠ none ∧
      m ≤ (bget hm ((base + m) % hm.size)).psl := by
  have hs := hinv.frame.size_pos
  have main : ∀ t, t ≤ d → (bget hm ((base + (d - t)) % hm.size)).key ≠ none ∧
      d - t ≤ (bget hm ((base + (d - t)) % hm.size)).psl := by
    intro t
    induction t with
    | zero =>
      intro _
      exact ⟨by simpa using hocc, by simpa using hpsl⟩
    | succ t ih =>
      intro ht
      obtain ⟨hocc2, hpsl2⟩ := ih (by omega)
      have hdt1 : 1 ≤ d - t := by omega
      have hpos : 0 < (bget hm ((base + (d - t)) % hm.size)).psl := by omega
      have hc := hinv.cont ((base + (d - t)) % hm.size) (mod_self_lt _ _ hs) hocc2 hpos
      rw [mod_prev hm.size base (d - t) hs hdt1] at hc
      have he : d - t - 1 = d - (t + 1) := by omega
      rw [he] at hc
      exact ⟨hc.1, by omega⟩
  intro m hm2
  have := main (d - m) (by omega)
  have he : d - (d - m) = m := by omega
  rw [he] at this
  exact this

/-- Occupied-bucket count of a bucket list equals its entry-list length. -/
theorem occCount_eq (bl : List Bucket) : occCount bl = (bl.filterMap bucketEntry).length := by
  rw [length_filterMap_countP, occCount]
  refine List.countP_congr ?_
  intro b _
  rw [bucketEntry_isSome]

theorem Inv.blKeysOk {hashFn : List Nat → Nat → Nat} {hm : HMap} (hinv : Inv hashFn hm) :
    blKeysOk hm.buckets := by
  intro b hb bs hbk
  obtain ⟨i, hlt, hget⟩ := List.getElem_of_mem hb
  have hbi : bget hm i = b := by
    rw [bget_eq_getElem hm i hlt, hget]
  have hi : i < hm.size := by
    rw [← hinv.frame.blen]
    exact hlt
  have := lenOkB_some (hinv.lens i hi) (by rw [hbi]; exact hbk)
  exact ⟨this.2.1, this.2.2⟩

theorem Inv.occ_eq_nitems {hashFn : List Nat → Nat → Nat} {hm : HMap} (hinv : Inv hashFn hm) :
    occCount hm.buckets = hm.nitems := by
  rw [occCount_eq, hinv.items]
  rfl

/-! ### Key uniqueness and lookup correctness -/

theorem keysM_coe (hm : HMap) : keysM hm = ((keysL hm : List (List Nat)) : Multiset (List Nat)) := by
  rw [keysM, keysL, entriesM]
  exact Multiset.map_coe _ _

/-- Under the invariant a key occupies at most one slot. -/
theorem Inv.key_unique {hashFn : List Nat → Nat → Nat} {hm : HMap} (hinv : Inv hashFn hm)
    {i1 i2 : Nat} {k : List Nat} (h1 : i1 < hm.size) (h2 : i2 < hm.size)
    (hk1 : (bget hm i1).key = some k) (hk2 : (bget hm i2).key = some k) : i1 = i2 := by
  by_contra hne
  have hlen1 : i1 < hm.buckets.length := by rw [hinv.frame.blen]; exact h1
  have hlen2 : i2 < hm.buckets.length := by rw [hinv.frame.blen]; exact h2
  have hms := entriesM_bset hm i1 emptyBucket hlen1
  have hb1 : bucketEntry (bget hm i1) = some (k, (bget hm i1).val) := by
    rw [bucketEntry, hk1]
    rfl
  have hbe : bucketEntry emptyBucket = none := rfl
  rw [hb1, hbe] at hms
  have hz : ofOpt (α := List Nat × Nat) none = 0 := rfl
  have hsing : ofOpt (some (k, (bget hm i1).val)) = {(k, (bget hm i1).val)} := rfl
  rw [hz, add_zero, hsing] at hms
  -- slot i2 still holds k in the cleared table
  have hget2 : (bget (bset hm i1 emptyBucket) i2).key = some k := by
    rw [bget_bset_ne hm i1 i2 emptyBucket hne]
    exact hk2
  have hmem2 : k ∈ keysM (bset hm i1 emptyBucket) := by
    rw [keysM, Multiset.mem_map]
    exact ⟨(k, (bget (bset hm i1 emptyBucket) i2).val),
      mem_entriesM_of_bget _ i2 (by rw [bset_blen]; exact hlen2) k hget2, rfl⟩
  have hcount : 2 ≤ Multiset.count k (keysM hm) := by
    have hkeq : keysM hm = keysM (bset hm i1 emptyBucket) + {k} := by
      rw [keysM, keysM, ← hms, Multiset.map_add, Multiset.map_singleton]
    rw [hkeq, Multiset.count_add, Multiset.count_singleton_self]
    have := Multiset.one_le_count_iff_mem.mpr hmem2
    omega
  have hnd : Multiset.count k (keysM hm) ≤ 1 := by
    have hnd2 : (keysM hm).Nodup := by
      rw [keysM_coe]
      exact Multiset.coe_nodup.mpr hinv.nodupKeys
    exact Multiset.nodup_iff_count_le_one.mp hnd2 k
  omega

/-- A probe that never matches returns `NULL`, for any fuel and any start. -/
theorem getLoop_miss (hm : HMap) (hf : Frame hm) (hlens : LensOk hm) (hash : Nat)
    (key : List Nat) (hk : 0 < key.length)
    (habs : ∀ j, j < hm.size → (bget hm j).key ≠ some key) :
    ∀ fuel n i, i < hm.size → getLoop hm hash key fuel n i = none := by
  intro fuel
  induction fuel with
  | zero => intro n i _; rfl
  | succ fuel ih =>
    intro n i hi
    have hnomatch : ¬((bget hm i).hash = hash ∧ (bget hm i).len = key.length ∧
        keyEq (bget hm i).key key = true) := by
      rintro ⟨_, h2, h3⟩
      exact habs i hi ((match_iff_key (hlens i hi) hk).mp ⟨h2, h3⟩)
    simp only [getLoop]
    rw [if_neg hnomatch]
    by_cases hstop : (bget hm i).key = none ∨ (bget hm i).psl < n
    · rw [if_pos hstop]
    · rw [if_neg hstop, hf.idx_succ i hi]
      exact ih (n + 1) _ (mod_self_lt _ _ hf.size_pos)

/-- `rhashmap_get` misses exactly the absent keys. -/
theorem rhashmap_get_none (hashFn : List Nat → Nat → Nat) (hm : HMap) (hf : Frame hm)
    (hlens : LensOk hm) (key : List Nat) (hk : 0 < key.length)
    (habs : key ∉ keysM hm) :
    rhashmap_get hashFn hm key = none := by
  have hcb : compute_hash hashFn hm key < pow32 := Nat.mod_lt _ pow32_pos
  rw [rhashmap_get]
  refine getLoop_miss hm hf hlens _ key hk ((noKey_iff hm hf.blen key).mpr habs) _ 0 _ ?_
  rw [hf.idx _ hcb]
  exact mod_self_lt _ _ hf.size_pos

/-- The lookup loop finds a stored key: walking from `m` steps past the
ideal slot (still before the key), it returns the stored value. -/
theorem getLoop_hit (hashFn : List Nat → Nat → Nat) (hm : HMap) (hinv : Inv hashFn hm)
    (k : List Nat) (j d : Nat) (hj : j < hm.size)
    (hkey : (bget hm j).key = some k) (hd : (bget hm j).psl = d)
    (hrepr : (compute_hash hashFn hm k % hm.size + d) % hm.size = j)
    (hds : d < hm.size) :
    ∀ t, t ≤ d → ∀ fuel, t < fuel →
      getLoop hm (compute_hash hashFn hm k) k fuel (d - t)
        ((compute_hash hashFn hm k % hm.size + (d - t)) % hm.size) = some (bget hm j).val := by
  have hs := hinv.frame.size_pos
  have hklen := lenOkB_some (hinv.lens j hj) hkey
  have hkpos : 0 < k.length := hklen.2.1
  have hchain := hinv.chain (compute_hash hashFn hm k % hm.size) d hds
    (by rw [hrepr, hkey]; exact Option.some_ne_none k) (by rw [hrepr, hd])
  intro t
  induction t with
  | zero =>
    intro _ fuel hfuel
    obtain ⟨fuel2, rfl⟩ : ∃ fuel2, fuel = fuel2 + 1 := by
      refine ⟨fuel - 1, ?_⟩
      omega
    simp only [Nat.sub_zero, getLoop, hrepr]
    have hmatch : (bget hm j).hash = compute_hash hashFn hm k ∧
        (bget hm j).len = k.length ∧ keyEq (bget hm j).key k = true := by
      refine ⟨(hinv.bsound_some hj hkey).1, ?_⟩
      exact (match_iff_key (hinv.lens j hj) hkpos).mpr hkey
    rw [if_pos hmatch]
  | succ t ih =>
    intro ht fuel hfuel
    have hm1 : d - (t + 1) + 1 = d - t := by omega
    have hmlt : d - (t + 1) < d := by omega
    obtain ⟨fuel2, rfl⟩ : ∃ fuel2, fuel = fuel2 + 1 := by
      refine ⟨fuel - 1, ?_⟩
      omega
    obtain ⟨hocc2, hpsl2⟩ := hchain (d - (t + 1)) (by omega)
    have hnomatch : ¬((bget hm ((compute_hash hashFn hm k % hm.size + (d - (t + 1))) % hm.size)).hash
        = compute_hash hashFn hm k ∧
        (bget hm ((compute_hash hashFn hm k % hm.size + (d - (t + 1))) % hm.size)).len = k.length ∧
        keyEq (bget hm ((compute_hash hashFn hm k % hm.size + (d - (t + 1))) % hm.size)).key k
          = true) := by
      rintro ⟨_, h2, h3⟩
      have hkk := (match_iff_key
        (hinv.lens _ (mod_self_lt _ _ hs)) hkpos).mp ⟨h2, h3⟩
      have := hinv.key_unique (mod_self_lt _ _ hs) hj hkk hkey
      rw [← hrepr] at this
      have := probe_inj hm.size (compute_hash hashFn hm k % hm.size)
        (by omega) hds this
      omega
    simp only [getLoop]
    rw [if_neg hnomatch, if_neg (by
      push_neg
      refine ⟨hocc2, ?_⟩
      omega)]
    rw [hinv.frame.idx_succ _ (mod_self_lt _ _ hs), mod_step, Nat.add_assoc _ (d - (t + 1)) 1,
      hm1]
    exact ih (by omega) fuel2 (by omega)

/-- `rhashmap_get` returns the stored value of a present key. -/
theorem rhashmap_get_some (hashFn : List Nat → Nat → Nat) (hm : HMap)
    (hinv : Inv hashFn hm) (k : List Nat) (v : Nat)
    (hmem : (k, v) ∈ entriesM hm) :
    rhashmap_get hashFn hm k = some v := by
  obtain ⟨j, hjlen, hkey, hval⟩ := bget_of_mem_entriesM hm k v hmem
  have hj : j < hm.size := by rw [← hinv.frame.blen]; exact hjlen
  have hs := hinv.frame.size_pos
  have hsound := hinv.bsound_some hj hkey
  have hb : compute_hash hashFn hm k % hm.size ≤ hm.size :=
    Nat.le_of_lt (mod_self_lt _ _ hs)
  have hrepr : (compute_hash hashFn hm k % hm.size + (bget hm j).psl) % hm.size = j := by
    rw [hsound.2.1]
    exact disp_repr hm.size _ j hs hb hj
  have hds : (bget hm j).psl < hm.size := by
    rw [hsound.2.1]
    exact mod_self_lt _ _ hs
  have hcb : compute_hash hashFn hm k < pow32 := Nat.mod_lt _ pow32_pos
  have hhit := getLoop_hit hashFn hm hinv k j (bget hm j).psl hj hkey rfl hrepr hds
    (bget hm j).psl le_rfl (hm.size + 2) (by omega)
  rw [Nat.sub_self] at hhit
  rw [rhashmap_get, hinv.frame.idx _ hcb]
  have hfix : (compute_hash hashFn hm k % hm.size + 0) % hm.size =
      compute_hash hashFn hm k % hm.size := by
    rw [Nat.add_zero]
    exact Nat.mod_eq_of_lt (mod_self_lt _ _ hs)
  rw [← hfix, hhit, hval]

/-! ### Frame preservation of the insert path -/

theorem insertLoop_frame (hash : Nat) (key : List Nat) (val : Nat) :
    ∀ (fuel : Nat) (hm : HMap) (entry : Bucket) (i : Nat),
    ((insertLoop hash key val fuel hm entry i).2).size = hm.size ∧
    ((insertLoop hash key val fuel hm entry i).2).divinfo = hm.divinfo ∧
    ((insertLoop hash key val fuel hm entry i).2).minsize = hm.minsize ∧
    ((insertLoop hash key val fuel hm entry i).2).nocopy = hm.nocopy ∧
    ((insertLoop hash key val fuel hm entry i).2).hashkey = hm.hashkey ∧
    ((insertLoop hash key val fuel hm entry i).2).buckets.length = hm.buckets.length := by
  intro fuel
  induction fuel with
  | zero => intro hm entry i; exact ⟨rfl, rfl, rfl, rfl, rfl, rfl⟩
  | succ fuel ih =>
    intro hm entry i
    simp only [insertLoop]
    by_cases h1 : (bget hm i).key = none
    · rw [if_pos h1]
      exact ⟨rfl, rfl, rfl, rfl, rfl, List.length_set _ _ _⟩
    · rw [if_neg h1]
      by_cases h2 : (bget hm i).hash = hash ∧ (bget hm i).len = key.length ∧
          keyEq (bget hm i).key key = true
      · rw [if_pos h2]
        exact ⟨rfl, rfl, rfl, rfl, rfl, rfl⟩
      · rw [if_neg h2]
        by_cases h3 : (bget hm i).psl < entry.psl
        · simp only [if_pos h3]
          obtain ⟨e1, e2, e3, e4, e5, e6⟩ := ih (bset hm i entry)
            { bget hm i with psl := ((bget hm i).psl + 1) % pow16 }
            (fast_rem32 (i + 1) hm.size hm.divinfo)
          refine ⟨e1.trans rfl, e2.trans rfl, e3.trans rfl, e4.trans rfl, e5.trans rfl, ?_⟩
          rw [e6]
          exact List.length_set _ _ _
        · simp only [if_neg h3]
          exact ih hm { entry with psl := (entry.psl + 1) % pow16 }
            (fast_rem32 (i + 1) hm.size hm.divinfo)

theorem rhashmap_insert_frame (hashFn : List Nat → Nat → Nat) (st : St) (key : List Nat)
    (val : Nat) :
    ((rhashmap_insert hashFn st key val).2).hm.size = st.hm.size ∧
    ((rhashmap_insert hashFn st key val).2).hm.divinfo = st.hm.divinfo ∧
    ((rhashmap_insert hashFn st key val).2).hm.minsize = st.hm.minsize ∧
    ((rhashmap_insert hashFn st key val).2).hm.nocopy = st.hm.nocopy ∧
    ((rhashmap_insert hashFn st key val).2).hm.hashkey = st.hm.hashkey ∧
    ((rhashmap_insert hashFn st key val).2).hm.buckets.length = st.hm.buckets.length ∧
    ((rhashmap_insert hashFn st key val).2).rands = st.rands := by
  rw [rhashmap_insert]
  by_cases hnc : st.hm.nocopy = true
  · rw [if_pos hnc]
    obtain ⟨e1, e2, e3, e4, e5, e6⟩ := insertLoop_frame (compute_hash hashFn st.hm key) key val
      (st.hm.size + 1) st.hm
      ⟨some key, val, compute_hash hashFn st.hm key, 0, key.length % pow16⟩
      (fast_rem32 (compute_hash hashFn st.hm key) st.hm.size st.hm.divinfo)
    exact ⟨e1, e2, e3, e4, e5, e6, rfl⟩
  · rw [if_neg hnc]
    by_cases hta : (takeAlloc st.allocs).1 = true
    · rw [if_pos hta]
      obtain ⟨e1, e2, e3, e4, e5, e6⟩ := insertLoop_frame (compute_hash hashFn st.hm key) key val
        (st.hm.size + 1) st.hm
        ⟨some key, val, compute_hash hashFn st.hm key, 0, key.length % pow16⟩
        (fast_rem32 (compute_hash hashFn st.hm key) st.hm.size st.hm.divinfo)
      exact ⟨e1, e2, e3, e4, e5, e6, rfl⟩
    · rw [if_neg hta]
      exact ⟨rfl, rfl, rfl, rfl, rfl, rfl, rfl⟩

/-- Resize preservation, stated against the documented invariant: a
successful resize keeps exactly the stored pairs and the count. -/
theorem resize_preserves (hashFn : List Nat → Nat → Nat) (st : St) (newsize : Nat)
    (hinv : Inv hashFn st.hm) (hallocs : st.allocs = [])
    (hns1 : 0 < newsize) (hns2 : newsize ≤ 4294967295)
    (hgt : st.hm.nitems < newsize) :
    ∃ r : St, rhashmap_resize hashFn st newsize = (true, r) ∧
      entriesM r.hm = entriesM st.hm ∧
      r.hm.nitems = st.hm.nitems ∧
      r.hm.size = newsize ∧ r.hm.minsize = st.hm.minsize ∧
      r.hm.nocopy = st.hm.nocopy ∧ LensOk r.hm ∧ Frame r.hm ∧ r.allocs = [] := by
  have hocc : occCount st.hm.buckets ≤ newsize := by
    rw [hinv.occ_eq_nitems]
    omega
  have hfeeds : FeedsTrue (popsFor st.hm.nocopy st.hm.buckets + (if newsize = 1 then 0 else 1))
      st.allocs [] := by
    rw [hallocs]
    exact feedsTrue_nil _
  obtain ⟨hm2, heq, k1, k2, k3, k4, k5, k6, k7, k8, k9⟩ :=
    resize_weak hashFn st newsize [] hns1 hns2 hinv.blKeysOk hinv.nodupKeys hocc hfeeds
  refine ⟨⟨hm2, [], (takeRand (takeRand st.rands).2).2⟩, heq, ?_, ?_, k1, k3, k4, k8, k9, rfl⟩
  · exact k7
  · rw [k6, hinv.occ_eq_nitems]

/-! ### Decidability instances for the invariant (used by concrete witnesses) -/

instance (b : Bucket) : Decidable (lenOkB b) := by
  unfold lenOkB
  infer_instance

instance (hm : HMap) : Decidable (LensOk hm) := by
  unfold LensOk
  infer_instance

instance (hashFn : List Nat → Nat → Nat) (hm : HMap) (i : Nat) :
    Decidable (bsound hashFn hm i) := by
  unfold bsound
  infer_instance

instance (hm : HMap) (i : Nat) : Decidable (bcont hm i) := by
  unfold bcont
  infer_instance

/-- A trivial hash strategy (every key digests to 0); the engine is
parametric in the hash function, so this is a legal instantiation. -/
def hzero : List Nat → Nat → Nat := fun _ _ => 0

/-- A small concrete table used as a witness state: capacity 2, one entry. -/
def wit1 : HMap :=
  { size := 2, nitems := 1, nocopy := true, minsize := 1,
    divinfo := fast_div32_init 2,
    buckets := [⟨some [7], 5, 0, 0, 1⟩, emptyBucket], hashkey := 0 }

theorem wit1_inv : Inv hzero wit1 := by
  refine ⟨⟨by decide, by decide, by decide, by decide⟩, by decide, by decide, by decide,
    by decide, by decide, by decide, ?_, ?_⟩
  · intro i hi
    revert i
    decide
  · intro i hi
    revert i
    decide

/-- C4: for every table state satisfying the data-model invariant, a resize
to any legal capacity (covering both the grow and the shrink call sites,
including the reseeding and the full rehash) succeeds when allocations
succeed, and it preserves exactly the multiset of stored (key, value) pairs
and the count. -/
theorem claim_C4 (hashFn : List Nat → Nat → Nat) (st : St) (newsize : Nat)
    (hinv : Inv hashFn st.hm) (hallocs : st.allocs = [])
    (hns1 : 0 < newsize) (hns2 : newsize ≤ 4294967295)
    (hroom : st.hm.nitems < newsize) :
    ∃ r : St, rhashmap_resize hashFn st newsize = (true, r) ∧
      entriesM r.hm = entriesM st.hm ∧
      r.hm.nitems = st.hm.nitems ∧ r.hm.size = newsize := by
  obtain ⟨r, h1, h2, h3, h4, _⟩ :=
    resize_preserves hashFn st newsize hinv hallocs hns1 hns2 hroom
  exact ⟨r, h1, h2, h3, h4⟩

theorem claim_C4_witness :
    ∃ r : St, rhashmap_resize hzero ⟨wit1, [], []⟩ 5 = (true, r) ∧
      entriesM r.hm = entriesM wit1 ∧
      r.hm.nitems = wit1.nitems ∧ r.hm.size = 5 :=
  claim_C4 hzero ⟨wit1, [], []⟩ 5 wit1_inv rfl (by decide) (by decide) (by decide)

/-! ### Claim C9: the fast-division refinement -/

/-- C9: for every 32-bit value `v` and divisor `d ≥ 1`, with
`info = fast_div32_init d`, `fast_div32 v d info` is the true quotient and
`fast_rem32 v d info` the true remainder; consequently the engine's index
reduction (`fast_rem32` against the cached `divinfo` of a well-formed
table) is ordinary modulo, so replacing the helper by `%` changes no
observable result. -/
theorem claim_C9 (v d : Nat) (hv : v < pow32) (hd1 : 0 < d) (hd2 : d < pow32) :
    fast_div32 v d (fast_div32_init d) = v / d ∧
    fast_rem32 v d (fast_div32_init d) = v % d ∧
    ∀ hm : HMap, Frame hm → fast_rem32 v hm.size hm.divinfo = v % hm.size :=
  ⟨fast_div32_correct v d hv hd1 hd2, fast_rem32_correct v d hv hd1 hd2,
   fun _ hf => hf.idx v hv⟩

theorem claim_C9_witness :
    fast_div32 1234 10 (fast_div32_init 10) = 1234 / 10 ∧
    fast_rem32 1234 10 (fast_div32_init 10) = 1234 % 10 ∧
    ∀ hm : HMap, Frame hm → fast_rem32 1234 hm.size hm.divinfo = 1234 % hm.size :=
  claim_C9 1234 10 (by decide) (by decide) (by decide)

/-! ### Claim C5: the grow decision of `put` -/

/-- C5 (amended): for capacities up to 4936744 (the range in which the
32-bit product `capacity·870` does not wrap), a put grows if and only if
`1024·count > 870·capacity` — the code compares `count` against
`(capacity·870) >> 10`, an approximation of 85% that is in fact the
84.9609375% threshold — and the grow target is
`min(capacity·2, capacity + 1048576)`.  Beyond that bound the threshold is
computed in wrapping 32-bit arithmetic and this characterization fails. -/
theorem claim_C5 (hashFn : List Nat → Nat → Nat) (st : St) (key : List Nat) (val : Nat)
    (hinv : Inv hashFn st.hm) (hallocs : st.allocs = [])
    (hsz : st.hm.size ≤ 4936744) :
    (870 * st.hm.size < 1024 * st.hm.nitems →
      ((rhashmap_put hashFn st key val).2).hm.size
        = min (st.hm.size * 2) (st.hm.size + 1048576)) ∧
    (1024 * st.hm.nitems ≤ 870 * st.hm.size →
      ((rhashmap_put hashFn st key val).2).hm.size = st.hm.size) := by
  have hms : maxGrowthStep = 1048576 := rfl
  have hp32 : pow32 = 4294967296 := rfl
  have hiff : approx85 st.hm.size < st.hm.nitems ↔ 870 * st.hm.size < 1024 * st.hm.nitems := by
    unfold approx85
    rw [Nat.mod_eq_of_lt (show st.hm.size * 870 < pow32 by omega)]
    omega
  have hm2eq : st.hm.size * 2 % pow32 = st.hm.size * 2 := Nat.mod_eq_of_lt (by omega)
  have hmgeq : (st.hm.size + maxGrowthStep) % pow32 = st.hm.size + maxGrowthStep :=
    Nat.mod_eq_of_lt (by omega)
  constructor
  · intro hgt
    have hcond := hiff.mpr hgt
    have hspos := hinv.frame.size_pos
    have hle := hinv.items_le
    obtain ⟨r, hres, _, _, hrsz, _⟩ := resize_preserves hashFn st
      (min (st.hm.size * 2) (st.hm.size + maxGrowthStep)) hinv hallocs
      (by omega) (by omega) (by omega)
    simp only [rhashmap_put]
    rw [hm2eq, hmgeq]
    rw [if_pos hcond, hres, if_pos (rfl : (true, r).1 = true),
      (rhashmap_insert_frame hashFn (true, r).2 key val).1]
    rw [hms] at hrsz
    exact hrsz
  · intro hlef
    have hncond : ¬ (approx85 st.hm.size < st.hm.nitems) := by
      rw [hiff]
      omega
    simp only [rhashmap_put]
    rw [if_neg hncond]
    exact (rhashmap_insert_frame hashFn st key val).1

theorem claim_C5_witness :
    ((rhashmap_put hzero ⟨wit1, [], []⟩ [1] 9).2).hm.size = wit1.size :=
  (claim_C5 hzero ⟨wit1, [], []⟩ [1] 9 wit1_inv rfl (by decide)).2 (by decide)

/-- The freshly created capacity-20 table (no-copy mode, empty allocation
and randomness streams). -/
def c5_start : St := ⟨⟨20, 0, true, 20, fast_div32_init 20, List.replicate 20 emptyBucket, 0⟩, [], []⟩

/-- The table after 17 puts of distinct one-byte keys. -/
def c5_after : St := (List.range 17).foldl (fun st j => (rhashmap_put hzero st [j] (j + 1)).2) c5_start

set_option maxRecDepth 40000 in
/-- C5 counterexample: a reachable table (created at capacity 20, then 17
puts) has load factor exactly 85%, which does not exceed 85%, yet the next
put still grows the table to capacity 40 — the code threshold
`(20·870) >> 10 = 16` is stricter than "exceeds 85%". -/
theorem claim_C5_counterexample :
    rhashmap_create hzero 20 true [] [] = some c5_start ∧
    c5_after.hm.size = 20 ∧ c5_after.hm.nitems = 17 ∧
    ¬ (85 * c5_after.hm.size < 100 * c5_after.hm.nitems) ∧
    ((rhashmap_put hzero c5_after [17] 18).2).hm.size = 40 :=
  ⟨by decide, by decide, by decide, by decide, by decide⟩

/-! ### Claim C10: empty buckets carry length 0 -/

/-- Every empty bucket of the table stores length 0 (so the `len` equality
of the match test fails for empty buckets whenever the probed length is
positive, and the byte comparison is short-circuited away). -/
def EmptyLenZero (hm : HMap) : Prop := ∀ b ∈ hm.buckets, b.key = none → b.len = 0

/-- The reachable states: a successful create, followed by any sequence of
puts and dels (get and walk do not mutate the table). -/
inductive Reach (hashFn : List Nat → Nat → Nat) : St → Prop where
  | created (size : Nat) (nocopy : Bool) (allocs : List Bool) (rands : List Nat) (st : St) :
      rhashmap_create hashFn size nocopy allocs rands = some st → Reach hashFn st
  | put (st : St) (key : List Nat) (val : Nat) : Reach hashFn st →
      Reach hashFn ((rhashmap_put hashFn st key val).2)
  | del (st : St) (key : List Nat) : Reach hashFn st →
      Reach hashFn ((rhashmap_del hashFn st key).2)

theorem elz_bset {hm : HMap} (h : EmptyLenZero hm) {b : Bucket}
    (hb : b.key ≠ none ∨ b.len = 0) (i : Nat) : EmptyLenZero (bset hm i b) := by
  intro c hc hck
  rcases List.mem_or_eq_of_mem_set hc with h1 | h1
  · exact h c h1 hck
  · subst h1
    rcases hb with h2 | h2
    · exact absurd hck h2
    · exact h2

theorem insertLoop_elz (hash : Nat) (key : List Nat) (val : Nat) :
    ∀ (fuel : Nat) (hm : HMap) (entry : Bucket) (i : Nat), EmptyLenZero hm →
      entry.key ≠ none → EmptyLenZero ((insertLoop hash key val fuel hm entry i).2)
  | 0, _, _, _, h, _ => h
  | fuel + 1, hm, entry, i, h, he => by
    simp only [insertLoop]
    by_cases h1 : (bget hm i).key = none
    · rw [if_pos h1]
      exact elz_bset h (Or.inl he) i
    · rw [if_neg h1]
      by_cases h2 : (bget hm i).hash = hash ∧ (bget hm i).len = key.length ∧
          keyEq (bget hm i).key key = true
      · rw [if_pos h2]
        exact h
      · rw [if_neg h2]
        by_cases h3 : (bget hm i).psl < entry.psl
        · simp only [if_pos h3]
          exact insertLoop_elz hash key val fuel (bset hm i entry) _ _
            (elz_bset h (Or.inl he) i) h1
        · simp only [if_neg h3]
          exact insertLoop_elz hash key val fuel hm _ _ h he

theorem insert_elz (hashFn : List Nat → Nat → Nat) (st : St) (key : List Nat) (val : Nat)
    (h : EmptyLenZero st.hm) : EmptyLenZero (((rhashmap_insert hashFn st key val).2).hm) := by
  rw [rhashmap_insert]
  by_cases hnc : st.hm.nocopy = true
  · rw [if_pos hnc]
    exact insertLoop_elz _ key val _ st.hm _ _ h (Option.some_ne_none key)
  · rw [if_neg hnc]
    by_cases hta : (takeAlloc st.allocs).1 = true
    · rw [if_pos hta]
      exact insertLoop_elz _ key val _ st.hm _ _ h (Option.some_ne_none key)
    · rw [if_neg hta]
      exact h

theorem rehash_elz (hashFn : List Nat → Nat → Nat) :
    ∀ (bl : List Bucket) (st : St), EmptyLenZero st.hm →
      EmptyLenZero ((rehash hashFn bl st).hm)
  | [], _, h => h
  | b :: rest, st, h => by
    rw [rehash_cons]
    cases hbk : b.key with
    | none => exact rehash_elz hashFn rest st h
    | some bs => exact rehash_elz hashFn rest _ (insert_elz hashFn st bs b.val h)

theorem resizeCore_elz (hashFn : List Nat → Nat → Nat) (st : St) (newsize : Nat)
    (oldb : List Bucket) : EmptyLenZero ((resizeCore hashFn st newsize oldb).hm) := by
  refine rehash_elz hashFn oldb _ ?_
  intro b hb _
  have hb2 : b ∈ List.replicate newsize emptyBucket := hb
  rw [List.eq_of_mem_replicate hb2]
  rfl

theorem resize_elz (hashFn : List Nat → Nat → Nat) (st : St) (newsize : Nat)
    (h : EmptyLenZero st.hm) : EmptyLenZero (((rhashmap_resize hashFn st newsize).2).hm) := by
  rw [rhashmap_resize]
  by_cases h1 : newsize = 1
  · rw [if_pos h1]
    exact resizeCore_elz hashFn st 1 st.hm.buckets
  · rw [if_neg h1]
    by_cases h2 : 4294967295 < newsize
    · rw [if_pos h2]
      exact h
    · rw [if_neg h2]
      by_cases h3 : (takeAlloc st.allocs).1 = true
      · rw [if_pos h3]
        exact resizeCore_elz hashFn _ newsize st.hm.buckets
      · rw [if_neg h3]
        exact h

theorem put_elz (hashFn : List Nat → Nat → Nat) (st : St) (key : List Nat) (val : Nat)
    (h : EmptyLenZero st.hm) : EmptyLenZero (((rhashmap_put hashFn st key val).2).hm) := by
  simp only [rhashmap_put]
  by_cases h1 : approx85 st.hm.size < st.hm.nitems
  · rw [if_pos h1]
    by_cases h2 : (rhashmap_resize hashFn st
        (min (st.hm.size * 2 % pow32) ((st.hm.size + maxGrowthStep) % pow32))).1 = true
    · rw [if_pos h2]
      exact insert_elz hashFn _ key val (resize_elz hashFn st _ h)
    · rw [if_neg h2]
      exact resize_elz hashFn st _ h
  · rw [if_neg h1]
    exact insert_elz hashFn st key val h

theorem bshiftLoop_elz :
    ∀ (fuel : Nat) (hm : HMap) (i : Nat), EmptyLenZero hm →
      EmptyLenZero (bshiftLoop fuel hm i)
  | 0, _, _, h => h
  | fuel + 1, hm, i, h => by
    simp only [bshiftLoop]
    have h1 : EmptyLenZero (bset hm i { bget hm i with key := none, len := 0 }) :=
      elz_bset h (Or.inr rfl) i
    split
    · exact h1
    · next hcond =>
      refine bshiftLoop_elz fuel _ _ (elz_bset h1 (Or.inl ?_) i)
      exact fun hk => hcond (Or.inl hk)

theorem del_elz (hashFn : List Nat → Nat → Nat) (st : St) (key : List Nat)
    (h : EmptyLenZero st.hm) : EmptyLenZero (((rhashmap_del hashFn st key).2).hm) := by
  simp only [rhashmap_del]
  split
  · exact h
  · split
    · exact resize_elz hashFn _ _ (bshiftLoop_elz _ _ _ h)
    · exact bshiftLoop_elz _ _ _ h

theorem create_elz (hashFn : List Nat → Nat → Nat) (size : Nat) (nocopy : Bool)
    (allocs : List Bool) (rands : List Nat) (st : St)
    (h : rhashmap_create hashFn size nocopy allocs rands = some st) :
    EmptyLenZero st.hm := by
  simp only [rhashmap_create] at h
  split at h
  · split at h
    · injection h with h2
      rw [← h2]
      exact resize_elz hashFn _ _ (fun b hb _ => absurd hb (List.not_mem_nil b))
    · exact Option.noConfusion h
  · exact Option.noConfusion h

theorem reach_elz (hashFn : List Nat → Nat → Nat) (st : St) (h : Reach hashFn st) :
    EmptyLenZero st.hm := by
  induction h with
  | created size nocopy allocs rands st0 hc => exact create_elz hashFn size nocopy allocs rands st0 hc
  | put st0 key val _ ih => exact put_elz hashFn st0 key val ih
  | del st0 key _ ih => exact del_elz hashFn st0 key ih

/-- C10: in every reachable table state every empty bucket has `len = 0`;
consequently, for any probed key of positive length, the `len` equality of
the three-part match test already fails on an empty bucket, so the byte
comparison (`memcmp` against a `NULL` key) is never evaluated there. -/
theorem claim_C10 (hashFn : List Nat → Nat → Nat) (st : St) (h : Reach hashFn st) :
    (∀ b ∈ st.hm.buckets, b.key = none → b.len = 0) ∧
    ∀ (key : List Nat), 0 < key.length →
      ∀ b ∈ st.hm.buckets, b.key = none →
        b.len ≠ key.length ∧
        ¬ (b.hash = compute_hash hashFn st.hm key ∧ b.len = key.length ∧
           keyEq b.key key = true) := by
  have helz := reach_elz hashFn st h
  refine ⟨helz, ?_⟩
  intro key hk b hb hbk
  have h0 := helz b hb hbk
  constructor
  · omega
  · rintro ⟨-, h2, -⟩
    omega

/-- A freshly created capacity-2 table (the concrete result of
`rhashmap_create` on empty streams). -/
def c10_st : St := ⟨⟨2, 0, true, 2, fast_div32_init 2, List.replicate 2 emptyBucket, 0⟩, [], []⟩

theorem claim_C10_witness :
    (∀ b ∈ c10_st.hm.buckets, b.key = none → b.len = 0) ∧
    ∀ (key : List Nat), 0 < key.length →
      ∀ b ∈ c10_st.hm.buckets, b.key = none →
        b.len ≠ key.length ∧
        ¬ (b.hash = compute_hash hzero c10_st.hm key ∧ b.len = key.length ∧
           keyEq b.key key = true) :=
  claim_C10 hzero c10_st (Reach.created 2 true [] [] c10_st (by decide))

/-! ### Claim C8: walk completeness -/

/-- The (key, length, value) triple a walk call yields from a bucket. -/
def tripleOf (b : Bucket) : Option (List Nat × Nat × Nat) :=
  b.key.map fun k => (k, b.len, b.val)

theorem walkFrom_spec (hm : HMap) (hlen : hm.buckets.length = hm.size) :
    ∀ (d i fuel : Nat), i ≤ hm.size → hm.size - i ≤ d → hm.size - i < fuel →
      ((hm.buckets.drop i).filterMap tripleOf = [] → walkFrom hm fuel i = none) ∧
      (∀ t ts, (hm.buckets.drop i).filterMap tripleOf = t :: ts →
        ∃ j, i ≤ j ∧ j < hm.size ∧
          walkFrom hm fuel i = some (t.1, t.2.1, t.2.2, j + 1) ∧
          (hm.buckets.drop (j + 1)).filterMap tripleOf = ts)
  | 0, i, fuel, hi, hd, hf => by
    have hdrop : hm.buckets.drop i = [] := List.drop_eq_nil_of_le (by omega)
    obtain ⟨f, rfl⟩ : ∃ f, fuel = f + 1 := ⟨fuel - 1, by omega⟩
    constructor
    · intro _
      simp only [walkFrom]
      rw [if_pos (by omega : hm.size ≤ i)]
    · intro t ts ht
      rw [hdrop] at ht
      exact absurd ht (by simp)
  | d + 1, i, fuel, hi, hd, hf => by
    by_cases hie : hm.size ≤ i
    · have hdrop : hm.buckets.drop i = [] := List.drop_eq_nil_of_le (by omega)
      obtain ⟨f, rfl⟩ : ∃ f, fuel = f + 1 := ⟨fuel - 1, by omega⟩
      constructor
      · intro _
        simp only [walkFrom]
        rw [if_pos hie]
      · intro t ts ht
        rw [hdrop] at ht
        exact absurd ht (by simp)
    · push_neg at hie
      have hil : i < hm.buckets.length := by omega
      have hdrop : hm.buckets.drop i = bget hm i :: hm.buckets.drop (i + 1) := by
        rw [List.drop_eq_getElem_cons hil, bget_eq_getElem hm i hil]
      obtain ⟨f, rfl⟩ : ∃ f, fuel = f + 1 := ⟨fuel - 1, by omega⟩
      cases hbk : (bget hm i).key with
      | none =>
        have htr : tripleOf (bget hm i) = none := by
          rw [tripleOf, hbk]
          rfl
        have hstep : walkFrom hm (f + 1) i = walkFrom hm f (i + 1) := by
          simp only [walkFrom]
          rw [if_neg (by omega : ¬ hm.size ≤ i), hbk]
        have ih := walkFrom_spec hm hlen d (i + 1) f (by omega) (by omega) (by omega)
        constructor
        · intro h0
          rw [hdrop, List.filterMap_cons, htr] at h0
          rw [hstep]
          exact ih.1 h0
        · intro t ts ht
          rw [hdrop, List.filterMap_cons, htr] at ht
          obtain ⟨j, hj1, hj2, hj3, hj4⟩ := ih.2 t ts ht
          exact ⟨j, by omega, hj2, by rw [hstep]; exact hj3, hj4⟩
      | some k =>
        have htr : tripleOf (bget hm i) = some (k, (bget hm i).len, (bget hm i).val) := by
          rw [tripleOf, hbk]
          rfl
        have hstep : walkFrom hm (f + 1) i =
            some (k, (bget hm i).len, (bget hm i).val, i + 1) := by
          simp only [walkFrom]
          rw [if_neg (by omega : ¬ hm.size ≤ i), hbk]
        constructor
        · intro h0
          rw [hdrop, List.filterMap_cons, htr] at h0
          exact absurd h0 (by simp)
        · intro t ts ht
          rw [hdrop, List.filterMap_cons, htr] at ht
          injection ht with h1 h2
          refine ⟨i, le_refl i, hie, ?_, h2⟩
          rw [hstep, ← h1]

theorem walkList_spec (hm : HMap) (hlen : hm.buckets.length = hm.size) :
    ∀ (ts : List (List Nat × Nat × Nat)) (fuel i : Nat), i ≤ hm.size →
      (hm.buckets.drop i).filterMap tripleOf = ts → ts.length < fuel →
      walkList hm fuel i = ts
  | [], fuel, i, hi, hts, hf => by
    obtain ⟨f, rfl⟩ : ∃ f, fuel = f + 1 := ⟨fuel - 1, by omega⟩
    simp only [walkList, rhashmap_walk]
    rw [(walkFrom_spec hm hlen (hm.size - i) i (hm.size + 1 - i) hi (le_refl _)
      (by omega)).1 hts]
  | t :: ts, fuel, i, hi, hts, hf => by
    obtain ⟨f, rfl⟩ : ∃ f, fuel = f + 1 := ⟨fuel - 1, by omega⟩
    obtain ⟨j, hj1, hj2, hj3, hj4⟩ :=
      (walkFrom_spec hm hlen (hm.size - i) i (hm.size + 1 - i) hi (le_refl _)
        (by omega)).2 t ts hts
    simp only [walkList, rhashmap_walk]
    rw [hj3]
    show (t.1, t.2.1, t.2.2) :: walkList hm f (j + 1) = t :: ts
    have hlt : ts.length < f := by
      have := hf
      simp only [List.length_cons] at this
      omega
    rw [walkList_spec hm hlen ts f (j + 1) (by omega) hj4 hlt]

theorem triples_keys : ∀ bl : List Bucket,
    ((bl.filterMap tripleOf).map fun t => t.1) = (bl.filterMap bucketEntry).map Prod.fst
  | [] => rfl
  | b :: r => by
    rw [List.filterMap_cons, List.filterMap_cons]
    cases hbk : b.key with
    | none =>
      have h1 : tripleOf b = none := by
        rw [tripleOf, hbk]
        rfl
      have h2 : bucketEntry b = none := by
        rw [bucketEntry, hbk]
        rfl
      rw [h1, h2]
      exact triples_keys r
    | some k =>
      have h1 : tripleOf b = some (k, b.len, b.val) := by
        rw [tripleOf, hbk]
        rfl
      have h2 : bucketEntry b = some (k, b.val) := by
        rw [bucketEntry, hbk]
        rfl
      rw [h1, h2, List.map_cons, List.map_cons, triples_keys r]

theorem triples_length : ∀ bl : List Bucket,
    (bl.filterMap tripleOf).length = (bl.filterMap bucketEntry).length
  | [] => rfl
  | b :: r => by
    rw [List.filterMap_cons, List.filterMap_cons]
    cases hbk : b.key with
    | none =>
      have h1 : tripleOf b = none := by
        rw [tripleOf, hbk]
        rfl
      have h2 : bucketEntry b = none := by
        rw [bucketEntry, hbk]
        rfl
      rw [h1, h2]
      exact triples_length r
    | some k =>
      have h1 : tripleOf b = some (k, b.len, b.val) := by
        rw [tripleOf, hbk]
        rfl
      have h2 : bucketEntry b = some (k, b.val) := by
        rw [bucketEntry, hbk]
        rfl
      rw [h1, h2, List.length_cons, List.length_cons, triples_length r]

/-- C8: walking a table with N occupied buckets from the sentinel cursor 0,
with no intervening mutation and enough calls (any fuel above N), yields
exactly the stored (key, length, value) triples in physical slot order:
N of them, with pairwise-distinct keys that are exactly the stored keys;
the enumeration is stable (the call after the last triple reports the end,
so a larger fuel yields nothing more). -/
theorem claim_C8 (hashFn : List Nat → Nat → Nat) (hm : HMap) (hinv : Inv hashFn hm)
    (fuel : Nat) (hfuel : hm.nitems < fuel) :
    walkList hm fuel 0 = hm.buckets.filterMap tripleOf ∧
    (walkList hm fuel 0).length = hm.nitems ∧
    ((walkList hm fuel 0).map fun t => t.1) = keysL hm ∧
    ((walkList hm fuel 0).map fun t => t.1).Nodup ∧
    (∀ fuel2, hm.nitems < fuel2 → walkList hm fuel2 0 = walkList hm fuel 0) := by
  have hlen := hinv.frame.blen
  have hlen2 : (hm.buckets.filterMap tripleOf).length = hm.nitems := by
    rw [triples_length]
    exact hinv.items.symm
  have hmain : ∀ f2, hm.nitems < f2 → walkList hm f2 0 = hm.buckets.filterMap tripleOf :=
    fun f2 hf2 => walkList_spec hm hlen _ f2 0 (Nat.zero_le _) (by rw [List.drop_zero])
      (by rw [hlen2]; exact hf2)
  refine ⟨hmain fuel hfuel, ?_, ?_, ?_, ?_⟩
  · rw [hmain fuel hfuel, hlen2]
  · rw [hmain fuel hfuel]
    exact triples_keys hm.buckets
  · rw [hmain fuel hfuel, triples_keys]
    exact hinv.nodupKeys
  · intro fuel2 hf2
    rw [hmain fuel2 hf2, hmain fuel hfuel]

theorem claim_C8_witness :
    walkList wit1 2 0 = wit1.buckets.filterMap tripleOf ∧
    (walkList wit1 2 0).length = wit1.nitems ∧
    ((walkList wit1 2 0).map fun t => t.1) = keysL wit1 ∧
    ((walkList wit1 2 0).map fun t => t.1).Nodup ∧
    (∀ fuel2, wit1.nitems < fuel2 → walkList wit1 fuel2 0 = walkList wit1 2 0) :=
  claim_C8 hzero wit1 wit1_inv 2 (by decide)

/-! ### The displacement loop preserves the invariant: helper lemmas -/

theorem compute_hash_bset (hashFn : List Nat → Nat → Nat) (hm : HMap) (i : Nat) (b : Bucket)
    (key : List Nat) : compute_hash hashFn (bset hm i b) key = compute_hash hashFn hm key := rfl

theorem pred_ne (s i : Nat) (hs : 2 ≤ s) (hi : i < s) : (i + s - 1) % s ≠ i := by
  rcases Nat.eq_zero_or_pos i with h0 | h0
  · subst h0
    rw [Nat.zero_add, Nat.mod_eq_of_lt (by omega)]
    omega
  · have he : i + s - 1 = (i - 1) + s := by omega
    rw [he, Nat.add_mod_right, Nat.mod_eq_of_lt (by omega)]
    omega

theorem succ_pred (s i : Nat) (hs : 0 < s) (hi : i < s) :
    ((i + 1) % s + s - 1) % s = i := by
  rcases Nat.lt_or_ge (i + 1) s with h1 | h1
  · rw [Nat.mod_eq_of_lt h1]
    have he : i + 1 + s - 1 = i + s := by omega
    rw [he, Nat.add_mod_right, Nat.mod_eq_of_lt hi]
  · have he : i + 1 = s := by omega
    rw [he, Nat.mod_self, Nat.zero_add, Nat.mod_eq_of_lt (by omega)]
    omega

theorem pred_of_succ (s j : Nat) (hs : 0 < s) (hj : j < s) :
    ((j + s - 1) % s + 1) % s = j := by
  rw [mod_step]
  have he : j + s - 1 + 1 = j + s := by omega
  rw [he, Nat.add_mod_right, Nat.mod_eq_of_lt hj]

theorem nodup_swap {A : Type} [DecidableEq A] {m m2 : Multiset A} {a b : A}
    (heq : m2 + {a} = m + {b}) (hnd : m.Nodup) (ha : a ∈ m) (hb : b ∉ m) :
    m2.Nodup ∧ a ∉ m2 ∧ b ∈ m2 := by
  have hcount : ∀ x : A, Multiset.count x m2 + (if x = a then 1 else 0) =
      Multiset.count x m + (if x = b then 1 else 0) := by
    intro x
    have hc := congrArg (Multiset.count x) heq
    rwa [Multiset.count_add, Multiset.count_add, Multiset.count_singleton,
      Multiset.count_singleton] at hc
  have hma : 1 ≤ Multiset.count a m := Multiset.one_le_count_iff_mem.mpr ha
  have hmb : Multiset.count b m = 0 := Multiset.count_eq_zero.mpr hb
  have hnd1 := Multiset.nodup_iff_count_le_one.mp hnd
  refine ⟨Multiset.nodup_iff_count_le_one.mpr ?_, ?_, ?_⟩
  · intro x
    have h1 := hcount x
    have h2 := hnd1 x
    by_cases hxa : x = a
    · rw [if_pos hxa] at h1
      by_cases hxb : x = b
      · rw [if_pos hxb] at h1
        omega
      · rw [if_neg hxb] at h1
        omega
    · rw [if_neg hxa] at h1
      by_cases hxb : x = b
      · rw [if_pos hxb] at h1
        have h3 : Multiset.count x m = 0 := by
          rw [hxb]
          exact hmb
        omega
      · rw [if_neg hxb] at h1
        omega
  · have h1 := hcount a
    rw [if_pos rfl] at h1
    have hxab : a ≠ b := fun hx => hb (hx ▸ ha)
    rw [if_neg hxab] at h1
    have h2 := hnd1 a
    exact Multiset.count_eq_zero.mp (by omega)
  · have h1 := hcount b
    have hxba : b ≠ a := fun hx => hb (by rw [hx]; exact ha)
    rw [if_neg hxba, if_pos rfl] at h1
    exact Multiset.one_le_count_iff_mem.mp (by omega)

theorem LensOk_bset (hm : HMap) (i : Nat) (b : Bucket) (h : LensOk hm) (hb : lenOkB b) :
    LensOk (bset hm i b) := by
  intro j hj
  by_cases hij : i = j
  · subst hij
    by_cases hl : i < hm.buckets.length
    · rw [bget_bset_self hm i b hl]
      exact hb
    · show lenOkB ((hm.buckets.set i b).getD i emptyBucket)
      rw [List.set_eq_of_length_le (by omega), ← bget]
      exact h i hj
  · rw [bget_bset_ne hm i j b hij]
    exact h j hj

/-- The floating candidate of the displacement loop, probing slot `i`. -/
structure Float (hashFn : List Nat → Nat → Nat) (hm : HMap) (e : Bucket) (i : Nat) : Prop where
  occ : e.key ≠ none
  hash : e.hash = compute_hash hashFn hm (keyOf e)
  psl : e.psl = (i + hm.size - e.hash % hm.size) % hm.size
  lens : lenOkB e
  fresh : keyOf e ∉ keysM hm
  flt : 0 < e.psl → (bget hm ((i + hm.size - 1) % hm.size)).key ≠ none ∧
        e.psl ≤ (bget hm ((i + hm.size - 1) % hm.size)).psl + 1
  chain : ∀ m, m < e.psl → (bget hm ((e.hash % hm.size + m) % hm.size)).key ≠ none

theorem Float.psl_lt_size {hashFn : List Nat → Nat → Nat} {hm : HMap} {e : Bucket} {i : Nat}
    (hf : Float hashFn hm e i) (hs : 0 < hm.size) : e.psl < hm.size := by
  rw [hf.psl]
  exact mod_self_lt _ _ hs

theorem Float.psl_le_items {hashFn : List Nat → Nat → Nat} {hm : HMap} {e : Bucket} {i : Nat}
    (hf : Float hashFn hm e i) (hblen : hm.buckets.length = hm.size)
    (hitems : hm.nitems = (entriesL hm).length) (hs : 0 < hm.size) :
    e.psl ≤ hm.nitems := by
  have hle := hf.psl_lt_size hs
  have hS := distinct_occ_le hm hblen
    ((List.range e.psl).map fun m => (e.hash % hm.size + m) % hm.size) ?_ ?_
  · rw [List.length_map, List.length_range] at hS
    omega
  · refine (List.nodup_range e.psl).map_on ?_
    intro n1 h1 n2 h2 he
    rw [List.mem_range] at h1 h2
    exact probe_inj hm.size (e.hash % hm.size) (by omega) (by omega) he
  · intro j hj
    rw [List.mem_map] at hj
    obtain ⟨m, hm1, rfl⟩ := hj
    rw [List.mem_range] at hm1
    exact ⟨mod_self_lt _ _ hs, hf.chain m hm1⟩

/-- Placing the float at slot `i` keeps per-slot hash/PSL soundness. -/
theorem sound_after_float (hashFn : List Nat → Nat → Nat) (hm : HMap) (e : Bucket) (i : Nat)
    (hblen : hm.buckets.length = hm.size) (hi : i < hm.size)
    (hsound : ∀ j, j < hm.size → bsound hashFn hm j)
    (hfl : Float hashFn hm e i) (hpb : e.psl < pow16) :
    ∀ j, j < hm.size → bsound hashFn (bset hm i e) j := by
  intro j hj
  by_cases hij : i = j
  · subst hij
    intro _
    rw [bget_bset_self hm i e (by omega)]
    refine ⟨hfl.hash, ?_, hpb⟩
    show e.psl = (i + hm.size - compute_hash hashFn hm (keyOf e) % hm.size) % hm.size
    rw [hfl.psl, hfl.hash]
  · intro hocc
    rw [bget_bset_ne hm i j e hij] at hocc ⊢
    exact hsound j hj hocc

/-- Placing the float at slot `i` keeps run continuity, given the slot after
`i` was already continuous with respect to a PSL at most `e.psl`. -/
theorem cont_after_float (hashFn : List Nat → Nat → Nat) (hm : HMap) (e : Bucket) (i : Nat)
    (hblen : hm.buckets.length = hm.size) (hi : i < hm.size) (hs : 0 < hm.size)
    (hcont : ∀ j, j < hm.size → bcont hm j)
    (hfl : Float hashFn hm e i)
    (hsucc : (i + 1) % hm.size ≠ i →
      (bget hm ((i + 1) % hm.size)).key ≠ none → 0 < (bget hm ((i + 1) % hm.size)).psl →
      (bget hm ((i + 1) % hm.size)).psl ≤ e.psl + 1) :
    ∀ j, j < hm.size → bcont (bset hm i e) j := by
  intro j hj
  by_cases hij : i = j
  · subst hij
    intro _ hpsl
    rw [bget_bset_self hm i e (by omega)] at hpsl
    have hsz2 : 2 ≤ hm.size := by
      by_contra hcon
      have h1 : hm.size = 1 := by omega
      have h2 := hfl.psl
      rw [h1, Nat.mod_one] at h2
      omega
    have hpne : (i + hm.size - 1) % hm.size ≠ i := pred_ne hm.size i hsz2 hi
    show (bget (bset hm i e) ((i + hm.size - 1) % hm.size)).key ≠ none ∧
      (bget (bset hm i e) i).psl ≤ (bget (bset hm i e) ((i + hm.size - 1) % hm.size)).psl + 1
    rw [bget_bset_ne hm i _ e (Ne.symm hpne), bget_bset_self hm i e (by omega)]
    exact hfl.flt hpsl
  · by_cases hjs : j = (i + 1) % hm.size
    · subst hjs
      intro hocc hpsl
      rw [bget_bset_ne hm i _ e hij] at hocc hpsl
      have hpred : ((i + 1) % hm.size + hm.size - 1) % hm.size = i := succ_pred hm.size i hs hi
      show (bget (bset hm i e) (((i + 1) % hm.size + hm.size - 1) % hm.size)).key ≠ none ∧
        (bget (bset hm i e) ((i + 1) % hm.size)).psl ≤
          (bget (bset hm i e) (((i + 1) % hm.size + hm.size - 1) % hm.size)).psl + 1
      rw [hpred, bget_bset_self hm i e (by omega), bget_bset_ne hm i _ e hij]
      refine ⟨hfl.occ, ?_⟩
      exact hsucc (fun h => hij h.symm) hocc hpsl
    · intro hocc hpsl
      rw [bget_bset_ne hm i j e hij] at hocc hpsl
      have hpne : (j + hm.size - 1) % hm.size ≠ i := by
        intro hcon
        refine hjs ?_
        rw [← hcon, pred_of_succ hm.size j hs hj]
      have hc := hcont j hj hocc hpsl
      show (bget (bset hm i e) ((j + hm.size - 1) % hm.size)).key ≠ none ∧
        (bget (bset hm i e) j).psl ≤ (bget (bset hm i e) ((j + hm.size - 1) % hm.size)).psl + 1
      rw [bget_bset_ne hm i _ e (Ne.symm hpne), bget_bset_ne hm i j e hij]
      exact hc

theorem occ_bset (hm : HMap) (i j : Nat) (b : Bucket) (hocc : b.key ≠ none)
    (h : (bget hm j).key ≠ none) : (bget (bset hm i b) j).key ≠ none := by
  by_cases hij : i = j
  · subst hij
    by_cases hl : i < hm.buckets.length
    · rw [bget_bset_self hm i b hl]
      exact hocc
    · show ((hm.buckets.set i b).getD i emptyBucket).key ≠ none
      rw [List.set_eq_of_length_le (by omega), ← bget]
      exact h
  · rw [bget_bset_ne hm i j b hij]
    exact h

theorem bucketEntry_occ (b : Bucket) (h : b.key ≠ none) :
    bucketEntry b = some (keyOf b, b.val) := by
  cases hb : b.key with
  | none => exact absurd hb h
  | some bs =>
    rw [bucketEntry, hb, keyOf, hb, Option.getD_some]
    rfl

theorem entriesL_length_of_ms {hm1 hm2 : HMap} {x y : List Nat × Nat}
    (h : entriesM hm1 + {x} = entriesM hm2 + {y}) :
    (entriesL hm1).length = (entriesL hm2).length := by
  have hc := congrArg Multiset.card h
  rw [Multiset.card_add, Multiset.card_add, Multiset.card_singleton,
    Multiset.card_singleton] at hc
  rw [entriesL_length_eq_card, entriesL_length_eq_card]
  omega

theorem entriesL_length_add {hm1 hm2 : HMap} {y : List Nat × Nat}
    (h : entriesM hm1 = entriesM hm2 + {y}) :
    (entriesL hm1).length = (entriesL hm2).length + 1 := by
  have hc := congrArg Multiset.card h
  rw [Multiset.card_add, Multiset.card_singleton] at hc
  rw [entriesL_length_eq_card, entriesL_length_eq_card]
  omega

theorem keysM_of_entriesM_add {hm1 hm2 : HMap} {k : List Nat} {v : Nat}
    (h : entriesM hm1 = entriesM hm2 + {(k, v)}) : keysM hm1 = keysM hm2 + {k} := by
  rw [keysM, keysM, h, keysM_add_pair]

theorem keysM_of_entriesM_swap {hm1 hm2 : HMap} {k1 k2 : List Nat} {v1 v2 : Nat}
    (h : entriesM hm1 + {(k1, v1)} = entriesM hm2 + {(k2, v2)}) :
    keysM hm1 + {k1} = keysM hm2 + {k2} := by
  have h2 := congrArg (Multiset.map Prod.fst) h
  rw [Multiset.map_add, Multiset.map_add, Multiset.map_singleton,
    Multiset.map_singleton] at h2
  rw [keysM, keysM]
  exact h2

theorem nodup_add_fresh {A : Type} [DecidableEq A] {m m2 : Multiset A} {a : A}
    (heq : m2 = m + {a}) (hnd : m.Nodup) (hfresh : a ∉ m) : m2.Nodup := by
  rw [heq]
  refine Multiset.nodup_add.mpr ⟨hnd, Multiset.nodup_singleton a, Multiset.disjoint_left.mpr ?_⟩
  intro x hx1 hx2
  rw [Multiset.mem_singleton] at hx2
  subst hx2
  exact hfresh hx1

theorem nodupKeys_of_keysM {hm : HMap} (h : (keysM hm).Nodup) : (keysL hm).Nodup := by
  rw [keysM_coe] at h
  exact Multiset.coe_nodup.mp h

theorem keysM_nodup_of_list {hm : HMap} (h : (keysL hm).Nodup) : (keysM hm).Nodup := by
  rw [keysM_coe]
  exact Multiset.coe_nodup.mpr h

theorem disp_succ (s c i : Nat) (hs : 0 < s) (hcs : c < s) (hi : i < s)
    (hlt : (i + s - c) % s + 1 < s) :
    ((i + 1) % s + s - c) % s = (i + s - c) % s + 1 := by
  have hrep : (c + (i + s - c) % s) % s = i := disp_repr s c i hs (by omega) hi
  have h2 : (c + ((i + 1) % s + s - c) % s) % s = (i + 1) % s :=
    disp_repr s c ((i + 1) % s) hs (by omega) (mod_self_lt s (i + 1) hs)
  have h3 : (c + ((i + s - c) % s + 1)) % s = (i + 1) % s := by
    have e1 : c + ((i + s - c) % s + 1) = c + (i + s - c) % s + 1 := by omega
    rw [e1, ← mod_step s (c + (i + s - c) % s), hrep]
  exact probe_inj s c (mod_self_lt _ _ hs) hlt (h2.trans h3.symm)

theorem Float.psl_succ_le_items {hashFn : List Nat → Nat → Nat} {hm : HMap} {e : Bucket}
    {i : Nat} (hf : Float hashFn hm e i) (hblen : hm.buckets.length = hm.size)
    (hitems : hm.nitems = (entriesL hm).length) (hs : 0 < hm.size) (hi : i < hm.size)
    (hocc : (bget hm i).key ≠ none) : e.psl + 1 ≤ hm.nitems := by
  have hlt := hf.psl_lt_size hs
  have hrep : (e.hash % hm.size + e.psl) % hm.size = i := by
    rw [hf.psl]
    exact disp_repr _ _ _ hs (le_of_lt (mod_self_lt _ _ hs)) hi
  have hS := distinct_occ_le hm hblen
    ((List.range (e.psl + 1)).map fun m => (e.hash % hm.size + m) % hm.size) ?_ ?_
  · rw [List.length_map, List.length_range] at hS
    omega
  · refine (List.nodup_range (e.psl + 1)).map_on ?_
    intro n1 h1 n2 h2 he
    rw [List.mem_range] at h1 h2
    exact probe_inj hm.size (e.hash % hm.size) (by omega) (by omega) he
  · intro j hj
    rw [List.mem_map] at hj
    obtain ⟨m, hm1, rfl⟩ := hj
    rw [List.mem_range] at hm1
    refine ⟨mod_self_lt _ _ hs, ?_⟩
    rcases Nat.lt_or_ge m e.psl with hc | hc
    · exact hf.chain m hc
    · have hme : m = e.psl := by omega
      rw [hme, hrep]
      exact hocc

/-- Writing the float into slot `i` yields an invariant table again, given
count, key-distinctness and successor-slot continuity facts. -/
theorem Inv_after_float (hashFn : List Nat → Nat → Nat) (hm : HMap) (e : Bucket) (i : Nat)
    (hinv : Inv hashFn hm) (hi : i < hm.size)
    (hfl : Float hashFn hm e i) (hpb : e.psl < pow16)
    (hcard : (entriesL (bset hm i e)).length = (entriesL hm).length)
    (hnodup : (keysL (bset hm i e)).Nodup)
    (hsucc : (i + 1) % hm.size ≠ i →
      (bget hm ((i + 1) % hm.size)).key ≠ none → 0 < (bget hm ((i + 1) % hm.size)).psl →
      (bget hm ((i + 1) % hm.size)).psl ≤ e.psl + 1) :
    Inv hashFn (bset hm i e) := by
  refine ⟨hinv.frame.bsetF i e, hinv.min_pos, hinv.min_le, ?_, ?_,
    LensOk_bset hm i e hinv.lens hfl.lens, hnodup,
    sound_after_float hashFn hm e i hinv.frame.blen hi hinv.sound hfl hpb,
    cont_after_float hashFn hm e i hinv.frame.blen hi hinv.frame.size_pos hinv.cont hfl hsucc⟩
  · show hm.nitems = (entriesL (bset hm i e)).length
    rw [hcard]
    exact hinv.items
  · show hm.nitems ≤ hm.size
    exact hinv.items_le

theorem key_mem_keysM (hm : HMap) (i : Nat) (hi : i < hm.buckets.length) (bs : List Nat)
    (h : (bget hm i).key = some bs) : bs ∈ keysM hm := by
  have h2 := mem_entriesM_of_bget hm i hi bs h
  rw [keysM, Multiset.mem_map]
  exact ⟨(bs, (bget hm i).val), h2, rfl⟩

theorem key_eq_some_keyOf (b : Bucket) (h : b.key ≠ none) : b.key = some (keyOf b) := by
  cases hb : b.key with
  | none => exact absurd hb h
  | some bs => rw [keyOf, hb, Option.getD_some]

/-- The displacement loop, on a sound table with a sound floating candidate
whose key is fresh (or already placed earlier in this very probe run),
terminates at the first empty slot of the run, preserves the invariant, and
adds exactly the float's pair. -/
theorem insertLoopStrong (hashFn : List Nat → Nat → Nat) (k : List Nat) (v : Nat)
    (hash : Nat) (hk : 0 < k.length) (base0 : Nat) :
    ∀ (d t fuel : Nat) (hm : HMap) (e : Bucket),
      Inv hashFn hm →
      Float hashFn hm e ((base0 + t) % hm.size) →
      base0 < hm.size →
      t + d < hm.size →
      (∀ m, m < d → (bget hm ((base0 + (t + m)) % hm.size)).key ≠ none) →
      (bget hm ((base0 + (t + d)) % hm.size)).key = none →
      d < fuel →
      hm.nitems < hm.size →
      hm.nitems + 1 ≤ 65535 →
      (keyOf e = k ∨ ∃ tk, tk < t ∧ (bget hm ((base0 + tk) % hm.size)).key = some k) →
      ∃ hm2,
        insertLoop hash k v fuel hm e ((base0 + t) % hm.size) = (some v, hm2) ∧
        Inv hashFn hm2 ∧
        entriesM hm2 = entriesM hm + {(keyOf e, e.val)} ∧
        hm2.nitems = hm.nitems + 1 ∧
        hm2.size = hm.size ∧ hm2.hashkey = hm.hashkey ∧
        hm2.minsize = hm.minsize ∧ hm2.nocopy = hm.nocopy
  | 0, t, fuel, hm, e => by
    intro hinv hfl hb0 htd hoccs hempty hfuel hroom hcap hphase
    obtain ⟨f, rfl⟩ : ∃ f, fuel = f + 1 := ⟨fuel - 1, by omega⟩
    have hs : 0 < hm.size := hinv.frame.size_pos
    have hble : hm.buckets.length = hm.size := hinv.frame.blen
    have hi : (base0 + t) % hm.size < hm.size := mod_self_lt _ _ hs
    rw [Nat.add_zero] at hempty
    have hp16 : pow16 = 65536 := rfl
    have hpb : e.psl < pow16 := by
      have h1 := hfl.psl_le_items hinv.frame.blen hinv.items hs
      omega
    have hbe_none : bucketEntry (bget hm ((base0 + t) % hm.size)) = none := by
      rw [bucketEntry, hempty]
      rfl
    have hconv := entriesM_bset hm ((base0 + t) % hm.size) e (by omega)
    rw [hbe_none, bucketEntry_occ _ hfl.occ] at hconv
    have hconv_add : entriesM (bset hm ((base0 + t) % hm.size) e) =
        entriesM hm + {(keyOf e, e.val)} := by
      have h0 : entriesM (bset hm ((base0 + t) % hm.size) e) + 0 =
          entriesM hm + {(keyOf e, e.val)} := hconv
      rwa [add_zero] at h0
    have hkeys : keysM (bset hm ((base0 + t) % hm.size) e) = keysM hm + {keyOf e} :=
      keysM_of_entriesM_add hconv_add
    have hnd2 : (keysM (bset hm ((base0 + t) % hm.size) e)).Nodup :=
      nodup_add_fresh hkeys (keysM_nodup_of_list hinv.nodupKeys) hfl.fresh
    have hsound2 := sound_after_float hashFn hm e ((base0 + t) % hm.size)
      hinv.frame.blen hi hinv.sound hfl hpb
    have hcont2 := cont_after_float hashFn hm e ((base0 + t) % hm.size)
      hinv.frame.blen hi hs hinv.cont hfl
      (fun hne hocc1 hpos1 => by
        have hcnt := hinv.cont (((base0 + t) % hm.size + 1) % hm.size)
          (mod_self_lt _ _ hs) hocc1 hpos1
        rw [succ_pred hm.size _ hs hi] at hcnt
        exact absurd hempty hcnt.1)
    have hfr := hinv.frame.bsetF ((base0 + t) % hm.size) e
    simp only [insertLoop]
    rw [if_pos hempty]
    refine ⟨{ bset hm ((base0 + t) % hm.size) e with nitems := hm.nitems + 1 }, rfl,
      ?_, hconv_add, rfl, rfl, rfl, rfl, rfl⟩
    refine ⟨⟨hfr.size_pos, hfr.size_lt, hfr.blen, hfr.dinfo⟩, hinv.min_pos, hinv.min_le,
      ?_, ?_, LensOk_bset hm _ e hinv.lens hfl.lens, nodupKeys_of_keysM hnd2,
      hsound2, hcont2⟩
    · show hm.nitems + 1 = (entriesL (bset hm ((base0 + t) % hm.size) e)).length
      rw [entriesL_length_add hconv_add, hinv.items]
    · show hm.nitems + 1 ≤ hm.size
      omega
  | d + 1, t, fuel, hm, e => by
    intro hinv hfl hb0 htd hoccs hempty hfuel hroom hcap hphase
    obtain ⟨f, rfl⟩ : ∃ f, fuel = f + 1 := ⟨fuel - 1, by omega⟩
    have hs : 0 < hm.size := hinv.frame.size_pos
    have hble : hm.buckets.length = hm.size := hinv.frame.blen
    have hi : (base0 + t) % hm.size < hm.size := mod_self_lt _ _ hs
    have hp16 : pow16 = 65536 := rfl
    have hocc0 : (bget hm ((base0 + t) % hm.size)).key ≠ none := by
      have h0 := hoccs 0 (by omega)
      rwa [Nat.add_zero] at h0
    obtain ⟨bs, hbs⟩ : ∃ bs, (bget hm ((base0 + t) % hm.size)).key = some bs := by
      cases hx : (bget hm ((base0 + t) % hm.size)).key with
      | none => exact absurd hx hocc0
      | some b2 => exact ⟨b2, rfl⟩
    have hbs_ne_k : bs ≠ k := by
      intro hcon
      subst hcon
      rcases hphase with hph1 | ⟨tk, htk, hslot⟩
      · exact hfl.fresh (hph1 ▸ key_mem_keysM hm _ (by omega) bs hbs)
      · have heq := hinv.key_unique (mod_self_lt _ _ hs) hi hslot hbs
        exact absurd (probe_inj hm.size base0 (by omega) (by omega) heq) (by omega)
    have hmatch : ¬ ((bget hm ((base0 + t) % hm.size)).hash = hash ∧
        (bget hm ((base0 + t) % hm.size)).len = k.length ∧
        keyEq (bget hm ((base0 + t) % hm.size)).key k = true) := by
      rintro ⟨-, h2, h3⟩
      have h4 := (match_iff_key (hinv.lens _ hi) hk).mp ⟨h2, h3⟩
      rw [hbs] at h4
      injection h4 with h5
      exact hbs_ne_k h5
    have hidx : fast_rem32 ((base0 + t) % hm.size + 1) hm.size hm.divinfo =
        (base0 + (t + 1)) % hm.size := by
      rw [hinv.frame.idx_succ _ hi, mod_step, Nat.add_assoc]
    have hi1 : (base0 + (t + 1)) % hm.size = ((base0 + t) % hm.size + 1) % hm.size := by
      rw [mod_step, Nat.add_assoc]
    have hpsl_e1 : e.psl + 1 ≤ hm.nitems :=
      hfl.psl_succ_le_items hinv.frame.blen hinv.items hs hi hocc0
    have hepsl_lt : e.psl < hm.size := hfl.psl_lt_size hs
    obtain ⟨hhash_i, hpsl_i, hp16_i⟩ := hinv.sound _ hi hocc0
    have hpsl_i2 : (bget hm ((base0 + t) % hm.size)).psl =
        ((base0 + t) % hm.size + hm.size -
          (bget hm ((base0 + t) % hm.size)).hash % hm.size) % hm.size := by
      rw [hhash_i]
      exact hpsl_i
    have hkeyof : keyOf (bget hm ((base0 + t) % hm.size)) = bs := by
      rw [keyOf, hbs, Option.getD_some]
    simp only [insertLoop]
    rw [if_neg hocc0, if_neg hmatch]
    by_cases hswap : (bget hm ((base0 + t) % hm.size)).psl < e.psl
    · -- Robin Hood swap: the float takes slot i, the resident floats on
      simp only [if_pos hswap]
      have hpb : e.psl < pow16 := by omega
      have hconv := entriesM_bset hm ((base0 + t) % hm.size) e (by omega)
      rw [bucketEntry_occ _ hocc0, bucketEntry_occ _ hfl.occ] at hconv
      have hconv2 : entriesM (bset hm ((base0 + t) % hm.size) e) +
          {(keyOf (bget hm ((base0 + t) % hm.size)), (bget hm ((base0 + t) % hm.size)).val)} =
          entriesM hm + {(keyOf e, e.val)} := hconv
      have hkeys := keysM_of_entriesM_swap hconv2
      have hbs_mem : bs ∈ keysM hm := key_mem_keysM hm _ (by omega) bs hbs
      have hkeys2 : keysM (bset hm ((base0 + t) % hm.size) e) + {bs} =
          keysM hm + {keyOf e} := by
        rw [← hkeyof]
        exact hkeys
      obtain ⟨hnd2, hfresh2, hmem_e⟩ :=
        nodup_swap hkeys2 (keysM_nodup_of_list hinv.nodupKeys) hbs_mem hfl.fresh
      have hinv2 : Inv hashFn (bset hm ((base0 + t) % hm.size) e) :=
        Inv_after_float hashFn hm e _ hinv hi hfl hpb
          (entriesL_length_of_ms hconv2)
          (nodupKeys_of_keysM hnd2)
          (fun hne hocc1 hpos1 => by
            have hcnt := hinv.cont (((base0 + t) % hm.size + 1) % hm.size)
              (mod_self_lt _ _ hs) hocc1 hpos1
            rw [succ_pred hm.size _ hs hi] at hcnt
            have h6 := hcnt.2
            omega)
      have hwrap : ((bget hm ((base0 + t) % hm.size)).psl + 1) % pow16 =
          (bget hm ((base0 + t) % hm.size)).psl + 1 :=
        Nat.mod_eq_of_lt (by omega)
      have hrep_i : ((bget hm ((base0 + t) % hm.size)).hash % hm.size +
          (bget hm ((base0 + t) % hm.size)).psl) % hm.size = (base0 + t) % hm.size := by
        rw [hpsl_i2]
        exact disp_repr _ _ _ hs (le_of_lt (mod_self_lt _ _ hs)) hi
      have hpsl_r : (bget hm ((base0 + t) % hm.size)).psl + 1 =
          ((base0 + (t + 1)) % hm.size + hm.size -
            (bget hm ((base0 + t) % hm.size)).hash % hm.size) % hm.size := by
        rw [hi1, disp_succ hm.size _ _ hs (mod_self_lt _ _ hs) hi
          (by rw [← hpsl_i2]; omega), ← hpsl_i2]
      have hfl2 : Float hashFn (bset hm ((base0 + t) % hm.size) e)
          { bget hm ((base0 + t) % hm.size) with
            psl := ((bget hm ((base0 + t) % hm.size)).psl + 1) % pow16 }
          ((base0 + (t + 1)) % (bset hm ((base0 + t) % hm.size) e).size) := by
        refine ⟨?_, ?_, ?_, ?_, ?_, ?_, ?_⟩
        · show (bget hm ((base0 + t) % hm.size)).key ≠ none
          exact hocc0
        · show (bget hm ((base0 + t) % hm.size)).hash =
            compute_hash hashFn hm (keyOf (bget hm ((base0 + t) % hm.size)))
          exact hhash_i
        · show ((bget hm ((base0 + t) % hm.size)).psl + 1) % pow16 =
            ((base0 + (t + 1)) % hm.size + hm.size -
              (bget hm ((base0 + t) % hm.size)).hash % hm.size) % hm.size
          rw [hwrap]
          exact hpsl_r
        · exact (lenOkB_psl _ _).mpr (hinv.lens _ hi)
        · show keyOf (bget hm ((base0 + t) % hm.size)) ∉
            keysM (bset hm ((base0 + t) % hm.size) e)
          rw [hkeyof]
          exact hfresh2
        · intro hpos
          have hpred : ((base0 + (t + 1)) % hm.size + hm.size - 1) % hm.size =
              (base0 + t) % hm.size := by
            rw [hi1]
            exact succ_pred hm.size _ hs hi
          show (bget (bset hm ((base0 + t) % hm.size) e)
              (((base0 + (t + 1)) % hm.size + hm.size - 1) % hm.size)).key ≠ none ∧
            ((bget hm ((base0 + t) % hm.size)).psl + 1) % pow16 ≤
              (bget (bset hm ((base0 + t) % hm.size) e)
                (((base0 + (t + 1)) % hm.size + hm.size - 1) % hm.size)).psl + 1
          rw [hpred, bget_bset_self hm _ e (by omega), hwrap]
          exact ⟨hfl.occ, by omega⟩
        · intro m hm1
          show (bget (bset hm ((base0 + t) % hm.size) e)
            (((bget hm ((base0 + t) % hm.size)).hash % hm.size + m) % hm.size)).key ≠ none
          have hm1x : m < ((bget hm ((base0 + t) % hm.size)).psl + 1) % pow16 := hm1
          rw [hwrap] at hm1x
          have hocc3 : (bget hm (((bget hm ((base0 + t) % hm.size)).hash % hm.size + m)
              % hm.size)).key ≠ none := by
            rcases Nat.lt_or_ge m (bget hm ((base0 + t) % hm.size)).psl with hc | hc
            · exact (hinv.chain ((bget hm ((base0 + t) % hm.size)).hash % hm.size)
                (bget hm ((base0 + t) % hm.size)).psl (by omega)
                (by rw [hrep_i]; exact hocc0) (by rw [hrep_i]) m (by omega)).1
            · have hme : m = (bget hm ((base0 + t) % hm.size)).psl := by omega
              rw [hme, hrep_i]
              exact hocc0
          exact occ_bset hm _ _ e hfl.occ hocc3
      have hocc2 : ∀ m, m < d →
          (bget (bset hm ((base0 + t) % hm.size) e)
            ((base0 + (t + 1 + m)) % (bset hm ((base0 + t) % hm.size) e).size)).key ≠ none := by
        intro m hmd
        show (bget (bset hm ((base0 + t) % hm.size) e)
          ((base0 + (t + 1 + m)) % hm.size)).key ≠ none
        have he1 : t + 1 + m = t + (m + 1) := by omega
        rw [he1]
        exact occ_bset hm _ _ e hfl.occ (hoccs (m + 1) (by omega))
      have hempty2 : (bget (bset hm ((base0 + t) % hm.size) e)
          ((base0 + (t + 1 + d)) % (bset hm ((base0 + t) % hm.size) e).size)).key = none := by
        show (bget (bset hm ((base0 + t) % hm.size) e)
          ((base0 + (t + 1 + d)) % hm.size)).key = none
        have he1 : t + 1 + d = t + (d + 1) := by omega
        rw [he1]
        have hne : (base0 + t) % hm.size ≠ (base0 + (t + (d + 1))) % hm.size := by
          intro hcon
          have := probe_inj hm.size base0 (by omega) (by omega) hcon
          omega
        rw [bget_bset_ne hm _ _ e hne]
        exact hempty
      have hphase2 : keyOf { bget hm ((base0 + t) % hm.size) with
            psl := ((bget hm ((base0 + t) % hm.size)).psl + 1) % pow16 } = k ∨
          ∃ tk, tk < t + 1 ∧ (bget (bset hm ((base0 + t) % hm.size) e)
            ((base0 + tk) % (bset hm ((base0 + t) % hm.size) e).size)).key = some k := by
        refine Or.inr ?_
        rcases hphase with hph1 | ⟨tk, htk, hslot⟩
        · refine ⟨t, by omega, ?_⟩
          show (bget (bset hm ((base0 + t) % hm.size) e) ((base0 + t) % hm.size)).key = some k
          rw [bget_bset_self hm _ e (by omega), key_eq_some_keyOf e hfl.occ, hph1]
        · refine ⟨tk, by omega, ?_⟩
          show (bget (bset hm ((base0 + t) % hm.size) e) ((base0 + tk) % hm.size)).key = some k
          have hne : (base0 + t) % hm.size ≠ (base0 + tk) % hm.size := by
            intro hcon
            have := probe_inj hm.size base0 (by omega) (by omega) hcon
            omega
          rw [bget_bset_ne hm _ _ e hne]
          exact hslot
      obtain ⟨hm2, hrec, hinv3, hents, hnit, hsz2, hhk2, hmin2, hnoc2⟩ :=
        insertLoopStrong hashFn k v hash hk base0 d (t + 1) f
          (bset hm ((base0 + t) % hm.size) e)
          { bget hm ((base0 + t) % hm.size) with
            psl := ((bget hm ((base0 + t) % hm.size)).psl + 1) % pow16 }
          hinv2 hfl2 hb0 (by show t + 1 + d < hm.size; omega) hocc2 hempty2
          (by omega) hroom hcap hphase2
      refine ⟨hm2, ?_, hinv3, ?_, hnit, hsz2, hhk2, hmin2, hnoc2⟩
      · rw [hidx]
        exact hrec
      · rw [hents]
        exact hconv2
    · -- no swap: the float keeps probing with an incremented PSL
      simp only [if_neg hswap]
      have hwrap_e : (e.psl + 1) % pow16 = e.psl + 1 := Nat.mod_eq_of_lt (by omega)
      have hrep_e : (e.hash % hm.size + e.psl) % hm.size = (base0 + t) % hm.size := by
        rw [hfl.psl]
        exact disp_repr _ _ _ hs (le_of_lt (mod_self_lt _ _ hs)) hi
      have hfl2 : Float hashFn hm { e with psl := (e.psl + 1) % pow16 }
          ((base0 + (t + 1)) % hm.size) := by
        refine ⟨hfl.occ, hfl.hash, ?_, (lenOkB_psl _ _).mpr hfl.lens, hfl.fresh, ?_, ?_⟩
        · show (e.psl + 1) % pow16 =
            ((base0 + (t + 1)) % hm.size + hm.size - e.hash % hm.size) % hm.size
          rw [hwrap_e, hi1, disp_succ hm.size _ _ hs (mod_self_lt _ _ hs) hi
            (by rw [← hfl.psl]; omega), ← hfl.psl]
        · intro hpos
          have hpred : ((base0 + (t + 1)) % hm.size + hm.size - 1) % hm.size =
              (base0 + t) % hm.size := by
            rw [hi1]
            exact succ_pred hm.size _ hs hi
          show (bget hm (((base0 + (t + 1)) % hm.size + hm.size - 1) % hm.size)).key ≠ none ∧
            (e.psl + 1) % pow16 ≤
              (bget hm (((base0 + (t + 1)) % hm.size + hm.size - 1) % hm.size)).psl + 1
          rw [hpred, hwrap_e]
          exact ⟨hocc0, by omega⟩
        · intro m hm1
          show (bget hm ((e.hash % hm.size + m) % hm.size)).key ≠ none
          have hm1x : m < (e.psl + 1) % pow16 := hm1
          rw [hwrap_e] at hm1x
          rcases Nat.lt_or_ge m e.psl with hc | hc
          · exact hfl.chain m hc
          · have hme : m = e.psl := by omega
            rw [hme, hrep_e]
            exact hocc0
      have hocc2 : ∀ m, m < d →
          (bget hm ((base0 + (t + 1 + m)) % hm.size)).key ≠ none := by
        intro m hmd
        have he1 : t + 1 + m = t + (m + 1) := by omega
        rw [he1]
        exact hoccs (m + 1) (by omega)
      have hempty2 : (bget hm ((base0 + (t + 1 + d)) % hm.size)).key = none := by
        have he1 : t + 1 + d = t + (d + 1) := by omega
        rw [he1]
        exact hempty
      have hphase2 : keyOf { e with psl := (e.psl + 1) % pow16 } = k ∨
          ∃ tk, tk < t + 1 ∧ (bget hm ((base0 + tk) % hm.size)).key = some k := by
        rcases hphase with hph1 | ⟨tk, htk, hslot⟩
        · exact Or.inl hph1
        · exact Or.inr ⟨tk, by omega, hslot⟩
      obtain ⟨hm2, hrec, hinv3, hents, hnit, hsz2, hhk2, hmin2, hnoc2⟩ :=
        insertLoopStrong hashFn k v hash hk base0 d (t + 1) f hm
          { e with psl := (e.psl + 1) % pow16 }
          hinv hfl2 hb0 (by omega) hocc2 hempty2 (by omega) hroom hcap hphase2
      refine ⟨hm2, ?_, hinv3, ?_, hnit, hsz2, hhk2, hmin2, hnoc2⟩
      · rw [hidx]
        exact hrec
      · exact hents

/-- Inserting a fresh legal key into a room-carrying invariant table: the
public insert succeeds, preserves the invariant and adds exactly the pair. -/
theorem insert_strong (hashFn : List Nat → Nat → Nat) (st : St) (k : List Nat) (v : Nat)
    (hinv : Inv hashFn st.hm) (hk1 : 0 < k.length) (hk2 : k.length ≤ 65535)
    (hfresh : k ∉ keysM st.hm) (hroom : st.hm.nitems < st.hm.size)
    (hcap : st.hm.nitems + 1 ≤ 65535) (hallocs : st.allocs = []) :
    ∃ hm2, rhashmap_insert hashFn st k v = (some v, ⟨hm2, [], st.rands⟩) ∧
      Inv hashFn hm2 ∧ entriesM hm2 = entriesM st.hm + {(k, v)} ∧
      hm2.nitems = st.hm.nitems + 1 ∧ hm2.size = st.hm.size ∧
      hm2.hashkey = st.hm.hashkey ∧ hm2.minsize = st.hm.minsize ∧
      hm2.nocopy = st.hm.nocopy := by
  have hs : 0 < st.hm.size := hinv.frame.size_pos
  have hhlt : compute_hash hashFn st.hm k < pow32 := Nat.mod_lt _ pow32_pos
  have hblt : compute_hash hashFn st.hm k % st.hm.size < st.hm.size := mod_self_lt _ _ hs
  obtain ⟨n0, hn0lt, hn0⟩ := exists_empty_slot st.hm hinv.frame.blen hs
    (by rw [← hinv.items]; exact hroom) (compute_hash hashFn st.hm k % st.hm.size)
  have hex : ∃ n, (bget st.hm
      ((compute_hash hashFn st.hm k % st.hm.size + n) % st.hm.size)).key = none := ⟨n0, hn0⟩
  have hdlt : Nat.find hex < st.hm.size := lt_of_le_of_lt (Nat.find_min' hex hn0) hn0lt
  have hfl0 : Float hashFn st.hm
      (⟨some k, v, compute_hash hashFn st.hm k, 0, k.length % pow16⟩ : Bucket)
      ((compute_hash hashFn st.hm k % st.hm.size + 0) % st.hm.size) := by
    refine ⟨Option.some_ne_none k, rfl, ?_, ?_, hfresh, ?_, ?_⟩
    · show (0 : Nat) = ((compute_hash hashFn st.hm k % st.hm.size + 0) % st.hm.size
        + st.hm.size - compute_hash hashFn st.hm k % st.hm.size) % st.hm.size
      rw [mod_base_eq _ _ hblt]
      have he : compute_hash hashFn st.hm k % st.hm.size + st.hm.size -
          compute_hash hashFn st.hm k % st.hm.size = st.hm.size := by omega
      rw [he, Nat.mod_self]
    · constructor
      · intro hcon
        exact absurd hcon (Option.some_ne_none k)
      · intro _
        refine ⟨?_, ?_, ?_⟩
        · show k.length % pow16 = (keyOf (⟨some k, v, compute_hash hashFn st.hm k, 0,
            k.length % pow16⟩ : Bucket)).length
          have hke : keyOf (⟨some k, v, compute_hash hashFn st.hm k, 0,
              k.length % pow16⟩ : Bucket) = k := rfl
          rw [hke]
          have hp16 : pow16 = 65536 := rfl
          exact Nat.mod_eq_of_lt (by omega)
        · exact hk1
        · exact hk2
    · intro hpos
      exact absurd hpos (lt_irrefl 0)
    · intro m hmlt
      exact absurd hmlt (Nat.not_lt_zero m)
  obtain ⟨hm2, hloop, hinv2, hents, hnit, hsz, hhk, hmin, hnoc⟩ :=
    insertLoopStrong hashFn k v (compute_hash hashFn st.hm k) hk1
      (compute_hash hashFn st.hm k % st.hm.size) (Nat.find hex) 0 (st.hm.size + 1) st.hm
      (⟨some k, v, compute_hash hashFn st.hm k, 0, k.length % pow16⟩ : Bucket)
      hinv hfl0 hblt (by omega)
      (fun m hmd => by
        rw [Nat.zero_add]
        exact Nat.find_min hex hmd)
      (by rw [Nat.zero_add]; exact Nat.find_spec hex)
      (by omega) hroom hcap (Or.inl rfl)
  have hstart : fast_rem32 (compute_hash hashFn st.hm k) st.hm.size st.hm.divinfo =
      (compute_hash hashFn st.hm k % st.hm.size + 0) % st.hm.size := by
    rw [hinv.frame.idx _ hhlt, mod_base_eq _ _ hblt]
  have hke2 : keyOf (⟨some k, v, compute_hash hashFn st.hm k, 0,
      k.length % pow16⟩ : Bucket) = k := rfl
  rw [hke2] at hents
  refine ⟨hm2, ?_, hinv2, hents, hnit, hsz, hhk, hmin, hnoc⟩
  simp only [rhashmap_insert]
  rw [hallocs]
  by_cases hnc : st.hm.nocopy = true
  · rw [if_pos hnc, hstart, hloop]
  · rw [if_neg hnc, if_pos (show (takeAlloc []).1 = true from rfl), hstart, hloop]
    exact rfl

theorem occCount_cons (b : Bucket) (rest : List Bucket) :
    occCount (b :: rest) = (if b.key.isSome then 1 else 0) + occCount rest := by
  rw [occCount, occCount, List.countP_cons, Nat.add_comm]

theorem entriesOf_cons_none (b : Bucket) (rest : List Bucket) (h : bucketEntry b = none) :
    entriesOf (b :: rest) = entriesOf rest := by
  rw [entriesOf, entriesOf, List.filterMap_cons, h]

theorem entriesOf_cons_some (b : Bucket) (rest : List Bucket) (p : List Nat × Nat)
    (h : bucketEntry b = some p) :
    entriesOf (b :: rest) = {p} + entriesOf rest := by
  rw [entriesOf, entriesOf, List.filterMap_cons, h]
  exact (Multiset.cons_coe p _).symm.trans (Multiset.singleton_add p _).symm

/-- A freshly reallocated table (all slots empty) satisfies the invariant. -/
theorem Inv_fresh (hashFn : List Nat → Nat → Nat) (hmf : HMap) (newsize : Nat)
    (hns1 : 0 < newsize) (hns2 : newsize < pow32) (hmin1 : 0 < hmf.minsize)
    (hmin2 : hmf.minsize ≤ newsize)
    (hbuck : hmf.buckets = List.replicate newsize emptyBucket)
    (hsz : hmf.size = newsize) (hni : hmf.nitems = 0)
    (hdiv : hmf.divinfo = fast_div32_init newsize) :
    Inv hashFn hmf := by
  have hbempty : ∀ j, bget hmf j = emptyBucket := by
    intro j
    rw [bget, hbuck, getD_replicate]
    by_cases h : j < newsize
    · rw [if_pos h]
    · rw [if_neg h]
  refine ⟨⟨by omega, by omega, by rw [hbuck, hsz]; exact List.length_replicate _ _,
    by rw [hdiv, hsz]⟩, hmin1, by omega, ?_, ?_, ?_, ?_, ?_, ?_⟩
  · show hmf.nitems = (hmf.buckets.filterMap bucketEntry).length
    rw [hni, hbuck, filterMap_replicate_empty newsize]
    rfl
  · omega
  · intro j hj
    show lenOkB (bget hmf j)
    rw [hbempty j]
    exact ⟨fun _ => rfl, fun h => absurd rfl h⟩
  · show (((hmf.buckets.filterMap bucketEntry)).map Prod.fst).Nodup
    rw [hbuck, filterMap_replicate_empty newsize]
    exact List.nodup_nil
  · intro j hj hocc
    rw [hbempty j] at hocc
    exact absurd rfl hocc
  · intro j hj hocc
    rw [hbempty j] at hocc
    exact absurd rfl hocc

/-- The rehash loop on an invariant table with all-fresh, distinct, legal
keys and room: it inserts every occupied old bucket and preserves the
invariant. -/
theorem rehash_inv (hashFn : List Nat → Nat → Nat) :
    ∀ (bl : List Bucket) (st : St),
      Inv hashFn st.hm → st.allocs = [] →
      blKeysOk bl →
      (keysOfL bl).Nodup →
      (∀ k2, k2 ∈ keysOfL bl → k2 ∉ keysM st.hm) →
      st.hm.nitems + occCount bl ≤ 65535 →
      st.hm.nitems + occCount bl ≤ st.hm.size →
      ∃ hm2, rehash hashFn bl st = ⟨hm2, [], st.rands⟩ ∧ Inv hashFn hm2 ∧
        entriesM hm2 = entriesM st.hm + entriesOf bl ∧
        hm2.nitems = st.hm.nitems + occCount bl ∧
        hm2.size = st.hm.size ∧ hm2.hashkey = st.hm.hashkey ∧
        hm2.minsize = st.hm.minsize ∧ hm2.nocopy = st.hm.nocopy
  | [], st => by
    intro hinv hallocs _ _ _ _ _
    refine ⟨st.hm, ?_, hinv, ?_, ?_, rfl, rfl, rfl, rfl⟩
    · show st = ⟨st.hm, [], st.rands⟩
      rw [← hallocs]
    · show entriesM st.hm = entriesM st.hm + entriesOf []
      rw [show entriesOf [] = 0 from rfl, add_zero]
    · show st.hm.nitems = st.hm.nitems + occCount []
      rw [show occCount [] = 0 from rfl, Nat.add_zero]
  | b :: rest, st => by
    intro hinv hallocs hkok hnodup hfreshl hcap hroom
    cases hbk : b.key with
    | none =>
      have hstep1 : rehash hashFn (b :: rest) st = rehash hashFn rest st := by
        rw [rehash_cons]
        congr 1
        rw [hbk]
      rw [hstep1]
      have hocc_eq : occCount (b :: rest) = occCount rest := by
        rw [occCount_cons, hbk]
        show (if false = true then 1 else 0) + occCount rest = occCount rest
        rw [if_neg Bool.false_ne_true, Nat.zero_add]
      have hbe : bucketEntry b = none := by
        rw [bucketEntry, hbk]
        rfl
      have hkeq : keysOfL (b :: rest) = keysOfL rest := by
        rw [keysOfL, keysOfL, List.filterMap_cons, hbe]
      rw [hocc_eq] at hcap hroom
      rw [hkeq] at hnodup hfreshl
      obtain ⟨hm2, heq, h2, h3, h4, h5, h6, h7, h8⟩ :=
        rehash_inv hashFn rest st hinv hallocs (fun b2 hb2 bs hbs => hkok b2 (by
          exact List.mem_cons_of_mem b hb2) bs hbs) hnodup hfreshl hcap hroom
      refine ⟨hm2, heq, h2, ?_, ?_, h5, h6, h7, h8⟩
      · rw [h3, entriesOf_cons_none b rest hbe]
      · rw [h4, hocc_eq]
    | some bs =>
      have hstep1 : rehash hashFn (b :: rest) st =
          rehash hashFn rest ((rhashmap_insert hashFn st bs b.val).2) := by
        rw [rehash_cons]
        congr 1
        rw [hbk]
      have hbe : bucketEntry b = some (bs, b.val) := by
        rw [bucketEntry, hbk]
        rfl
      have hocc_eq : occCount (b :: rest) = 1 + occCount rest := by
        rw [occCount_cons, hbk]
        show (if true = true then 1 else 0) + occCount rest = 1 + occCount rest
        rw [if_pos rfl]
      have hkeq : keysOfL (b :: rest) = bs :: keysOfL rest := by
        rw [keysOfL, keysOfL, List.filterMap_cons, hbe, List.map_cons]
      rw [hocc_eq] at hcap hroom
      rw [hkeq] at hnodup hfreshl
      obtain ⟨hlen1, hlen2⟩ := hkok b (List.mem_cons_self b rest) bs hbk
      obtain ⟨hm1, hins, hinv1, hents1, hnit1, hsz1, hhk1, hmin1, hnoc1⟩ :=
        insert_strong hashFn st bs b.val hinv hlen1 hlen2
          (hfreshl bs (List.mem_cons_self bs _)) (by omega) (by omega) hallocs
      rw [hstep1, hins]
      obtain ⟨hm2, heq, h2, h3, h4, h5, h6, h7, h8⟩ :=
        rehash_inv hashFn rest (⟨hm1, [], st.rands⟩ : St) hinv1 rfl
          (fun b2 hb2 bs2 hbs2 => hkok b2 (List.mem_cons_of_mem b hb2) bs2 hbs2)
          (hnodup.of_cons)
          (fun k2 hk2 => by
            show k2 ∉ keysM hm1
            rw [keysM_of_entriesM_add hents1]
            intro hmem
            rcases Multiset.mem_add.mp hmem with hc1 | hc1
            · exact hfreshl k2 (List.mem_cons_of_mem bs hk2) hc1
            · rw [Multiset.mem_singleton] at hc1
              subst hc1
              exact (List.nodup_cons.mp hnodup).1 hk2)
          (by show hm1.nitems + occCount rest ≤ 65535; omega)
          (by show hm1.nitems + occCount rest ≤ hm1.size; rw [hsz1]; omega)
      refine ⟨hm2, heq, h2, ?_, ?_, by rw [h5, hsz1], by rw [h6, hhk1],
        by rw [h7, hmin1], by rw [h8, hnoc1]⟩
      · rw [h3]
        show entriesM hm1 + entriesOf rest = entriesM st.hm + entriesOf (b :: rest)
        rw [hents1, entriesOf_cons_some b rest (bs, b.val) hbe, add_assoc]
      · show hm2.nitems = st.hm.nitems + occCount (b :: rest)
        rw [h4, hocc_eq]
        show hm1.nitems + occCount rest = st.hm.nitems + (1 + occCount rest)
        omega

/-- A successful resize of an invariant table (to a legal capacity with
room and a 16-bit-safe count) yields an invariant table with exactly the
same stored pairs and count. -/
theorem resize_inv (hashFn : List Nat → Nat → Nat) (st : St) (newsize : Nat)
    (hinv : Inv hashFn st.hm) (hallocs : st.allocs = [])
    (hns1 : 0 < newsize) (hns2 : newsize ≤ 4294967295)
    (hmin : st.hm.minsize ≤ newsize)
    (hcap : st.hm.nitems ≤ 65535) (hroom : st.hm.nitems < newsize) :
    ∃ hm2, rhashmap_resize hashFn st newsize =
        (true, ⟨hm2, [], (takeRand (takeRand st.rands).2).2⟩) ∧
      Inv hashFn hm2 ∧ entriesM hm2 = entriesM st.hm ∧
      hm2.nitems = st.hm.nitems ∧ hm2.size = newsize ∧
      hm2.minsize = st.hm.minsize ∧ hm2.nocopy = st.hm.nocopy := by
  have hnslt : newsize < pow32 := by
    have h32 : pow32 = 4294967296 := rfl
    omega
  have hcore : ∀ (st1 : St), st1.hm = st.hm → st1.allocs = [] → st1.rands = st.rands →
      ∃ hm2, resizeCore hashFn st1 newsize st.hm.buckets =
          ⟨hm2, [], (takeRand (takeRand st.rands).2).2⟩ ∧
        Inv hashFn hm2 ∧ entriesM hm2 = entriesM st.hm ∧
        hm2.nitems = st.hm.nitems ∧ hm2.size = newsize ∧
        hm2.minsize = st.hm.minsize ∧ hm2.nocopy = st.hm.nocopy := by
    intro st1 h1 h2 h3
    rw [resizeCore]
    have hinvf : Inv hashFn { st1.hm with
        buckets := List.replicate newsize emptyBucket,
        size := newsize, nitems := 0,
        divinfo := fast_div32_init newsize,
        hashkey := st1.hm.hashkey ^^^
          ((takeRand st1.rands).1 ||| (takeRand (takeRand st1.rands).2).1 * pow32) } := by
      refine Inv_fresh hashFn _ newsize hns1 hnslt ?_ ?_ rfl rfl rfl rfl
      · show 0 < st1.hm.minsize
        rw [h1]
        exact hinv.min_pos
      · show st1.hm.minsize ≤ newsize
        rw [h1]
        exact hmin
    have hentrf : entriesL ({ st1.hm with
        buckets := List.replicate newsize emptyBucket,
        size := newsize, nitems := 0,
        divinfo := fast_div32_init newsize,
        hashkey := st1.hm.hashkey ^^^
          ((takeRand st1.rands).1 ||| (takeRand (takeRand st1.rands).2).1 * pow32) } : HMap) = [] :=
      filterMap_replicate_empty newsize
    obtain ⟨hm2, heq, hinv2, hents, hnit, hsz, hhk, hmin2, hnoc2⟩ :=
      rehash_inv hashFn st.hm.buckets
        ⟨{ st1.hm with
            buckets := List.replicate newsize emptyBucket,
            size := newsize, nitems := 0,
            divinfo := fast_div32_init newsize,
            hashkey := st1.hm.hashkey ^^^
              ((takeRand st1.rands).1 ||| (takeRand (takeRand st1.rands).2).1 * pow32) },
          st1.allocs, (takeRand (takeRand st1.rands).2).2⟩
        hinvf h2 hinv.blKeysOk hinv.nodupKeys
        (fun k2 _ hk2 => by
          rw [keysM, entriesM, hentrf] at hk2
          simp at hk2)
        (by
          show 0 + occCount st.hm.buckets ≤ 65535
          rw [hinv.occ_eq_nitems]
          omega)
        (by
          show 0 + occCount st.hm.buckets ≤ newsize
          rw [hinv.occ_eq_nitems]
          omega)
    refine ⟨hm2, ?_, hinv2, ?_, ?_, by rw [hsz], ?_, ?_⟩
    · rw [heq, h3]
    · rw [hents]
      show entriesM _ + entriesOf st.hm.buckets = entriesM st.hm
      rw [show (entriesM { st1.hm with
          buckets := List.replicate newsize emptyBucket,
          size := newsize, nitems := 0,
          divinfo := fast_div32_init newsize,
          hashkey := st1.hm.hashkey ^^^
            ((takeRand st1.rands).1 ||| (takeRand (takeRand st1.rands).2).1 * pow32) } : Multiset _)
        = ((([] : List (List Nat × Nat)) : Multiset (List Nat × Nat))) from congrArg _ hentrf]
      exact (zero_add (entriesOf st.hm.buckets)).trans rfl
    · rw [hnit]
      show 0 + occCount st.hm.buckets = st.hm.nitems
      rw [hinv.occ_eq_nitems, Nat.zero_add]
    · rw [hmin2]
      show st1.hm.minsize = st.hm.minsize
      rw [h1]
    · rw [hnoc2]
      show st1.hm.nocopy = st.hm.nocopy
      rw [h1]
  by_cases h1 : newsize = 1
  · subst h1
    obtain ⟨hm2, hcr, rest⟩ := hcore st rfl hallocs rfl
    refine ⟨hm2, ?_, rest⟩
    rw [rhashmap_resize, if_pos rfl, hcr]
  · rw [rhashmap_resize, if_neg h1, if_neg (by omega : ¬ 4294967295 < newsize)]
    obtain ⟨hm2, hcr, rest⟩ := hcore ⟨st.hm, [], st.rands⟩ rfl rfl rfl
    refine ⟨hm2, ?_, rest⟩
    show (if (takeAlloc st.allocs).1 = true
        then (true, resizeCore hashFn ⟨st.hm, (takeAlloc st.allocs).2, st.rands⟩
          newsize st.hm.buckets)
        else (false, ⟨st.hm, (takeAlloc st.allocs).2, st.rands⟩)) = _
    rw [hallocs, if_pos (show (takeAlloc ([] : List Bool)).1 = true from rfl)]
    show (true, resizeCore hashFn ⟨st.hm, [], st.rands⟩ newsize st.hm.buckets) = _
    rw [hcr]

/-- One `rhashmap_put` of a fresh legal key: grows when past the threshold,
succeeds, preserves the invariant, adds the pair. -/
theorem put_step (hashFn : List Nat → Nat → Nat) (st : St) (k : List Nat) (v : Nat)
    (hinv : Inv hashFn st.hm) (hallocs : st.allocs = [])
    (hk1 : 0 < k.length) (hk2 : k.length ≤ 65535)
    (hfresh : k ∉ keysM st.hm) (hcap : st.hm.nitems + 1 ≤ 65535)
    (hszb : st.hm.size ≤ 4936744) :
    ∃ st2, rhashmap_put hashFn st k v = (some v, st2) ∧
      Inv hashFn st2.hm ∧ st2.allocs = [] ∧
      entriesM st2.hm = entriesM st.hm + {(k, v)} ∧
      st2.hm.nitems = st.hm.nitems + 1 ∧ st2.hm.size ≤ 4936744 := by
  have hs := hinv.frame.size_pos
  have hile := hinv.items_le
  have hms : maxGrowthStep = 1048576 := rfl
  have hp32 : pow32 = 4294967296 := rfl
  by_cases hgrow : approx85 st.hm.size < st.hm.nitems
  · have h1 : st.hm.size * 870 % pow32 / 1024 < st.hm.nitems := hgrow
    rw [Nat.mod_eq_of_lt (show st.hm.size * 870 < pow32 by omega)] at h1
    have h2 := Nat.div_add_mod (st.hm.size * 870) 1024
    have h3 := Nat.mod_lt (st.hm.size * 870) (show 0 < 1024 by norm_num)
    have hsz_small : st.hm.size ≤ 77174 := by omega
    have hm2eq : st.hm.size * 2 % pow32 = st.hm.size * 2 := Nat.mod_eq_of_lt (by omega)
    have hmgeq : (st.hm.size + maxGrowthStep) % pow32 = st.hm.size + maxGrowthStep :=
      Nat.mod_eq_of_lt (by omega)
    obtain ⟨hm1, hres, hinv1, hents1, hnit1, hsz1, hmin1, hnoc1⟩ :=
      resize_inv hashFn st (min (st.hm.size * 2) (st.hm.size + maxGrowthStep)) hinv hallocs
        (by omega) (by omega) (by have := hinv.min_le; omega) (by omega) (by omega)
    have hkeys1 : keysM hm1 = keysM st.hm := by
      rw [keysM, keysM, hents1]
    obtain ⟨hm2, hins, hinv2, hents2, hnit2, hsz2, hhk2, hmin2, hnoc2⟩ :=
      insert_strong hashFn ⟨hm1, [], (takeRand (takeRand st.rands).2).2⟩ k v hinv1 hk1 hk2
        (by rw [show keysM (⟨hm1, [], (takeRand (takeRand st.rands).2).2⟩ : St).hm
            = keysM st.hm from hkeys1]; exact hfresh)
        (by show hm1.nitems < hm1.size; rw [hnit1, hsz1]; omega)
        (by show hm1.nitems + 1 ≤ 65535; rw [hnit1]; omega) rfl
    refine ⟨⟨hm2, [], (takeRand (takeRand st.rands).2).2⟩, ?_, hinv2, rfl, ?_, ?_, ?_⟩
    · simp only [rhashmap_put]
      rw [hm2eq, hmgeq]
      rw [if_pos hgrow, hres,
        if_pos (show ((true, (⟨hm1, [], (takeRand (takeRand st.rands).2).2⟩ : St)).1 = true)
          from rfl)]
      show rhashmap_insert hashFn ⟨hm1, [], (takeRand (takeRand st.rands).2).2⟩ k v = _
      rw [hins]
    · show entriesM hm2 = entriesM st.hm + {(k, v)}
      rw [hents2]
      show entriesM hm1 + {(k, v)} = entriesM st.hm + {(k, v)}
      rw [hents1]
    · show hm2.nitems = st.hm.nitems + 1
      rw [hnit2]
      show hm1.nitems + 1 = st.hm.nitems + 1
      rw [hnit1]
    · show hm2.size ≤ 4936744
      rw [hsz2]
      show hm1.size ≤ 4936744
      rw [hsz1]
      omega
  · have hroom : st.hm.nitems < st.hm.size := by
      have h1 : ¬ st.hm.size * 870 % pow32 / 1024 < st.hm.nitems := hgrow
      rw [Nat.mod_eq_of_lt (show st.hm.size * 870 < pow32 by omega)] at h1
      have h2 := Nat.div_add_mod (st.hm.size * 870) 1024
      have h3 := Nat.mod_lt (st.hm.size * 870) (show 0 < 1024 by norm_num)
      omega
    obtain ⟨hm2, hins, hinv2, hents2, hnit2, hsz2, hhk2, hmin2, hnoc2⟩ :=
      insert_strong hashFn st k v hinv hk1 hk2 hfresh hroom hcap hallocs
    refine ⟨⟨hm2, [], st.rands⟩, ?_, hinv2, rfl, hents2, hnit2, ?_⟩
    · simp only [rhashmap_put]
      rw [if_neg hgrow, hins]
    · show hm2.size ≤ 4936744
      rw [hsz2]
      exact hszb

/-- A sequence of puts of distinct fresh legal keys from an invariant
state: all succeed and store exactly the pairs. -/
theorem puts_spec (hashFn : List Nat → Nat → Nat) :
    ∀ (ps : List (List Nat × Nat)) (st : St),
      Inv hashFn st.hm → st.allocs = [] →
      (∀ p ∈ ps, 0 < p.1.length ∧ p.1.length ≤ 65535) →
      ((ps.map Prod.fst).Nodup) →
      (∀ p ∈ ps, p.1 ∉ keysM st.hm) →
      st.hm.nitems + ps.length ≤ 65535 →
      st.hm.size ≤ 4936744 →
      ∃ stf, ps.foldl (fun s q => (rhashmap_put hashFn s q.1 q.2).2) st = stf ∧
        Inv hashFn stf.hm ∧ stf.allocs = [] ∧
        entriesM stf.hm = entriesM st.hm + (ps : Multiset (List Nat × Nat)) ∧
        stf.hm.nitems = st.hm.nitems + ps.length
  | [], st => by
    intro hinv hallocs _ _ _ _ _
    refine ⟨st, rfl, hinv, hallocs, ?_, ?_⟩
    · show entriesM st.hm = entriesM st.hm + (0 : Multiset (List Nat × Nat))
      rw [add_zero]
    · show st.hm.nitems = st.hm.nitems + 0
      rw [Nat.add_zero]
  | p :: rest, st => by
    intro hinv hallocs hlens hnodup hfresh hcap hszb
    obtain ⟨hl1, hl2⟩ := hlens p (List.mem_cons_self p rest)
    obtain ⟨st2, hput, hinv2, hallocs2, hents2, hnit2, hszb2⟩ :=
      put_step hashFn st p.1 p.2 hinv hallocs hl1 hl2
        (hfresh p (List.mem_cons_self p rest)) (by
          have := hcap
          simp only [List.length_cons] at this
          omega) hszb
    have hkeys2 : keysM st2.hm = keysM st.hm + {p.1} := keysM_of_entriesM_add hents2
    obtain ⟨stf, hfold, hinvf, hallocsf, hentsf, hnitf⟩ :=
      puts_spec hashFn rest st2 hinv2 hallocs2
        (fun q hq => hlens q (List.mem_cons_of_mem p hq))
        ((List.nodup_cons.mp hnodup).2)
        (fun q hq => by
          rw [hkeys2]
          intro hmem
          rcases Multiset.mem_add.mp hmem with hc | hc
          · exact hfresh q (List.mem_cons_of_mem p hq) hc
          · rw [Multiset.mem_singleton] at hc
            refine (List.nodup_cons.mp hnodup).1 ?_
            rw [← hc]
            exact List.mem_map_of_mem Prod.fst hq)
        (by
          rw [hnit2]
          have := hcap
          simp only [List.length_cons] at this
          omega)
        hszb2
    refine ⟨stf, ?_, hinvf, hallocsf, ?_, ?_⟩
    · rw [List.foldl_cons, hput]
      exact hfold
    · rw [hentsf, hents2, add_assoc]
      show entriesM st.hm + ({(p.1, p.2)} + (rest : Multiset (List Nat × Nat))) =
        entriesM st.hm + ((p :: rest : List (List Nat × Nat)) : Multiset (List Nat × Nat))
      rw [Multiset.singleton_add]
      exact congrArg (entriesM st.hm + ·) (Multiset.cons_coe p rest)
    · rw [hnitf, hnit2, List.length_cons]
      omega

/-- A create with all-succeeding allocations yields an invariant empty
table of capacity `max size 1`. -/
theorem create_inv (hashFn : List Nat → Nat → Nat) (size0 : Nat) (nocopy : Bool)
    (rands : List Nat) (hsz : size0 ≤ 4294967295) :
    ∃ hm1, rhashmap_create hashFn size0 nocopy [] rands =
        some ⟨hm1, [], (takeRand (takeRand rands).2).2⟩ ∧
      Inv hashFn hm1 ∧ entriesM hm1 = 0 ∧ hm1.nitems = 0 ∧
      hm1.size = max size0 1 ∧ hm1.nocopy = nocopy := by
  have hns1 : 0 < max size0 1 := by omega
  have hnslt : max size0 1 < pow32 := by
    have h32 : pow32 = 4294967296 := rfl
    omega
  have hres : rhashmap_resize hashFn
      ⟨⟨0, 0, nocopy, max size0 1, 0, [], 0⟩, (takeAlloc ([] : List Bool)).2, rands⟩
      (max size0 1) =
      (true, ⟨⟨max size0 1, 0, nocopy, max size0 1, fast_div32_init (max size0 1),
        List.replicate (max size0 1) emptyBucket,
        0 ^^^ ((takeRand rands).1 ||| (takeRand (takeRand rands).2).1 * pow32)⟩,
        [], (takeRand (takeRand rands).2).2⟩) := by
    rw [rhashmap_resize]
    by_cases h1 : max size0 1 = 1
    · rw [if_pos h1, h1]
      exact rfl
    · rw [if_neg h1, if_neg (by omega : ¬ 4294967295 < max size0 1)]
      show (if (takeAlloc (takeAlloc ([] : List Bool)).2).1 = true
          then (true, resizeCore hashFn ⟨⟨0, 0, nocopy, max size0 1, 0, [], 0⟩,
            (takeAlloc (takeAlloc ([] : List Bool)).2).2, rands⟩ (max size0 1) [])
          else (false, ⟨⟨0, 0, nocopy, max size0 1, 0, [], 0⟩,
            (takeAlloc (takeAlloc ([] : List Bool)).2).2, rands⟩)) = _
      rw [if_pos (show (takeAlloc (takeAlloc ([] : List Bool)).2).1 = true from rfl)]
      exact rfl
  refine ⟨⟨max size0 1, 0, nocopy, max size0 1, fast_div32_init (max size0 1),
    List.replicate (max size0 1) emptyBucket,
    0 ^^^ ((takeRand rands).1 ||| (takeRand (takeRand rands).2).1 * pow32)⟩,
    ?_, ?_, ?_, rfl, rfl, rfl⟩
  · simp only [rhashmap_create]
    rw [if_pos (show (takeAlloc ([] : List Bool)).1 = true from rfl), hres,
      if_pos (show ((true, (⟨⟨max size0 1, 0, nocopy, max size0 1,
        fast_div32_init (max size0 1), List.replicate (max size0 1) emptyBucket,
        0 ^^^ ((takeRand rands).1 ||| (takeRand (takeRand rands).2).1 * pow32)⟩,
        [], (takeRand (takeRand rands).2).2⟩ : St)).1 = true) from rfl)]
  · exact Inv_fresh hashFn _ (max size0 1) hns1 hnslt hns1 (le_refl _) rfl rfl rfl rfl
  · show ((List.replicate (max size0 1) emptyBucket).filterMap bucketEntry :
      Multiset (List Nat × Nat)) = 0
    rw [filterMap_replicate_empty]
    rfl

/-- C1 (amended): the round trip holds for every sequence of puts of
pairwise-distinct keys of legal length on a freshly created table — grows
included — provided at most 65535 pairs are stored (the 16-bit PSL field
caps the displacement bookkeeping; claim C2 records the wrap beyond it)
and the initial capacity is at most 4936744 (beyond that the 32-bit
threshold product `size·870` wraps, and a grow at capacity `2^31` targets
the wrapped size `2^31 << 1 = 0`, destroying the table). -/
theorem claim_C1 (hashFn : List Nat → Nat → Nat) (size0 : Nat) (nocopy : Bool)
    (st0 : St) (hcreate : rhashmap_create hashFn size0 nocopy [] [] = some st0)
    (hsz0 : size0 ≤ 4936744)
    (ps : List (List Nat × Nat))
    (hlens : ∀ p ∈ ps, 0 < p.1.length ∧ p.1.length ≤ 65535)
    (hnodup : (ps.map Prod.fst).Nodup)
    (hcount : ps.length ≤ 65535) :
    ∀ p ∈ ps,
      rhashmap_get hashFn
        ((ps.foldl (fun s q => (rhashmap_put hashFn s q.1 q.2).2) st0).hm) p.1 =
        some p.2 := by
  obtain ⟨hm1, hcr, hinv1, hents1, hnit1, hsz1, hnoc1⟩ :=
    create_inv hashFn size0 nocopy [] (by omega)
  rw [hcr] at hcreate
  injection hcreate with hst0
  obtain ⟨stf, hfold, hinvf, hallocsf, hentsf, hnitf⟩ :=
    puts_spec hashFn ps ⟨hm1, [], (takeRand (takeRand ([] : List Nat)).2).2⟩ hinv1 rfl
      hlens hnodup
      (fun p _ => by
        show p.1 ∉ keysM hm1
        rw [keysM, hents1]
        simp)
      (by
        show hm1.nitems + ps.length ≤ 65535
        rw [hnit1]
        omega)
      (by
        show hm1.size ≤ 4936744
        rw [hsz1]
        omega)
  rw [← hst0]
  intro p hp
  rw [hfold]
  refine rhashmap_get_some hashFn stf.hm hinvf p.1 p.2 ?_
  rw [hentsf]
  show (p.1, p.2) ∈ entriesM hm1 + (ps : Multiset (List Nat × Nat))
  rw [hents1, zero_add]
  show (p.1, p.2) ∈ (ps : Multiset (List Nat × Nat))
  rw [show ((p.1, p.2) : List Nat × Nat) = p from rfl]
  exact hp

theorem claim_C1_witness :
    rhashmap_get hzero
      (([(([5] : List Nat), 7)].foldl
        (fun s q => (rhashmap_put hzero s q.1 q.2).2) c10_st).hm) [5] =
      some 7 :=
  claim_C1 hzero 2 true c10_st (by decide) (by decide) [(([5] : List Nat), 7)]
    (by decide) (by decide) (by decide) (([5] : List Nat), 7) (by decide)

/-- Probing for a key already stored at displacement `D`: the loop reaches
it without any swap (the chain's PSLs are at least the candidate's) and
returns the stored value, leaving the table untouched. -/
theorem insertLoop_dup (hashFn : List Nat → Nat → Nat) (hm : HMap) (hinv : Inv hashFn hm)
    (k : List Nat) (v2 : Nat) (hk : 0 < k.length) (D : Nat) (hDlt : D < hm.size)
    (hD : (bget hm ((compute_hash hashFn hm k % hm.size + D) % hm.size)).key = some k)
    (hDpsl : (bget hm ((compute_hash hashFn hm k % hm.size + D) % hm.size)).psl = D) :
    ∀ (dd t fuel : Nat) (e : Bucket), t + dd = D → dd < fuel → e.psl = t →
      insertLoop (compute_hash hashFn hm k) k v2 fuel hm e
          ((compute_hash hashFn hm k % hm.size + t) % hm.size) =
        (some (bget hm ((compute_hash hashFn hm k % hm.size + D) % hm.size)).val, hm)
  | 0, t, fuel, e => by
    intro htd hfuel hepsl
    obtain ⟨f, rfl⟩ : ∃ f, fuel = f + 1 := ⟨fuel - 1, by omega⟩
    have hs := hinv.frame.size_pos
    have ht : t = D := by omega
    subst ht
    have hsound := hinv.bsound_some (mod_self_lt _ _ hs) hD
    have hocc : (bget hm ((compute_hash hashFn hm k % hm.size + t) % hm.size)).key ≠ none := by
      rw [hD]
      exact Option.some_ne_none k
    simp only [insertLoop]
    rw [if_neg hocc,
      if_pos ⟨hsound.1, (match_iff_key (hinv.lens _ (mod_self_lt _ _ hs)) hk).mpr hD⟩]
  | dd + 1, t, fuel, e => by
    intro htd hfuel hepsl
    obtain ⟨f, rfl⟩ : ∃ f, fuel = f + 1 := ⟨fuel - 1, by omega⟩
    have hs := hinv.frame.size_pos
    have hDp16 : D < pow16 := by
      have h1 := (hinv.bsound_some (mod_self_lt _ _ hs) hD).2.2
      rw [hDpsl] at h1
      exact h1
    have hchain := hinv.chain (compute_hash hashFn hm k % hm.size) D hDlt
      (by rw [hD]; exact Option.some_ne_none k) (by rw [hDpsl]) t (by omega)
    simp only [insertLoop]
    rw [if_neg hchain.1]
    have hmatch : ¬ ((bget hm ((compute_hash hashFn hm k % hm.size + t) % hm.size)).hash =
        compute_hash hashFn hm k ∧
        (bget hm ((compute_hash hashFn hm k % hm.size + t) % hm.size)).len = k.length ∧
        keyEq (bget hm ((compute_hash hashFn hm k % hm.size + t) % hm.size)).key k = true) := by
      rintro ⟨-, h2, h3⟩
      have h4 := (match_iff_key (hinv.lens _ (mod_self_lt _ _ hs)) hk).mp ⟨h2, h3⟩
      have heq := hinv.key_unique (mod_self_lt _ _ hs) (mod_self_lt _ _ hs) h4 hD
      have h5 := probe_inj hm.size (compute_hash hashFn hm k % hm.size)
        (by omega) (by omega) heq
      omega
    rw [if_neg hmatch]
    have hnoswap : ¬ ((bget hm ((compute_hash hashFn hm k % hm.size + t) % hm.size)).psl
        < e.psl) := by
      rw [hepsl]
      have h6 := hchain.2
      omega
    simp only [if_neg hnoswap]
    have hidx : fast_rem32 ((compute_hash hashFn hm k % hm.size + t) % hm.size + 1)
        hm.size hm.divinfo = (compute_hash hashFn hm k % hm.size + (t + 1)) % hm.size := by
      rw [hinv.frame.idx_succ _ (mod_self_lt _ _ hs), mod_step, Nat.add_assoc]
    rw [hidx]
    refine insertLoop_dup hashFn hm hinv k v2 hk D hDlt hD hDpsl dd (t + 1) f _
      (by omega) (by omega) ?_
    show (e.psl + 1) % pow16 = t + 1
    rw [hepsl]
    exact Nat.mod_eq_of_lt (by omega)

/-- A duplicate insert returns the stored value and leaves the whole state
unchanged (in copy mode the candidate copy is released again). -/
theorem insert_dup (hashFn : List Nat → Nat → Nat) (st : St) (k : List Nat) (v1 v2 : Nat)
    (hinv : Inv hashFn st.hm) (hk : 0 < k.length)
    (hmem : (k, v1) ∈ entriesM st.hm) (hallocs : st.allocs = []) :
    rhashmap_insert hashFn st k v2 = (some v1, st) := by
  have hs := hinv.frame.size_pos
  obtain ⟨j, hjlen, hkey, hval⟩ := bget_of_mem_entriesM st.hm k v1 hmem
  have hj : j < st.hm.size := by
    rw [← hinv.frame.blen]
    exact hjlen
  have hsound := hinv.bsound_some hj hkey
  have hrepr : (compute_hash hashFn st.hm k % st.hm.size + (bget st.hm j).psl)
      % st.hm.size = j := by
    rw [hsound.2.1]
    exact disp_repr _ _ _ hs (le_of_lt (mod_self_lt _ _ hs)) hj
  have hDlt : (bget st.hm j).psl < st.hm.size := by
    rw [hsound.2.1]
    exact mod_self_lt _ _ hs
  have hloop := insertLoop_dup hashFn st.hm hinv k v2 hk (bget st.hm j).psl hDlt
    (by rw [hrepr]; exact hkey) (by rw [hrepr]) (bget st.hm j).psl 0 (st.hm.size + 1)
    (⟨some k, v2, compute_hash hashFn st.hm k, 0, k.length % pow16⟩ : Bucket)
    (by omega) (by omega) rfl
  rw [hrepr, hval] at hloop
  have hhlt : compute_hash hashFn st.hm k < pow32 := Nat.mod_lt _ pow32_pos
  have hstart : fast_rem32 (compute_hash hashFn st.hm k) st.hm.size st.hm.divinfo =
      (compute_hash hashFn st.hm k % st.hm.size + 0) % st.hm.size := by
    rw [hinv.frame.idx _ hhlt, mod_base_eq _ _ (mod_self_lt _ _ hs)]
  simp only [rhashmap_insert]
  rw [hallocs]
  by_cases hnc : st.hm.nocopy = true
  · rw [if_pos hnc, hstart, hloop]
    show (some v1, (⟨st.hm, [], st.rands⟩ : St)) = (some v1, st)
    rw [← hallocs]
  · rw [if_neg hnc, if_pos (show (takeAlloc ([] : List Bool)).1 = true from rfl),
      hstart, hloop]
    show (some v1, (⟨st.hm, [], st.rands⟩ : St)) = (some v1, st)
    rw [← hallocs]

/-- C7 (amended): for capacities up to 4936744 — the range in which the
32-bit threshold product `capacity·870` does not wrap — a duplicate put on
a table already holding (k, v1) returns v1 (also across an intervening
grow), keeps the stored pairs and the count, and a following get still
yields v1.  Beyond that range the wrapped threshold can force a grow whose
wrapped target corrupts the table (see the counterexample). -/
theorem claim_C7 (hashFn : List Nat → Nat → Nat) (st : St) (k : List Nat) (v1 v2 : Nat)
    (hinv : Inv hashFn st.hm) (hallocs : st.allocs = [])
    (hmem : (k, v1) ∈ entriesM st.hm) (hk : 0 < k.length)
    (hcap : st.hm.nitems ≤ 65535) (hszb : st.hm.size ≤ 4936744) :
    ∃ st2, rhashmap_put hashFn st k v2 = (some v1, st2) ∧
      entriesM st2.hm = entriesM st.hm ∧
      st2.hm.nitems = st.hm.nitems ∧
      rhashmap_get hashFn st2.hm k = some v1 := by
  have hs := hinv.frame.size_pos
  have hile := hinv.items_le
  have hms : maxGrowthStep = 1048576 := rfl
  have hp32 : pow32 = 4294967296 := rfl
  by_cases hgrow : approx85 st.hm.size < st.hm.nitems
  · have h1 : st.hm.size * 870 % pow32 / 1024 < st.hm.nitems := hgrow
    rw [Nat.mod_eq_of_lt (show st.hm.size * 870 < pow32 by omega)] at h1
    have h2 := Nat.div_add_mod (st.hm.size * 870) 1024
    have h3 := Nat.mod_lt (st.hm.size * 870) (show 0 < 1024 by norm_num)
    have hsz_small : st.hm.size ≤ 77174 := by omega
    have hm2eq : st.hm.size * 2 % pow32 = st.hm.size * 2 := Nat.mod_eq_of_lt (by omega)
    have hmgeq : (st.hm.size + maxGrowthStep) % pow32 = st.hm.size + maxGrowthStep :=
      Nat.mod_eq_of_lt (by omega)
    obtain ⟨hm1, hres, hinv1, hents1, hnit1, hsz1, hmin1, hnoc1⟩ :=
      resize_inv hashFn st (min (st.hm.size * 2) (st.hm.size + maxGrowthStep)) hinv hallocs
        (by omega) (by omega) (by have := hinv.min_le; omega) (by omega) (by omega)
    have hmem1 : (k, v1) ∈ entriesM hm1 := by
      rw [hents1]
      exact hmem
    have hins := insert_dup hashFn ⟨hm1, [], (takeRand (takeRand st.rands).2).2⟩ k v1 v2
      hinv1 hk hmem1 rfl
    refine ⟨⟨hm1, [], (takeRand (takeRand st.rands).2).2⟩, ?_, hents1, hnit1, ?_⟩
    · simp only [rhashmap_put]
      rw [hm2eq, hmgeq]
      rw [if_pos hgrow, hres,
        if_pos (show ((true, (⟨hm1, [], (takeRand (takeRand st.rands).2).2⟩ : St)).1 = true)
          from rfl)]
      exact hins
    · exact rhashmap_get_some hashFn hm1 hinv1 k v1 hmem1
  · have hins := insert_dup hashFn st k v1 v2 hinv hk hmem hallocs
    refine ⟨st, ?_, rfl, rfl, rhashmap_get_some hashFn st.hm hinv k v1 hmem⟩
    simp only [rhashmap_put]
    rw [if_neg hgrow, hins]

theorem claim_C7_witness :
    ∃ st2, rhashmap_put hzero ⟨wit1, [], []⟩ [7] 9 = (some 5, st2) ∧
      entriesM st2.hm = entriesM wit1 ∧
      st2.hm.nitems = wit1.nitems ∧
      rhashmap_get hzero st2.hm [7] = some 5 :=
  claim_C7 hzero ⟨wit1, [], []⟩ [7] 5 9 wit1_inv rfl (by decide) (by decide) (by decide)
    (by decide)

/-! ### Claim C3: deletion -/

theorem length_le_sum : ∀ (l : List Nat), (∀ x ∈ l, 1 ≤ x) → l.length ≤ l.sum
  | [], _ => le_refl 0
  | x :: r, h => by
    rw [List.length_cons, List.sum_cons]
    have h1 := h x (List.mem_cons_self x r)
    have h2 := length_le_sum r (fun y hy => h y (List.mem_cons_of_mem x hy))
    omega

theorem map_getD_range {α : Type} (d : α) : ∀ (l : List α),
    (List.range l.length).map (fun i => l.getD i d) = l
  | [] => rfl
  | x :: l => by
    rw [List.length_cons, List.range_succ_eq_map, List.map_cons, List.map_map]
    have h1 : ((fun i => (x :: l).getD i d) ∘ Nat.succ) = fun i => l.getD i d := by
      funext i
      rfl
    rw [h1, map_getD_range d l]
    rfl

theorem sublist_sum_le : ∀ {l1 l2 : List Nat}, l1.Sublist l2 → l1.sum ≤ l2.sum := by
  intro l1 l2 h
  induction h with
  | slnil => exact le_refl 0
  | cons a h ih =>
    rw [List.sum_cons]
    omega
  | cons₂ a h ih =>
    rw [List.sum_cons, List.sum_cons]
    omega

/-- Distinct occupied slots with positive PSL bound the PSL sum from below
(this justifies the `pslSum + 2` fuel of the backward-shift loop). -/
theorem pslSum_lower (hm : HMap) (hblen : hm.buckets.length = hm.size) (S : List Nat)
    (hnd : S.Nodup)
    (hS : ∀ i ∈ S, i < hm.size ∧ (bget hm i).key ≠ none ∧ 1 ≤ (bget hm i).psl) :
    S.length ≤ pslSum hm := by
  have hf : pslSum hm = ((List.range hm.size).map fun i =>
      if (bget hm i).key = none then 0 else (bget hm i).psl).sum := by
    rw [pslSum, ← map_getD_range emptyBucket hm.buckets, List.map_map, hblen]
    rfl
  have hsub : S.Subperm (List.range hm.size) :=
    hnd.subperm (fun i hi => List.mem_range.mpr (hS i hi).1)
  obtain ⟨l0, hperm0, hsubl0⟩ := hsub
  have hperm : (l0.map fun i => if (bget hm i).key = none then 0 else (bget hm i).psl).Perm
      (S.map fun i => if (bget hm i).key = none then 0 else (bget hm i).psl) :=
    hperm0.map _
  have hsubl := hsubl0.map fun i => if (bget hm i).key = none then 0 else (bget hm i).psl
  have hperm' := hperm
  set l := l0.map fun i => if (bget hm i).key = none then 0 else (bget hm i).psl with hldef
  have hlen1 : S.length ≤ (S.map fun i =>
      if (bget hm i).key = none then 0 else (bget hm i).psl).sum := by
    rw [show S.length = (S.map fun i =>
        if (bget hm i).key = none then 0 else (bget hm i).psl).length
      from (List.length_map _ _).symm]
    refine length_le_sum _ ?_
    intro x hx
    rw [List.mem_map] at hx
    obtain ⟨i, hiS, rfl⟩ := hx
    obtain ⟨-, ho, hp⟩ := hS i hiS
    rw [if_neg ho]
    exact hp
  have hsum2 : (S.map fun i =>
      if (bget hm i).key = none then 0 else (bget hm i).psl).sum = l.sum :=
    (hperm.sum_eq).symm
  have hsum3 := sublist_sum_le hsubl
  rw [hf]
  omega

theorem bshiftLoop_frame :
    ∀ (fuel : Nat) (hm : HMap) (i : Nat),
      (bshiftLoop fuel hm i).size = hm.size ∧
      (bshiftLoop fuel hm i).divinfo = hm.divinfo ∧
      (bshiftLoop fuel hm i).minsize = hm.minsize ∧
      (bshiftLoop fuel hm i).nocopy = hm.nocopy ∧
      (bshiftLoop fuel hm i).hashkey = hm.hashkey ∧
      (bshiftLoop fuel hm i).nitems = hm.nitems ∧
      (bshiftLoop fuel hm i).buckets.length = hm.buckets.length
  | 0, hm, i => ⟨rfl, rfl, rfl, rfl, rfl, rfl, rfl⟩
  | fuel + 1, hm, i => by
    simp only [bshiftLoop]
    split
    · exact ⟨rfl, rfl, rfl, rfl, rfl, rfl, List.length_set _ _ _⟩
    · obtain ⟨e1, e2, e3, e4, e5, e6, e7⟩ := bshiftLoop_frame fuel _ _
      refine ⟨e1.trans rfl, e2.trans rfl, e3.trans rfl, e4.trans rfl, e5.trans rfl,
        e6.trans rfl, ?_⟩
      rw [e7, bset_blen, bset_blen]

/-- The delete probe finds the slot of a stored key. -/
theorem delLoop_hit (hashFn : List Nat → Nat → Nat) (hm : HMap) (hinv : Inv hashFn hm)
    (k : List Nat) (hk : 0 < k.length) (D : Nat) (hDlt : D < hm.size)
    (hD : (bget hm ((compute_hash hashFn hm k % hm.size + D) % hm.size)).key = some k)
    (hDpsl : (bget hm ((compute_hash hashFn hm k % hm.size + D) % hm.size)).psl = D) :
    ∀ (dd t fuel : Nat), t + dd = D → dd < fuel →
      delLoop hm (compute_hash hashFn hm k) k fuel t
          ((compute_hash hashFn hm k % hm.size + t) % hm.size) =
        some ((compute_hash hashFn hm k % hm.size + D) % hm.size)
  | 0, t, fuel => by
    intro htd hfuel
    obtain ⟨f, rfl⟩ : ∃ f, fuel = f + 1 := ⟨fuel - 1, by omega⟩
    have hs := hinv.frame.size_pos
    have ht : t = D := by omega
    subst ht
    have hsound := hinv.bsound_some (mod_self_lt _ _ hs) hD
    have hstop : ¬ ((bget hm ((compute_hash hashFn hm k % hm.size + t) % hm.size)).key =
        none ∨ (bget hm ((compute_hash hashFn hm k % hm.size + t) % hm.size)).psl < t) := by
      rintro (h1 | h1)
      · rw [hD] at h1
        exact Option.noConfusion h1
      · rw [hDpsl] at h1
        omega
    simp only [delLoop]
    rw [if_neg hstop,
      if_pos ⟨hsound.1, (match_iff_key (hinv.lens _ (mod_self_lt _ _ hs)) hk).mpr hD⟩]
  | dd + 1, t, fuel => by
    intro htd hfuel
    obtain ⟨f, rfl⟩ : ∃ f, fuel = f + 1 := ⟨fuel - 1, by omega⟩
    have hs := hinv.frame.size_pos
    have hchain := hinv.chain (compute_hash hashFn hm k % hm.size) D hDlt
      (by rw [hD]; exact Option.some_ne_none k) (by rw [hDpsl]) t (by omega)
    have hstop : ¬ ((bget hm ((compute_hash hashFn hm k % hm.size + t) % hm.size)).key =
        none ∨ (bget hm ((compute_hash hashFn hm k % hm.size + t) % hm.size)).psl < t) := by
      rintro (h1 | h1)
      · exact hchain.1 h1
      · have h6 := hchain.2
        omega
    simp only [delLoop]
    rw [if_neg hstop]
    have hmatch : ¬ ((bget hm ((compute_hash hashFn hm k % hm.size + t) % hm.size)).hash =
        compute_hash hashFn hm k ∧
        (bget hm ((compute_hash hashFn hm k % hm.size + t) % hm.size)).len = k.length ∧
        keyEq (bget hm ((compute_hash hashFn hm k % hm.size + t) % hm.size)).key k = true) := by
      rintro ⟨-, h2, h3⟩
      have h4 := (match_iff_key (hinv.lens _ (mod_self_lt _ _ hs)) hk).mp ⟨h2, h3⟩
      have heq := hinv.key_unique (mod_self_lt _ _ hs) (mod_self_lt _ _ hs) h4 hD
      have h5 := probe_inj hm.size (compute_hash hashFn hm k % hm.size)
        (by omega) (by omega) heq
      omega
    rw [if_neg hmatch]
    have hidx : fast_rem32 ((compute_hash hashFn hm k % hm.size + t) % hm.size + 1)
        hm.size hm.divinfo = (compute_hash hashFn hm k % hm.size + (t + 1)) % hm.size := by
      rw [hinv.frame.idx_succ _ (mod_self_lt _ _ hs), mod_step, Nat.add_assoc]
    rw [hidx]
    exact delLoop_hit hashFn hm hinv k hk D hDlt hD hDpsl dd (t + 1) f (by omega) (by omega)

/-- The backward-shift loop: walking the displaced run behind the freed
slot, it drops exactly the freed pair and keeps lengths sound. -/
theorem bshiftLoop_spec (hashFn : List Nat → Nat → Nat) (O : HMap) (hinv : Inv hashFn O)
    (i0 dstop : Nat) (targetM : Multiset (List Nat × Nat))
    (hi0 : i0 < O.size) (hd2 : dstop < O.size)
    (hstopP : (bget O ((i0 + dstop) % O.size)).key = none ∨
      (bget O ((i0 + dstop) % O.size)).psl = 0)
    (hrun : ∀ m, 1 ≤ m → m < dstop →
      (bget O ((i0 + m) % O.size)).key ≠ none ∧ 0 < (bget O ((i0 + m) % O.size)).psl) :
    ∀ (rem s fuel : Nat) (hmCur : HMap),
      s + rem + 1 = dstop →
      rem < fuel →
      hmCur.size = O.size → hmCur.divinfo = O.divinfo →
      hmCur.buckets.length = O.size →
      LensOk hmCur →
      (∀ m, s < m → m ≤ dstop →
        bget hmCur ((i0 + m) % O.size) = bget O ((i0 + m) % O.size)) →
      (bget hmCur ((i0 + s) % O.size)).key ≠ none →
      entriesM hmCur = targetM + {(keyOf (bget hmCur ((i0 + s) % O.size)),
        (bget hmCur ((i0 + s) % O.size)).val)} →
      entriesM (bshiftLoop fuel hmCur ((i0 + s) % O.size)) = targetM ∧
      LensOk (bshiftLoop fuel hmCur ((i0 + s) % O.size))
  | rem, s, fuel, hmCur => by
    intro hsd hfuel hsz hdiv hblen hlens hA hocc hdup
    obtain ⟨f, rfl⟩ : ∃ f, fuel = f + 1 := ⟨fuel - 1, by omega⟩
    have hs := hinv.frame.size_pos
    have hiC : (i0 + s) % O.size < O.size := mod_self_lt _ _ hs
    have hiCl : (i0 + s) % O.size < hmCur.buckets.length := by omega
    have hfin : entriesM (bset hmCur ((i0 + s) % O.size)
        (⟨none, (bget hmCur ((i0 + s) % O.size)).val, (bget hmCur ((i0 + s) % O.size)).hash,
          (bget hmCur ((i0 + s) % O.size)).psl, 0⟩ : Bucket)) +
        ({(keyOf (bget hmCur ((i0 + s) % O.size)), (bget hmCur ((i0 + s) % O.size)).val)} :
          Multiset (List Nat × Nat)) =
        targetM +
        {(keyOf (bget hmCur ((i0 + s) % O.size)), (bget hmCur ((i0 + s) % O.size)).val)} := by
      have hconv := entriesM_bset hmCur ((i0 + s) % O.size)
        (⟨none, (bget hmCur ((i0 + s) % O.size)).val, (bget hmCur ((i0 + s) % O.size)).hash,
          (bget hmCur ((i0 + s) % O.size)).psl, 0⟩ : Bucket) hiCl
      rw [bucketEntry_occ _ hocc, hdup] at hconv
      exact hconv.trans (add_zero _)
    have hentA := add_right_cancel hfin
    have hlensA : LensOk (bset hmCur ((i0 + s) % O.size)
        (⟨none, (bget hmCur ((i0 + s) % O.size)).val, (bget hmCur ((i0 + s) % O.size)).hash,
          (bget hmCur ((i0 + s) % O.size)).psl, 0⟩ : Bucket)) :=
      LensOk_bset hmCur _ _ hlens ⟨fun _ => rfl, fun h => absurd rfl h⟩
    have hidx : fast_rem32 ((i0 + s) % O.size + 1) O.size O.divinfo =
        (i0 + (s + 1)) % O.size := by
      rw [hinv.frame.idx_succ _ hiC, mod_step, Nat.add_assoc]
    have hine : (i0 + s) % O.size ≠ (i0 + (s + 1)) % O.size := by
      intro hcon
      have h9 := probe_inj O.size i0 (by omega) (by omega) hcon
      omega
    have hnext : bget (bset hmCur ((i0 + s) % O.size)
        (⟨none, (bget hmCur ((i0 + s) % O.size)).val, (bget hmCur ((i0 + s) % O.size)).hash,
          (bget hmCur ((i0 + s) % O.size)).psl, 0⟩ : Bucket))
        ((i0 + (s + 1)) % O.size) = bget O ((i0 + (s + 1)) % O.size) := by
      rw [bget_bset_ne hmCur _ _ _ hine]
      exact hA (s + 1) (by omega) (by omega)
    simp only [bshiftLoop]
    rw [bset_size, bset_divinfo, hsz, hdiv, hidx, hnext]
    cases rem with
    | zero =>
      have hsd1 : s + 1 = dstop := by omega
      rw [hsd1, if_pos hstopP]
      exact ⟨hentA, hlensA⟩
    | succ rem2 =>
      obtain ⟨hoccN, hpslN⟩ := hrun (s + 1) (by omega) (by omega)
      have hnostop : ¬ ((bget O ((i0 + (s + 1)) % O.size)).key = none ∨
          (bget O ((i0 + (s + 1)) % O.size)).psl = 0) := by
        rintro (h1 | h1)
        · exact hoccN h1
        · omega
      rw [if_neg hnostop]
      have hentB : entriesM (bset (bset hmCur ((i0 + s) % O.size)
          (⟨none, (bget hmCur ((i0 + s) % O.size)).val,
            (bget hmCur ((i0 + s) % O.size)).hash,
            (bget hmCur ((i0 + s) % O.size)).psl, 0⟩ : Bucket))
          ((i0 + s) % O.size)
          (⟨(bget O ((i0 + (s + 1)) % O.size)).key, (bget O ((i0 + (s + 1)) % O.size)).val,
            (bget O ((i0 + (s + 1)) % O.size)).hash,
            (bget O ((i0 + (s + 1)) % O.size)).psl - 1,
            (bget O ((i0 + (s + 1)) % O.size)).len⟩ : Bucket)) =
          targetM + {(keyOf (bget O ((i0 + (s + 1)) % O.size)),
            (bget O ((i0 + (s + 1)) % O.size)).val)} := by
        have hconv := entriesM_bset (bset hmCur ((i0 + s) % O.size)
          (⟨none, (bget hmCur ((i0 + s) % O.size)).val,
            (bget hmCur ((i0 + s) % O.size)).hash,
            (bget hmCur ((i0 + s) % O.size)).psl, 0⟩ : Bucket))
          ((i0 + s) % O.size)
          (⟨(bget O ((i0 + (s + 1)) % O.size)).key, (bget O ((i0 + (s + 1)) % O.size)).val,
            (bget O ((i0 + (s + 1)) % O.size)).hash,
            (bget O ((i0 + (s + 1)) % O.size)).psl - 1,
            (bget O ((i0 + (s + 1)) % O.size)).len⟩ : Bucket)
          (by rw [bset_blen]; omega)
        rw [bget_bset_self hmCur _ _ hiCl] at hconv
        have hstep : entriesM (bset (bset hmCur ((i0 + s) % O.size)
            (⟨none, (bget hmCur ((i0 + s) % O.size)).val,
              (bget hmCur ((i0 + s) % O.size)).hash,
              (bget hmCur ((i0 + s) % O.size)).psl, 0⟩ : Bucket))
            ((i0 + s) % O.size)
            (⟨(bget O ((i0 + (s + 1)) % O.size)).key,
              (bget O ((i0 + (s + 1)) % O.size)).val,
              (bget O ((i0 + (s + 1)) % O.size)).hash,
              (bget O ((i0 + (s + 1)) % O.size)).psl - 1,
              (bget O ((i0 + (s + 1)) % O.size)).len⟩ : Bucket)) + (0 : Multiset _) =
            entriesM (bset hmCur ((i0 + s) % O.size)
              (⟨none, (bget hmCur ((i0 + s) % O.size)).val,
                (bget hmCur ((i0 + s) % O.size)).hash,
                (bget hmCur ((i0 + s) % O.size)).psl, 0⟩ : Bucket)) +
            ofOpt (bucketEntry (⟨(bget O ((i0 + (s + 1)) % O.size)).key,
              (bget O ((i0 + (s + 1)) % O.size)).val,
              (bget O ((i0 + (s + 1)) % O.size)).hash,
              (bget O ((i0 + (s + 1)) % O.size)).psl - 1,
              (bget O ((i0 + (s + 1)) % O.size)).len⟩ : Bucket)) := hconv
        rw [add_zero, hentA,
          bucketEntry_occ (⟨(bget O ((i0 + (s + 1)) % O.size)).key,
            (bget O ((i0 + (s + 1)) % O.size)).val,
            (bget O ((i0 + (s + 1)) % O.size)).hash,
            (bget O ((i0 + (s + 1)) % O.size)).psl - 1,
            (bget O ((i0 + (s + 1)) % O.size)).len⟩ : Bucket) hoccN] at hstep
        exact hstep
      have hrec := bshiftLoop_spec hashFn O hinv i0 dstop targetM hi0 hd2 hstopP hrun
        rem2 (s + 1) f
        (bset (bset hmCur ((i0 + s) % O.size)
          (⟨none, (bget hmCur ((i0 + s) % O.size)).val,
            (bget hmCur ((i0 + s) % O.size)).hash,
            (bget hmCur ((i0 + s) % O.size)).psl, 0⟩ : Bucket))
          ((i0 + s) % O.size)
          (⟨(bget O ((i0 + (s + 1)) % O.size)).key, (bget O ((i0 + (s + 1)) % O.size)).val,
            (bget O ((i0 + (s + 1)) % O.size)).hash,
            (bget O ((i0 + (s + 1)) % O.size)).psl - 1,
            (bget O ((i0 + (s + 1)) % O.size)).len⟩ : Bucket))
        (by omega) (by omega) (by rw [bset_size, bset_size]; exact hsz)
        (by rw [bset_divinfo, bset_divinfo]; exact hdiv)
        (by rw [bset_blen, bset_blen]; exact hblen)
        (LensOk_bset _ _ _ hlensA ((lenOkB_psl _ _).mpr (hinv.lens _ (mod_self_lt _ _ hs))))
        (fun m hm1 hm2 => by
          have hne2 : (i0 + s) % O.size ≠ (i0 + m) % O.size := by
            intro hcon
            have h9 := probe_inj O.size i0 (by omega) (by omega) hcon
            omega
          rw [bget_bset_ne _ _ _ _ hne2, bget_bset_ne _ _ _ _ hne2]
          exact hA m (by omega) hm2)
        (by
          rw [bget_bset_ne _ _ _ _ hine, bget_bset_ne _ _ _ _ hine,
            hA (s + 1) (by omega) (by omega)]
          exact hoccN)
        (by
          rw [bget_bset_ne _ _ _ _ hine, bget_bset_ne _ _ _ _ hine,
            hA (s + 1) (by omega) (by omega)]
          exact hentB)
      exact hrec

theorem blKeysOk_of_lensOk (hm : HMap) (hblen : hm.buckets.length = hm.size)
    (h : LensOk hm) : blKeysOk hm.buckets := by
  intro b hb bs hbs
  obtain ⟨i, hlt, hget⟩ := List.getElem_of_mem hb
  have hbg : bget hm i = b := by
    rw [bget_eq_getElem hm i hlt, hget]
  have h2 := lenOkB_some (h i (by omega)) (by rw [hbg]; exact hbs)
  exact ⟨h2.2.1, h2.2.2⟩

/-- C3: a successful delete of a stored pair removes exactly it: the del
returns the stored value, a following get misses, and the count drops by
one — with or without the best-effort shrink. -/
theorem claim_C3 (hashFn : List Nat → Nat → Nat) (st : St) (k : List Nat) (v : Nat)
    (hinv : Inv hashFn st.hm) (hallocs : st.allocs = [])
    (hmem : (k, v) ∈ entriesM st.hm) (hk : 0 < k.length)
    (hroom : st.hm.nitems < st.hm.size) :
    ∃ st2, rhashmap_del hashFn st k = (some v, st2) ∧
      rhashmap_get hashFn st2.hm k = none ∧
      st2.hm.nitems + 1 = st.hm.nitems := by
  have hs := hinv.frame.size_pos
  obtain ⟨j, hjlen, hkey, hval⟩ := bget_of_mem_entriesM st.hm k v hmem
  have hj : j < st.hm.size := by
    rw [← hinv.frame.blen]
    exact hjlen
  have hsound := hinv.bsound_some hj hkey
  have hrepr : (compute_hash hashFn st.hm k % st.hm.size + (bget st.hm j).psl)
      % st.hm.size = j := by
    rw [hsound.2.1]
    exact disp_repr _ _ _ hs (le_of_lt (mod_self_lt _ _ hs)) hj
  have hDlt : (bget st.hm j).psl < st.hm.size := by
    rw [hsound.2.1]
    exact mod_self_lt _ _ hs
  have hdel := delLoop_hit hashFn st.hm hinv k hk (bget st.hm j).psl hDlt
    (by rw [hrepr]; exact hkey) (by rw [hrepr]) (bget st.hm j).psl 0 (st.hm.size + 2)
    (by omega) (by omega)
  rw [hrepr] at hdel
  have hhlt : compute_hash hashFn st.hm k < pow32 := Nat.mod_lt _ pow32_pos
  have hstart : fast_rem32 (compute_hash hashFn st.hm k) st.hm.size st.hm.divinfo =
      (compute_hash hashFn st.hm k % st.hm.size + 0) % st.hm.size := by
    rw [hinv.frame.idx _ hhlt, mod_base_eq _ _ (mod_self_lt _ _ hs)]
  have hkeyofj : keyOf (bget st.hm j) = k := by
    rw [keyOf, hkey, Option.getD_some]
  have hdupM : entriesM st.hm = (entriesM st.hm).erase (k, v) + {(k, v)} := by
    conv_lhs => rw [← Multiset.cons_erase hmem]
    rw [← Multiset.singleton_add, add_comm]
  have hpos : 1 ≤ st.hm.nitems := by
    have h1 : 0 < Multiset.card (entriesM st.hm) :=
      Multiset.card_pos_iff_exists_mem.mpr ⟨(k, v), hmem⟩
    rw [← entriesL_length_eq_card, ← hinv.items] at h1
    omega
  obtain ⟨n0, hn0lt, hn0⟩ := exists_empty_slot st.hm hinv.frame.blen hs
    (by rw [← hinv.items]; exact hroom) j
  have hn0ne : n0 ≠ 0 := by
    intro h0
    rw [h0, mod_base_eq _ _ hj, hkey] at hn0
    exact Option.noConfusion hn0
  have hex : ∃ m, 1 ≤ m ∧ ((bget st.hm ((j + m) % st.hm.size)).key = none ∨
      (bget st.hm ((j + m) % st.hm.size)).psl = 0) := ⟨n0, by omega, Or.inl hn0⟩
  have hd1 : 1 ≤ Nat.find hex := (Nat.find_spec hex).1
  have hstopP := (Nat.find_spec hex).2
  have hdstoplt : Nat.find hex < st.hm.size :=
    lt_of_le_of_lt (Nat.find_min' hex ⟨by omega, Or.inl hn0⟩) hn0lt
  have hrun : ∀ m, 1 ≤ m → m < Nat.find hex →
      (bget st.hm ((j + m) % st.hm.size)).key ≠ none ∧
      0 < (bget st.hm ((j + m) % st.hm.size)).psl := by
    intro m hm1 hm2
    have h3 := Nat.find_min hex hm2
    push_neg at h3
    have h4 := h3 hm1
    push_neg at h4
    exact ⟨h4.1, Nat.pos_of_ne_zero h4.2⟩
  have hfuelb : Nat.find hex - 1 ≤ pslSum st.hm := by
    have hS := pslSum_lower st.hm hinv.frame.blen
      ((List.range (Nat.find hex - 1)).map fun m => (j + (m + 1)) % st.hm.size) ?_ ?_
    · rw [List.length_map, List.length_range] at hS
      exact hS
    · refine (List.nodup_range _).map_on ?_
      intro n1 h1 n2 h2 he
      rw [List.mem_range] at h1 h2
      have h9 := probe_inj st.hm.size j (by omega) (by omega) he
      omega
    · intro i hi
      rw [List.mem_map] at hi
      obtain ⟨m, hm1, rfl⟩ := hi
      rw [List.mem_range] at hm1
      obtain ⟨ho, hp⟩ := hrun (m + 1) (by omega) (by omega)
      exact ⟨mod_self_lt _ _ hs, ho, hp⟩
  have hshift := bshiftLoop_spec hashFn st.hm hinv j (Nat.find hex)
    ((entriesM st.hm).erase (k, v)) hj hdstoplt hstopP hrun
    (Nat.find hex - 1) 0 (pslSum (⟨st.hm.size, st.hm.nitems - 1, st.hm.nocopy, st.hm.minsize, st.hm.divinfo, st.hm.buckets, st.hm.hashkey⟩ : HMap) + 2) (⟨st.hm.size, st.hm.nitems - 1, st.hm.nocopy, st.hm.minsize, st.hm.divinfo, st.hm.buckets, st.hm.hashkey⟩ : HMap)
    (by omega) (by show Nat.find hex - 1 < pslSum st.hm + 2; omega) rfl rfl
    hinv.frame.blen hinv.lens (fun m _ _ => rfl)
    (by
      rw [mod_base_eq _ _ hj]
      show (bget st.hm j).key ≠ none
      rw [hkey]
      exact Option.some_ne_none k)
    (by
      rw [mod_base_eq _ _ hj]
      show entriesM st.hm = (entriesM st.hm).erase (k, v) +
        {(keyOf (bget st.hm j), (bget st.hm j).val)}
      rw [hkeyofj, hval]
      exact hdupM)
  rw [mod_base_eq _ _ hj] at hshift
  obtain ⟨e1, e2, e3, e4, e5, e6, e7⟩ := bshiftLoop_frame (pslSum (⟨st.hm.size, st.hm.nitems - 1, st.hm.nocopy, st.hm.minsize, st.hm.divinfo, st.hm.buckets, st.hm.hashkey⟩ : HMap) + 2) (⟨st.hm.size, st.hm.nitems - 1, st.hm.nocopy, st.hm.minsize, st.hm.divinfo, st.hm.buckets, st.hm.hashkey⟩ : HMap) j
  have hfr2 : Frame (bshiftLoop (pslSum (⟨st.hm.size, st.hm.nitems - 1, st.hm.nocopy, st.hm.minsize, st.hm.divinfo, st.hm.buckets, st.hm.hashkey⟩ : HMap) + 2) (⟨st.hm.size, st.hm.nitems - 1, st.hm.nocopy, st.hm.minsize, st.hm.divinfo, st.hm.buckets, st.hm.hashkey⟩ : HMap) j) := by
    refine ⟨?_, ?_, ?_, ?_⟩
    · rw [e1]
      exact hinv.frame.size_pos
    · rw [e1]
      exact hinv.frame.size_lt
    · rw [e7, e1]
      exact hinv.frame.blen
    · rw [e2, e1]
      exact hinv.frame.dinfo
  have hkeysHM2 : keysM (bshiftLoop (pslSum (⟨st.hm.size, st.hm.nitems - 1, st.hm.nocopy, st.hm.minsize, st.hm.divinfo, st.hm.buckets, st.hm.hashkey⟩ : HMap) + 2) (⟨st.hm.size, st.hm.nitems - 1, st.hm.nocopy, st.hm.minsize, st.hm.divinfo, st.hm.buckets, st.hm.hashkey⟩ : HMap) j) = ((entriesM st.hm).erase (k, v)).map Prod.fst := by
    rw [keysM, hshift.1]
  have hkeysSt : keysM st.hm = ((entriesM st.hm).erase (k, v)).map Prod.fst + {k} := by
    rw [keysM]
    conv_lhs => rw [hdupM]
    rw [Multiset.map_add, Multiset.map_singleton]
  have hknotin : k ∉ ((entriesM st.hm).erase (k, v)).map Prod.fst := by
    have hnd := keysM_nodup_of_list hinv.nodupKeys
    rw [hkeysSt] at hnd
    obtain ⟨-, -, hdisj⟩ := Multiset.nodup_add.mp hnd
    intro hmm2
    exact (Multiset.disjoint_left.mp hdisj) hmm2 (Multiset.mem_singleton_self k)
  have hcard1 : Multiset.card (entriesM (bshiftLoop (pslSum (⟨st.hm.size, st.hm.nitems - 1, st.hm.nocopy, st.hm.minsize, st.hm.divinfo, st.hm.buckets, st.hm.hashkey⟩ : HMap) + 2) (⟨st.hm.size, st.hm.nitems - 1, st.hm.nocopy, st.hm.minsize, st.hm.divinfo, st.hm.buckets, st.hm.hashkey⟩ : HMap) j)) = st.hm.nitems - 1 := by
    rw [hshift.1, Multiset.card_erase_of_mem hmem, ← entriesL_length_eq_card, ← hinv.items]
    rfl
  have hoccv : occCount ((bshiftLoop (pslSum (⟨st.hm.size, st.hm.nitems - 1, st.hm.nocopy, st.hm.minsize, st.hm.divinfo, st.hm.buckets, st.hm.hashkey⟩ : HMap) + 2) (⟨st.hm.size, st.hm.nitems - 1, st.hm.nocopy, st.hm.minsize, st.hm.divinfo, st.hm.buckets, st.hm.hashkey⟩ : HMap) j)).buckets = st.hm.nitems - 1 := by
    rw [occCount_eq]
    rw [show ((((bshiftLoop (pslSum (⟨st.hm.size, st.hm.nitems - 1, st.hm.nocopy, st.hm.minsize, st.hm.divinfo, st.hm.buckets, st.hm.hashkey⟩ : HMap) + 2) (⟨st.hm.size, st.hm.nitems - 1, st.hm.nocopy, st.hm.minsize, st.hm.divinfo, st.hm.buckets, st.hm.hashkey⟩ : HMap) j)).buckets.filterMap bucketEntry)).length =
      Multiset.card (entriesM (bshiftLoop (pslSum (⟨st.hm.size, st.hm.nitems - 1, st.hm.nocopy, st.hm.minsize, st.hm.divinfo, st.hm.buckets, st.hm.hashkey⟩ : HMap) + 2) (⟨st.hm.size, st.hm.nitems - 1, st.hm.nocopy, st.hm.minsize, st.hm.divinfo, st.hm.buckets, st.hm.hashkey⟩ : HMap) j)) from entriesL_length_eq_card (bshiftLoop (pslSum (⟨st.hm.size, st.hm.nitems - 1, st.hm.nocopy, st.hm.minsize, st.hm.divinfo, st.hm.buckets, st.hm.hashkey⟩ : HMap) + 2) (⟨st.hm.size, st.hm.nitems - 1, st.hm.nocopy, st.hm.minsize, st.hm.divinfo, st.hm.buckets, st.hm.hashkey⟩ : HMap) j)]
    exact hcard1
  by_cases hshr : st.hm.minsize < st.hm.nitems - 1 ∧ st.hm.nitems - 1 < approx40 st.hm.size
  · -- shrink path
    have hcond : ((⟨(bshiftLoop (pslSum (⟨st.hm.size, st.hm.nitems - 1, st.hm.nocopy, st.hm.minsize, st.hm.divinfo, st.hm.buckets, st.hm.hashkey⟩ : HMap) + 2) (⟨st.hm.size, st.hm.nitems - 1, st.hm.nocopy, st.hm.minsize, st.hm.divinfo, st.hm.buckets, st.hm.hashkey⟩ : HMap) j), st.allocs, st.rands⟩ : St)).hm.minsize < ((⟨(bshiftLoop (pslSum (⟨st.hm.size, st.hm.nitems - 1, st.hm.nocopy, st.hm.minsize, st.hm.divinfo, st.hm.buckets, st.hm.hashkey⟩ : HMap) + 2) (⟨st.hm.size, st.hm.nitems - 1, st.hm.nocopy, st.hm.minsize, st.hm.divinfo, st.hm.buckets, st.hm.hashkey⟩ : HMap) j), st.allocs, st.rands⟩ : St)).hm.nitems ∧
        ((⟨(bshiftLoop (pslSum (⟨st.hm.size, st.hm.nitems - 1, st.hm.nocopy, st.hm.minsize, st.hm.divinfo, st.hm.buckets, st.hm.hashkey⟩ : HMap) + 2) (⟨st.hm.size, st.hm.nitems - 1, st.hm.nocopy, st.hm.minsize, st.hm.divinfo, st.hm.buckets, st.hm.hashkey⟩ : HMap) j), st.allocs, st.rands⟩ : St)).hm.nitems < approx40 st.hm.size := by
      show ((bshiftLoop (pslSum (⟨st.hm.size, st.hm.nitems - 1, st.hm.nocopy, st.hm.minsize, st.hm.divinfo, st.hm.buckets, st.hm.hashkey⟩ : HMap) + 2) (⟨st.hm.size, st.hm.nitems - 1, st.hm.nocopy, st.hm.minsize, st.hm.divinfo, st.hm.buckets, st.hm.hashkey⟩ : HMap) j)).minsize < ((bshiftLoop (pslSum (⟨st.hm.size, st.hm.nitems - 1, st.hm.nocopy, st.hm.minsize, st.hm.divinfo, st.hm.buckets, st.hm.hashkey⟩ : HMap) + 2) (⟨st.hm.size, st.hm.nitems - 1, st.hm.nocopy, st.hm.minsize, st.hm.divinfo, st.hm.buckets, st.hm.hashkey⟩ : HMap) j)).nitems ∧ ((bshiftLoop (pslSum (⟨st.hm.size, st.hm.nitems - 1, st.hm.nocopy, st.hm.minsize, st.hm.divinfo, st.hm.buckets, st.hm.hashkey⟩ : HMap) + 2) (⟨st.hm.size, st.hm.nitems - 1, st.hm.nocopy, st.hm.minsize, st.hm.divinfo, st.hm.buckets, st.hm.hashkey⟩ : HMap) j)).nitems < approx40 st.hm.size
      rw [e3, e6]
      exact hshr
    have harith : st.hm.nitems - 1 ≤ st.hm.size / 2 := by
      have h2 := Nat.div_add_mod (st.hm.size * 409) 1024
      have h3 := Nat.mod_lt (st.hm.size * 409) (show 0 < 1024 by norm_num)
      have h4 := Nat.div_add_mod st.hm.size 2
      have h5 := Nat.mod_lt st.hm.size (show 0 < 2 by norm_num)
      have h6 : st.hm.nitems - 1 < approx40 st.hm.size := hshr.2
      rw [approx40] at h6
      have h6b : st.hm.nitems - 1 < st.hm.size * 409 / 1024 :=
        lt_of_lt_of_le h6 (Nat.div_le_div_right (Nat.mod_le _ _))
      omega
    have hnd3 : (keysM (bshiftLoop (pslSum (⟨st.hm.size, st.hm.nitems - 1, st.hm.nocopy, st.hm.minsize, st.hm.divinfo, st.hm.buckets, st.hm.hashkey⟩ : HMap) + 2) (⟨st.hm.size, st.hm.nitems - 1, st.hm.nocopy, st.hm.minsize, st.hm.divinfo, st.hm.buckets, st.hm.hashkey⟩ : HMap) j)).Nodup := by
      rw [hkeysHM2]
      exact Multiset.nodup_of_le (Multiset.map_le_map (Multiset.erase_le _ _))
        (keysM_nodup_of_list hinv.nodupKeys)
    obtain ⟨hm3, hreseq, r1, r2, r3, r4, r5, r6, r7, r8, r9⟩ :=
      resize_weak hashFn (⟨(bshiftLoop (pslSum (⟨st.hm.size, st.hm.nitems - 1, st.hm.nocopy, st.hm.minsize, st.hm.divinfo, st.hm.buckets, st.hm.hashkey⟩ : HMap) + 2) (⟨st.hm.size, st.hm.nitems - 1, st.hm.nocopy, st.hm.minsize, st.hm.divinfo, st.hm.buckets, st.hm.hashkey⟩ : HMap) j), st.allocs, st.rands⟩ : St) (max (((⟨(bshiftLoop (pslSum (⟨st.hm.size, st.hm.nitems - 1, st.hm.nocopy, st.hm.minsize, st.hm.divinfo, st.hm.buckets, st.hm.hashkey⟩ : HMap) + 2) (⟨st.hm.size, st.hm.nitems - 1, st.hm.nocopy, st.hm.minsize, st.hm.divinfo, st.hm.buckets, st.hm.hashkey⟩ : HMap) j), st.allocs, st.rands⟩ : St)).hm.size / 2) ((⟨(bshiftLoop (pslSum (⟨st.hm.size, st.hm.nitems - 1, st.hm.nocopy, st.hm.minsize, st.hm.divinfo, st.hm.buckets, st.hm.hashkey⟩ : HMap) + 2) (⟨st.hm.size, st.hm.nitems - 1, st.hm.nocopy, st.hm.minsize, st.hm.divinfo, st.hm.buckets, st.hm.hashkey⟩ : HMap) j), st.allocs, st.rands⟩ : St)).hm.minsize) []
        (by
          show 0 < max (((bshiftLoop (pslSum (⟨st.hm.size, st.hm.nitems - 1, st.hm.nocopy, st.hm.minsize, st.hm.divinfo, st.hm.buckets, st.hm.hashkey⟩ : HMap) + 2) (⟨st.hm.size, st.hm.nitems - 1, st.hm.nocopy, st.hm.minsize, st.hm.divinfo, st.hm.buckets, st.hm.hashkey⟩ : HMap) j)).size / 2) (((bshiftLoop (pslSum (⟨st.hm.size, st.hm.nitems - 1, st.hm.nocopy, st.hm.minsize, st.hm.divinfo, st.hm.buckets, st.hm.hashkey⟩ : HMap) + 2) (⟨st.hm.size, st.hm.nitems - 1, st.hm.nocopy, st.hm.minsize, st.hm.divinfo, st.hm.buckets, st.hm.hashkey⟩ : HMap) j)).minsize)
          rw [e1, e3]
          show 0 < max (st.hm.size / 2) st.hm.minsize
          have := hinv.min_pos
          omega)
        (by
          show max (((bshiftLoop (pslSum (⟨st.hm.size, st.hm.nitems - 1, st.hm.nocopy, st.hm.minsize, st.hm.divinfo, st.hm.buckets, st.hm.hashkey⟩ : HMap) + 2) (⟨st.hm.size, st.hm.nitems - 1, st.hm.nocopy, st.hm.minsize, st.hm.divinfo, st.hm.buckets, st.hm.hashkey⟩ : HMap) j)).size / 2) (((bshiftLoop (pslSum (⟨st.hm.size, st.hm.nitems - 1, st.hm.nocopy, st.hm.minsize, st.hm.divinfo, st.hm.buckets, st.hm.hashkey⟩ : HMap) + 2) (⟨st.hm.size, st.hm.nitems - 1, st.hm.nocopy, st.hm.minsize, st.hm.divinfo, st.hm.buckets, st.hm.hashkey⟩ : HMap) j)).minsize) ≤ 4294967295
          rw [e1, e3]
          show max (st.hm.size / 2) st.hm.minsize ≤ 4294967295
          have h1 := hinv.frame.size_lt
          have h2 := hinv.min_le
          have h32 : pow32 = 4294967296 := rfl
          omega)
        (by
          show blKeysOk ((bshiftLoop (pslSum (⟨st.hm.size, st.hm.nitems - 1, st.hm.nocopy, st.hm.minsize, st.hm.divinfo, st.hm.buckets, st.hm.hashkey⟩ : HMap) + 2) (⟨st.hm.size, st.hm.nitems - 1, st.hm.nocopy, st.hm.minsize, st.hm.divinfo, st.hm.buckets, st.hm.hashkey⟩ : HMap) j)).buckets
          refine blKeysOk_of_lensOk (bshiftLoop (pslSum (⟨st.hm.size, st.hm.nitems - 1, st.hm.nocopy, st.hm.minsize, st.hm.divinfo, st.hm.buckets, st.hm.hashkey⟩ : HMap) + 2) (⟨st.hm.size, st.hm.nitems - 1, st.hm.nocopy, st.hm.minsize, st.hm.divinfo, st.hm.buckets, st.hm.hashkey⟩ : HMap) j) ?_ hshift.2
          rw [e7, e1]
          exact hinv.frame.blen)
        (by
          show (keysOfL ((bshiftLoop (pslSum (⟨st.hm.size, st.hm.nitems - 1, st.hm.nocopy, st.hm.minsize, st.hm.divinfo, st.hm.buckets, st.hm.hashkey⟩ : HMap) + 2) (⟨st.hm.size, st.hm.nitems - 1, st.hm.nocopy, st.hm.minsize, st.hm.divinfo, st.hm.buckets, st.hm.hashkey⟩ : HMap) j)).buckets).Nodup
          exact nodupKeys_of_keysM hnd3)
        (by
          show occCount ((bshiftLoop (pslSum (⟨st.hm.size, st.hm.nitems - 1, st.hm.nocopy, st.hm.minsize, st.hm.divinfo, st.hm.buckets, st.hm.hashkey⟩ : HMap) + 2) (⟨st.hm.size, st.hm.nitems - 1, st.hm.nocopy, st.hm.minsize, st.hm.divinfo, st.hm.buckets, st.hm.hashkey⟩ : HMap) j)).buckets ≤ max (((bshiftLoop (pslSum (⟨st.hm.size, st.hm.nitems - 1, st.hm.nocopy, st.hm.minsize, st.hm.divinfo, st.hm.buckets, st.hm.hashkey⟩ : HMap) + 2) (⟨st.hm.size, st.hm.nitems - 1, st.hm.nocopy, st.hm.minsize, st.hm.divinfo, st.hm.buckets, st.hm.hashkey⟩ : HMap) j)).size / 2) (((bshiftLoop (pslSum (⟨st.hm.size, st.hm.nitems - 1, st.hm.nocopy, st.hm.minsize, st.hm.divinfo, st.hm.buckets, st.hm.hashkey⟩ : HMap) + 2) (⟨st.hm.size, st.hm.nitems - 1, st.hm.nocopy, st.hm.minsize, st.hm.divinfo, st.hm.buckets, st.hm.hashkey⟩ : HMap) j)).minsize)
          rw [hoccv, e1, e3]
          show st.hm.nitems - 1 ≤ max (st.hm.size / 2) st.hm.minsize
          omega)
        (by
          show FeedsTrue _ st.allocs []
          rw [hallocs]
          exact feedsTrue_nil _)
    refine ⟨⟨hm3, [], (takeRand (takeRand st.rands).2).2⟩, ?_, ?_, ?_⟩
    · simp only [rhashmap_del]
      rw [hstart, hdel]
      show (if ((⟨(bshiftLoop (pslSum (⟨st.hm.size, st.hm.nitems - 1, st.hm.nocopy, st.hm.minsize, st.hm.divinfo, st.hm.buckets, st.hm.hashkey⟩ : HMap) + 2) (⟨st.hm.size, st.hm.nitems - 1, st.hm.nocopy, st.hm.minsize, st.hm.divinfo, st.hm.buckets, st.hm.hashkey⟩ : HMap) j), st.allocs, st.rands⟩ : St)).hm.minsize < ((⟨(bshiftLoop (pslSum (⟨st.hm.size, st.hm.nitems - 1, st.hm.nocopy, st.hm.minsize, st.hm.divinfo, st.hm.buckets, st.hm.hashkey⟩ : HMap) + 2) (⟨st.hm.size, st.hm.nitems - 1, st.hm.nocopy, st.hm.minsize, st.hm.divinfo, st.hm.buckets, st.hm.hashkey⟩ : HMap) j), st.allocs, st.rands⟩ : St)).hm.nitems ∧
            ((⟨(bshiftLoop (pslSum (⟨st.hm.size, st.hm.nitems - 1, st.hm.nocopy, st.hm.minsize, st.hm.divinfo, st.hm.buckets, st.hm.hashkey⟩ : HMap) + 2) (⟨st.hm.size, st.hm.nitems - 1, st.hm.nocopy, st.hm.minsize, st.hm.divinfo, st.hm.buckets, st.hm.hashkey⟩ : HMap) j), st.allocs, st.rands⟩ : St)).hm.nitems < approx40 st.hm.size
          then (some (bget st.hm j).val, (rhashmap_resize hashFn (⟨(bshiftLoop (pslSum (⟨st.hm.size, st.hm.nitems - 1, st.hm.nocopy, st.hm.minsize, st.hm.divinfo, st.hm.buckets, st.hm.hashkey⟩ : HMap) + 2) (⟨st.hm.size, st.hm.nitems - 1, st.hm.nocopy, st.hm.minsize, st.hm.divinfo, st.hm.buckets, st.hm.hashkey⟩ : HMap) j), st.allocs, st.rands⟩ : St)
            (max (((⟨(bshiftLoop (pslSum (⟨st.hm.size, st.hm.nitems - 1, st.hm.nocopy, st.hm.minsize, st.hm.divinfo, st.hm.buckets, st.hm.hashkey⟩ : HMap) + 2) (⟨st.hm.size, st.hm.nitems - 1, st.hm.nocopy, st.hm.minsize, st.hm.divinfo, st.hm.buckets, st.hm.hashkey⟩ : HMap) j), st.allocs, st.rands⟩ : St)).hm.size / 2) ((⟨(bshiftLoop (pslSum (⟨st.hm.size, st.hm.nitems - 1, st.hm.nocopy, st.hm.minsize, st.hm.divinfo, st.hm.buckets, st.hm.hashkey⟩ : HMap) + 2) (⟨st.hm.size, st.hm.nitems - 1, st.hm.nocopy, st.hm.minsize, st.hm.divinfo, st.hm.buckets, st.hm.hashkey⟩ : HMap) j), st.allocs, st.rands⟩ : St)).hm.minsize)).2)
          else (some (bget st.hm j).val, (⟨(bshiftLoop (pslSum (⟨st.hm.size, st.hm.nitems - 1, st.hm.nocopy, st.hm.minsize, st.hm.divinfo, st.hm.buckets, st.hm.hashkey⟩ : HMap) + 2) (⟨st.hm.size, st.hm.nitems - 1, st.hm.nocopy, st.hm.minsize, st.hm.divinfo, st.hm.buckets, st.hm.hashkey⟩ : HMap) j), st.allocs, st.rands⟩ : St))) = _
      rw [if_pos hcond, hreseq, hval]
    · have habs3 : k ∉ keysM hm3 := by
        rw [keysM, r7]
        rw [show entriesOf (((⟨(bshiftLoop (pslSum (⟨st.hm.size, st.hm.nitems - 1, st.hm.nocopy, st.hm.minsize, st.hm.divinfo, st.hm.buckets, st.hm.hashkey⟩ : HMap) + 2) (⟨st.hm.size, st.hm.nitems - 1, st.hm.nocopy, st.hm.minsize, st.hm.divinfo, st.hm.buckets, st.hm.hashkey⟩ : HMap) j), st.allocs, st.rands⟩ : St)).hm.buckets) = (entriesM st.hm).erase (k, v)
          from hshift.1]
        exact hknotin
      exact rhashmap_get_none hashFn hm3 r9 r8 k hk habs3
    · show hm3.nitems + 1 = st.hm.nitems
      rw [r6]
      rw [show occCount (((⟨(bshiftLoop (pslSum (⟨st.hm.size, st.hm.nitems - 1, st.hm.nocopy, st.hm.minsize, st.hm.divinfo, st.hm.buckets, st.hm.hashkey⟩ : HMap) + 2) (⟨st.hm.size, st.hm.nitems - 1, st.hm.nocopy, st.hm.minsize, st.hm.divinfo, st.hm.buckets, st.hm.hashkey⟩ : HMap) j), st.allocs, st.rands⟩ : St)).hm.buckets) = st.hm.nitems - 1 from hoccv]
      omega
  · -- no shrink
    have hcond : ¬ (((⟨(bshiftLoop (pslSum (⟨st.hm.size, st.hm.nitems - 1, st.hm.nocopy, st.hm.minsize, st.hm.divinfo, st.hm.buckets, st.hm.hashkey⟩ : HMap) + 2) (⟨st.hm.size, st.hm.nitems - 1, st.hm.nocopy, st.hm.minsize, st.hm.divinfo, st.hm.buckets, st.hm.hashkey⟩ : HMap) j), st.allocs, st.rands⟩ : St)).hm.minsize < ((⟨(bshiftLoop (pslSum (⟨st.hm.size, st.hm.nitems - 1, st.hm.nocopy, st.hm.minsize, st.hm.divinfo, st.hm.buckets, st.hm.hashkey⟩ : HMap) + 2) (⟨st.hm.size, st.hm.nitems - 1, st.hm.nocopy, st.hm.minsize, st.hm.divinfo, st.hm.buckets, st.hm.hashkey⟩ : HMap) j), st.allocs, st.rands⟩ : St)).hm.nitems ∧
        ((⟨(bshiftLoop (pslSum (⟨st.hm.size, st.hm.nitems - 1, st.hm.nocopy, st.hm.minsize, st.hm.divinfo, st.hm.buckets, st.hm.hashkey⟩ : HMap) + 2) (⟨st.hm.size, st.hm.nitems - 1, st.hm.nocopy, st.hm.minsize, st.hm.divinfo, st.hm.buckets, st.hm.hashkey⟩ : HMap) j), st.allocs, st.rands⟩ : St)).hm.nitems < approx40 st.hm.size) := by
      intro hc
      refine hshr ?_
      have hc2 : ((bshiftLoop (pslSum (⟨st.hm.size, st.hm.nitems - 1, st.hm.nocopy, st.hm.minsize, st.hm.divinfo, st.hm.buckets, st.hm.hashkey⟩ : HMap) + 2) (⟨st.hm.size, st.hm.nitems - 1, st.hm.nocopy, st.hm.minsize, st.hm.divinfo, st.hm.buckets, st.hm.hashkey⟩ : HMap) j)).minsize < ((bshiftLoop (pslSum (⟨st.hm.size, st.hm.nitems - 1, st.hm.nocopy, st.hm.minsize, st.hm.divinfo, st.hm.buckets, st.hm.hashkey⟩ : HMap) + 2) (⟨st.hm.size, st.hm.nitems - 1, st.hm.nocopy, st.hm.minsize, st.hm.divinfo, st.hm.buckets, st.hm.hashkey⟩ : HMap) j)).nitems ∧ ((bshiftLoop (pslSum (⟨st.hm.size, st.hm.nitems - 1, st.hm.nocopy, st.hm.minsize, st.hm.divinfo, st.hm.buckets, st.hm.hashkey⟩ : HMap) + 2) (⟨st.hm.size, st.hm.nitems - 1, st.hm.nocopy, st.hm.minsize, st.hm.divinfo, st.hm.buckets, st.hm.hashkey⟩ : HMap) j)).nitems < approx40 st.hm.size := hc
      rw [e3, e6] at hc2
      exact hc2
    refine ⟨(⟨(bshiftLoop (pslSum (⟨st.hm.size, st.hm.nitems - 1, st.hm.nocopy, st.hm.minsize, st.hm.divinfo, st.hm.buckets, st.hm.hashkey⟩ : HMap) + 2) (⟨st.hm.size, st.hm.nitems - 1, st.hm.nocopy, st.hm.minsize, st.hm.divinfo, st.hm.buckets, st.hm.hashkey⟩ : HMap) j), st.allocs, st.rands⟩ : St), ?_, ?_, ?_⟩
    · simp only [rhashmap_del]
      rw [hstart, hdel]
      show (if ((⟨(bshiftLoop (pslSum (⟨st.hm.size, st.hm.nitems - 1, st.hm.nocopy, st.hm.minsize, st.hm.divinfo, st.hm.buckets, st.hm.hashkey⟩ : HMap) + 2) (⟨st.hm.size, st.hm.nitems - 1, st.hm.nocopy, st.hm.minsize, st.hm.divinfo, st.hm.buckets, st.hm.hashkey⟩ : HMap) j), st.allocs, st.rands⟩ : St)).hm.minsize < ((⟨(bshiftLoop (pslSum (⟨st.hm.size, st.hm.nitems - 1, st.hm.nocopy, st.hm.minsize, st.hm.divinfo, st.hm.buckets, st.hm.hashkey⟩ : HMap) + 2) (⟨st.hm.size, st.hm.nitems - 1, st.hm.nocopy, st.hm.minsize, st.hm.divinfo, st.hm.buckets, st.hm.hashkey⟩ : HMap) j), st.allocs, st.rands⟩ : St)).hm.nitems ∧
            ((⟨(bshiftLoop (pslSum (⟨st.hm.size, st.hm.nitems - 1, st.hm.nocopy, st.hm.minsize, st.hm.divinfo, st.hm.buckets, st.hm.hashkey⟩ : HMap) + 2) (⟨st.hm.size, st.hm.nitems - 1, st.hm.nocopy, st.hm.minsize, st.hm.divinfo, st.hm.buckets, st.hm.hashkey⟩ : HMap) j), st.allocs, st.rands⟩ : St)).hm.nitems < approx40 st.hm.size
          then (some (bget st.hm j).val, (rhashmap_resize hashFn (⟨(bshiftLoop (pslSum (⟨st.hm.size, st.hm.nitems - 1, st.hm.nocopy, st.hm.minsize, st.hm.divinfo, st.hm.buckets, st.hm.hashkey⟩ : HMap) + 2) (⟨st.hm.size, st.hm.nitems - 1, st.hm.nocopy, st.hm.minsize, st.hm.divinfo, st.hm.buckets, st.hm.hashkey⟩ : HMap) j), st.allocs, st.rands⟩ : St)
            (max (((⟨(bshiftLoop (pslSum (⟨st.hm.size, st.hm.nitems - 1, st.hm.nocopy, st.hm.minsize, st.hm.divinfo, st.hm.buckets, st.hm.hashkey⟩ : HMap) + 2) (⟨st.hm.size, st.hm.nitems - 1, st.hm.nocopy, st.hm.minsize, st.hm.divinfo, st.hm.buckets, st.hm.hashkey⟩ : HMap) j), st.allocs, st.rands⟩ : St)).hm.size / 2) ((⟨(bshiftLoop (pslSum (⟨st.hm.size, st.hm.nitems - 1, st.hm.nocopy, st.hm.minsize, st.hm.divinfo, st.hm.buckets, st.hm.hashkey⟩ : HMap) + 2) (⟨st.hm.size, st.hm.nitems - 1, st.hm.nocopy, st.hm.minsize, st.hm.divinfo, st.hm.buckets, st.hm.hashkey⟩ : HMap) j), st.allocs, st.rands⟩ : St)).hm.minsize)).2)
          else (some (bget st.hm j).val, (⟨(bshiftLoop (pslSum (⟨st.hm.size, st.hm.nitems - 1, st.hm.nocopy, st.hm.minsize, st.hm.divinfo, st.hm.buckets, st.hm.hashkey⟩ : HMap) + 2) (⟨st.hm.size, st.hm.nitems - 1, st.hm.nocopy, st.hm.minsize, st.hm.divinfo, st.hm.buckets, st.hm.hashkey⟩ : HMap) j), st.allocs, st.rands⟩ : St))) = _
      rw [if_neg hcond, hval]
    · have habs2 : k ∉ keysM (bshiftLoop (pslSum (⟨st.hm.size, st.hm.nitems - 1, st.hm.nocopy, st.hm.minsize, st.hm.divinfo, st.hm.buckets, st.hm.hashkey⟩ : HMap) + 2) (⟨st.hm.size, st.hm.nitems - 1, st.hm.nocopy, st.hm.minsize, st.hm.divinfo, st.hm.buckets, st.hm.hashkey⟩ : HMap) j) := by
        rw [hkeysHM2]
        exact hknotin
      exact rhashmap_get_none hashFn (bshiftLoop (pslSum (⟨st.hm.size, st.hm.nitems - 1, st.hm.nocopy, st.hm.minsize, st.hm.divinfo, st.hm.buckets, st.hm.hashkey⟩ : HMap) + 2) (⟨st.hm.size, st.hm.nitems - 1, st.hm.nocopy, st.hm.minsize, st.hm.divinfo, st.hm.buckets, st.hm.hashkey⟩ : HMap) j) hfr2 hshift.2 k hk habs2
    · show ((bshiftLoop (pslSum (⟨st.hm.size, st.hm.nitems - 1, st.hm.nocopy, st.hm.minsize, st.hm.divinfo, st.hm.buckets, st.hm.hashkey⟩ : HMap) + 2) (⟨st.hm.size, st.hm.nitems - 1, st.hm.nocopy, st.hm.minsize, st.hm.divinfo, st.hm.buckets, st.hm.hashkey⟩ : HMap) j)).nitems + 1 = st.hm.nitems
      rw [e6]
      show st.hm.nitems - 1 + 1 = st.hm.nitems
      omega

theorem claim_C3_witness :
    ∃ st2, rhashmap_del hzero ⟨wit1, [], []⟩ [7] = (some 5, st2) ∧
      rhashmap_get hzero st2.hm [7] = none ∧
      st2.hm.nitems + 1 = wit1.nitems :=
  claim_C3 hzero ⟨wit1, [], []⟩ [7] 5 wit1_inv rfl (by decide) (by decide) (by decide)

/-! ### The 16-bit PSL wrap (claims C1 and C2)

With the constant hash function every key probes from slot 0, so the
`n`-th inserted key comes to rest in slot `n` with a true displacement of
`n` — but the stored 16-bit `psl` field holds `n % 2^16`.  Past 65535
colliding entries the stored PSL wraps and both the PSL invariant and the
lookup stop rule break. -/

theorem bset_buckets (hm : HMap) (i : Nat) (b : Bucket) :
    (bset hm i b).buckets = hm.buckets.set i b := rfl

/-- A 3-byte key encoding `j` (little-endian), injective below `2^24`. -/
def ckey (j : Nat) : List Nat := [j % 256, j / 256 % 256, j / 65536 % 256]

/-- The bucket holding the `i`-th colliding key: hash 0, true displacement
`i`, stored PSL `i % 2^16`. -/
def c2_bucket (i : Nat) : Bucket := ⟨some (ckey i), i, 0, i % pow16, 3⟩

/-- The bucket array after the first `n` colliding keys: slot `i < n` holds
the `i`-th key, the rest are empty. -/
def c2_buckets (n : Nat) : List Bucket :=
  (List.range 100000).map fun j => if j < n then c2_bucket j else emptyBucket

/-- The capacity-100000 `RHM_NOCOPY` table after the first `n` colliding
keys have been inserted. -/
def c2_hm (n : Nat) : HMap :=
  ⟨100000, n, true, 100000, fast_div32_init 100000, c2_buckets n, 0⟩

def c2_st (n : Nat) : St := ⟨c2_hm n, [], []⟩

theorem ckey_inj (i j : Nat) (hi : i < 16777216) (hj : j < 16777216)
    (h : ckey i = ckey j) : i = j := by
  rw [ckey, ckey] at h
  injection h with h1 hr
  injection hr with h2 hr2
  injection hr2 with h3 _
  omega

theorem c2_hm_size (n : Nat) : (c2_hm n).size = 100000 := by simp only [c2_hm]

theorem c2_hm_nitems (n : Nat) : (c2_hm n).nitems = n := by simp only [c2_hm]

theorem c2_hm_nocopy (n : Nat) : (c2_hm n).nocopy = true := by simp only [c2_hm]

theorem c2_hm_minsize (n : Nat) : (c2_hm n).minsize = 100000 := by simp only [c2_hm]

theorem c2_hm_divinfo (n : Nat) : (c2_hm n).divinfo = fast_div32_init 100000 := by
  simp only [c2_hm]

theorem c2_hm_hashkey (n : Nat) : (c2_hm n).hashkey = 0 := by simp only [c2_hm]

theorem c2_hm_buckets (n : Nat) : (c2_hm n).buckets = c2_buckets n := by simp only [c2_hm]

theorem c2_st_hm (n : Nat) : (c2_st n).hm = c2_hm n := by simp only [c2_st]

theorem c2_st_allocs (n : Nat) : (c2_st n).allocs = [] := by simp only [c2_st]

theorem c2_st_rands (n : Nat) : (c2_st n).rands = [] := by simp only [c2_st]

theorem c2_bget (n i : Nat) (hi : i < 100000) :
    bget (c2_hm n) i = if i < n then c2_bucket i else emptyBucket := by
  rw [bget, c2_hm_buckets, c2_buckets]
  rw [List.getD_eq_getElem?_getD, List.getElem?_map, List.getElem?_range hi]
  rfl

theorem c2_set (n : Nat) (hn : n < 100000) :
    (c2_buckets n).set n (c2_bucket n) = c2_buckets (n + 1) := by
  rw [c2_buckets, c2_buckets]
  apply List.ext_getElem
  · rw [List.length_set, List.length_map, List.length_map]
  · intro i h1 h2
    simp only [List.getElem_set, List.getElem_map, List.getElem_range]
    by_cases hin : n = i
    · rw [if_pos hin, if_pos (by omega)]
      rw [← hin]
    · rw [if_neg hin]
      by_cases hi2 : i < n
      · rw [if_pos hi2, if_pos (by omega)]
      · rw [if_neg hi2, if_neg (by omega)]

/-- The displacement loop on the all-collision table: the candidate for the
`n`-th key walks the `n` occupied slots without ever matching or swapping
(equal PSLs) and settles in slot `n`; the PSL it carries is reduced
`% 2^16` at every step. -/
theorem c2_loop (n : Nat) (hn : n < 100000) :
    ∀ d t fuel, t + d = n → d < fuel →
      insertLoop 0 (ckey n) n fuel (c2_hm n) ⟨some (ckey n), n, 0, t % pow16, 3⟩ t =
        (some n, c2_hm (n + 1))
  | 0, t, fuel => by
    intro htd hfuel
    have ht : t = n := by omega
    subst ht
    obtain ⟨f, rfl⟩ : ∃ f, fuel = f + 1 := ⟨fuel - 1, by omega⟩
    have hempty : (bget (c2_hm t) t).key = none := by
      rw [c2_bget t t hn, if_neg (lt_irrefl t)]
      rfl
    simp only [insertLoop]
    rw [if_pos hempty]
    refine congrArg (Prod.mk (some t)) ?_
    rw [bset_size, bset_nitems, bset_nocopy, bset_minsize, bset_divinfo, bset_hashkey,
      bset_buckets, c2_hm_buckets, c2_hm_size, c2_hm_nitems, c2_hm_nocopy, c2_hm_minsize,
      c2_hm_divinfo, c2_hm_hashkey,
      show (⟨some (ckey t), t, 0, t % pow16, 3⟩ : Bucket) = c2_bucket t from rfl,
      c2_set t hn]
    simp only [c2_hm]
  | d + 1, t, fuel => by
    intro htd hfuel
    obtain ⟨f, rfl⟩ : ∃ f, fuel = f + 1 := ⟨fuel - 1, by omega⟩
    have ht : t < n := by omega
    have hbg : bget (c2_hm n) t = c2_bucket t := by
      rw [c2_bget n t (by omega), if_pos ht]
    simp only [insertLoop]
    rw [hbg]
    rw [if_neg (show ¬ ((c2_bucket t).key = none) from fun h => Option.noConfusion h)]
    have hmatch : ¬ ((c2_bucket t).hash = 0 ∧ (c2_bucket t).len = (ckey n).length ∧
        keyEq (c2_bucket t).key (ckey n) = true) := by
      rintro ⟨-, -, h3⟩
      have h4 : (ckey t == ckey n) = true := h3
      have h5 := ckey_inj t n (by omega) (by omega) (eq_of_beq h4)
      omega
    rw [if_neg hmatch]
    rw [if_neg (show ¬ ((c2_bucket t).psl <
        (⟨some (ckey n), n, 0, t % pow16, 3⟩ : Bucket).psl) from
      fun h => lt_irrefl (t % pow16) h)]
    have hidx : fast_rem32 (t + 1) (c2_hm n).size (c2_hm n).divinfo = t + 1 := by
      rw [c2_hm_size, c2_hm_divinfo]
      rw [fast_rem32_correct (t + 1) 100000 (by show t + 1 < 4294967296; omega)
        (by norm_num) (by decide)]
      exact Nat.mod_eq_of_lt (by omega)
    rw [hidx]
    show insertLoop 0 (ckey n) n f (c2_hm n)
      ⟨some (ckey n), n, 0, (t % pow16 + 1) % pow16, 3⟩ (t + 1) = (some n, c2_hm (n + 1))
    rw [mod_step pow16 t]
    exact c2_loop n hn d (t + 1) f (by omega) (by omega)

/-- One colliding put: no grow is triggered below the 84960-item threshold,
and the insert adds the `n`-th key at slot `n`. -/
theorem c2_put_step (n : Nat) (hn : n < 100000) (hth : n ≤ 84960) :
    rhashmap_put hzero (c2_st n) (ckey n) n = (some n, c2_st (n + 1)) := by
  have h85 : approx85 100000 = 84960 := by decide
  have hnogrow : ¬ (approx85 (c2_st n).hm.size < (c2_st n).hm.nitems) := by
    rw [c2_st_hm, c2_hm_size, c2_hm_nitems, h85]
    omega
  simp only [rhashmap_put]
  rw [if_neg hnogrow]
  simp only [rhashmap_insert]
  rw [if_pos (show (c2_st n).hm.nocopy = true by rw [c2_st_hm, c2_hm_nocopy])]
  have hhash : compute_hash hzero (c2_st n).hm (ckey n) = 0 := rfl
  rw [hhash]
  have hstart : fast_rem32 0 (c2_st n).hm.size (c2_st n).hm.divinfo = 0 := by
    rw [c2_st_hm, c2_hm_size, c2_hm_divinfo]
    decide
  rw [hstart]
  rw [show ((ckey n).length % pow16) = 3 from rfl]
  rw [c2_st_hm, c2_st_allocs, c2_st_rands, c2_hm_size]
  have hcl := c2_loop n hn n 0 (100000 + 1) (by omega) (by omega)
  rw [show ((0 : Nat) % pow16) = 0 from rfl] at hcl
  rw [hcl]
  rfl

/-- Folding the first `n` colliding puts reaches exactly `c2_hm n`. -/
theorem c2_fold (n : Nat) (hle : n ≤ 84960) :
    (List.range n).foldl (fun st j => (rhashmap_put hzero st (ckey j) j).2) (c2_st 0) =
      c2_st n := by
  induction n with
  | zero => rfl
  | succ m ih =>
    rw [List.range_succ, List.foldl_append, ih (by omega), List.foldl_cons, List.foldl_nil]
    exact congrArg Prod.snd (c2_put_step m (by omega) (by omega))

theorem c2_repl : List.replicate 100000 emptyBucket = c2_buckets 0 := by
  rw [c2_buckets]
  apply List.ext_getElem
  · rw [List.length_replicate, List.length_map, List.length_range]
  · intro i h1 h2
    rw [List.getElem_replicate, List.getElem_map, List.getElem_range]
    rw [if_neg (Nat.not_lt_zero _)]

/-- Creating the capacity-100000 `RHM_NOCOPY` table yields the empty
all-collision state. -/
theorem c2_create : rhashmap_create hzero 100000 true [] [] = some (c2_st 0) := by
  show some (⟨⟨max 100000 1, 0, true, max 100000 1, fast_div32_init (max 100000 1),
      List.replicate (max 100000 1) emptyBucket, 0 ^^^ (0 ||| 0 * pow32)⟩, [], []⟩ : St) =
    some (c2_st 0)
  rw [show (max 100000 1 : Nat) = 100000 from rfl, c2_repl,
    show ((0 : Nat) ^^^ (0 ||| 0 * pow32)) = 0 from rfl]
  rfl

/-- The lookup probe for the key stored at slot 65537 stops early: at slot
65536 the resident's wrapped PSL (0) is below the probe counter (65536), so
`rhashmap_get` reports a miss for a stored key. -/
theorem c2_getLoop :
    ∀ d t fuel, t + d = 65536 → d < fuel →
      getLoop (c2_hm 65538) 0 (ckey 65537) fuel t t = none
  | 0, t, fuel => by
    intro htd hfuel
    have ht : t = 65536 := by omega
    subst ht
    obtain ⟨f, rfl⟩ : ∃ f, fuel = f + 1 := ⟨fuel - 1, by omega⟩
    have hbg : bget (c2_hm 65538) 65536 = c2_bucket 65536 := by
      rw [c2_bget 65538 65536 (by omega), if_pos (by omega)]
    simp only [getLoop]
    rw [hbg]
    have hmatch : ¬ ((c2_bucket 65536).hash = 0 ∧ (c2_bucket 65536).len =
        (ckey 65537).length ∧ keyEq (c2_bucket 65536).key (ckey 65537) = true) := by
      rintro ⟨-, -, h3⟩
      have h4 : (ckey 65536 == ckey 65537) = true := h3
      have h5 := ckey_inj 65536 65537 (by omega) (by omega) (eq_of_beq h4)
      omega
    rw [if_neg hmatch, if_pos (Or.inr (show (c2_bucket 65536).psl < 65536 by decide))]
  | d + 1, t, fuel => by
    intro htd hfuel
    obtain ⟨f, rfl⟩ : ∃ f, fuel = f + 1 := ⟨fuel - 1, by omega⟩
    have ht : t < 65536 := by omega
    have hbg : bget (c2_hm 65538) t = c2_bucket t := by
      rw [c2_bget 65538 t (by omega), if_pos (by omega)]
    simp only [getLoop]
    rw [hbg]
    have hmatch : ¬ ((c2_bucket t).hash = 0 ∧ (c2_bucket t).len =
        (ckey 65537).length ∧ keyEq (c2_bucket t).key (ckey 65537) = true) := by
      rintro ⟨-, -, h3⟩
      have h4 : (ckey t == ckey 65537) = true := h3
      have h5 := ckey_inj t 65537 (by omega) (by omega) (eq_of_beq h4)
      omega
    rw [if_neg hmatch]
    have hstop : ¬ ((c2_bucket t).key = none ∨ (c2_bucket t).psl < t) := by
      rintro (h1 | h2)
      · exact Option.noConfusion h1
      · rw [show (c2_bucket t).psl = t % pow16 from rfl,
          Nat.mod_eq_of_lt (show t < pow16 from ht)] at h2
        exact lt_irrefl t h2
    rw [if_neg hstop]
    have hidx : fast_rem32 (t + 1) (c2_hm 65538).size (c2_hm 65538).divinfo = t + 1 := by
      rw [c2_hm_size, c2_hm_divinfo]
      rw [fast_rem32_correct (t + 1) 100000 (by show t + 1 < 4294967296; omega)
        (by norm_num) (by decide)]
      exact Nat.mod_eq_of_lt (by omega)
    rw [hidx]
    exact c2_getLoop d (t + 1) f (by omega) (by omega)

theorem c2_get_miss : rhashmap_get hzero (c2_hm 65538) (ckey 65537) = none := by
  simp only [rhashmap_get]
  have hhash : compute_hash hzero (c2_hm 65538) (ckey 65537) = 0 := rfl
  rw [hhash]
  have hstart : fast_rem32 0 (c2_hm 65538).size (c2_hm 65538).divinfo = 0 := by
    rw [c2_hm_size, c2_hm_divinfo]
    decide
  rw [hstart, c2_hm_size]
  exact c2_getLoop 65536 0 (100000 + 2) (by omega) (by omega)

/-- C2: the PSL bookkeeping invariant is violated in a reachable state: the
`psl` bit-field is 16 bits wide, so after 65537 puts of distinct colliding
3-byte keys into a capacity-100000 `RHM_NOCOPY` table (a load factor of
about 66%, below the grow threshold), the bucket at physical index 65536
stores PSL `65536 % 2^16 = 0` instead of its true displacement 65536, and
the code's own `validate_psl_p` check rejects it. -/
theorem claim_C2 :
    rhashmap_create hzero 100000 true [] [] = some (c2_st 0) ∧
    (List.range 65537).foldl (fun st j => (rhashmap_put hzero st (ckey j) j).2) (c2_st 0) =
      c2_st 65537 ∧
    (bget (c2_st 65537).hm 65536).key = some (ckey 65536) ∧
    (bget (c2_st 65537).hm 65536).psl = 0 ∧
    validate_psl_p (c2_st 65537).hm (bget (c2_st 65537).hm 65536) 65536 = false := by
  have hbk : bget (c2_hm 65537) 65536 = c2_bucket 65536 := by
    rw [c2_bget 65537 65536 (by omega), if_pos (by omega)]
  refine ⟨c2_create, c2_fold 65537 (by omega), ?_, ?_, ?_⟩
  · rw [c2_st_hm, hbk]
    rfl
  · rw [c2_st_hm, hbk]
    decide
  · rw [c2_st_hm, hbk]
    have hrem : fast_rem32 (c2_bucket 65536).hash (c2_hm 65537).size
        (c2_hm 65537).divinfo = 0 := by
      rw [c2_hm_size, c2_hm_divinfo]
      decide
    rw [validate_psl_p, c2_hm_size, c2_hm_divinfo]
    decide

/-- C1 fails beyond 65535 entries: with 65538 distinct colliding keys every
put succeeds, yet the lookup of the key stored at slot 65537 misses,
because the probe stops at slot 65536 whose 16-bit PSL wrapped to 0. -/
theorem claim_C1_counterexample :
    rhashmap_create hzero 100000 true [] [] = some (c2_st 0) ∧
    (∀ j, j < 65538 → 0 < (ckey j).length ∧ (ckey j).length ≤ 65535) ∧
    (∀ i j, i < 65538 → j < 65538 → ckey i = ckey j → i = j) ∧
    (List.range 65538).foldl (fun st j => (rhashmap_put hzero st (ckey j) j).2) (c2_st 0) =
      c2_st 65538 ∧
    (ckey 65537, 65537) ∈ entriesM (c2_st 65538).hm ∧
    rhashmap_get hzero (c2_st 65538).hm (ckey 65537) = none := by
  have hbk : bget (c2_hm 65538) 65537 = c2_bucket 65537 := by
    rw [c2_bget 65538 65537 (by omega), if_pos (by omega)]
  refine ⟨c2_create, ?_, ?_, c2_fold 65538 (by omega), ?_, ?_⟩
  · intro j _
    rw [show (ckey j).length = 3 from rfl]
    omega
  · intro i j hi hj h
    exact ckey_inj i j (by omega) (by omega) h
  · have hblen : 65537 < (c2_hm 65538).buckets.length := by
      rw [c2_hm_buckets, c2_buckets, List.length_map, List.length_range]
      omega
    have hmem := mem_entriesM_of_bget (c2_hm 65538) 65537 hblen (ckey 65537)
      (by rw [hbk]; rfl)
    rw [hbk] at hmem
    rw [c2_st_hm]
    exact hmem
  · rw [c2_st_hm]
    exact c2_get_miss

/-! ### Allocation failure during put and del (claim C6) -/

theorem rehash_replicate_empty (hashFn : List Nat → Nat → Nat) :
    ∀ (m : Nat) (st : St), rehash hashFn (List.replicate m emptyBucket) st = st
  | 0, _ => rfl
  | m + 1, st => by
    rw [List.replicate_succ, rehash_cons]
    exact rehash_replicate_empty hashFn m st

/-- The single stored pair `([9], 4)` at its home slot 0. -/
def c7x_bucket : Bucket := ⟨some [9], 4, 0, 0, 1⟩

def c7x_buckets : List Bucket := c7x_bucket :: List.replicate 2147483647 emptyBucket

/-- A well-formed capacity-`2^31` table holding one pair. -/
def c7x_hm : HMap := ⟨2147483648, 1, true, 1, fast_div32_init 2147483648, c7x_buckets, 0⟩

def c7x_st : St := ⟨c7x_hm, [], []⟩

/-- The table right after the wrapped grow to capacity 0 rehashed (and
thereby lost) the stored pair. -/
def c7x_mid : St := ⟨⟨0, 1, true, 1, fast_div32_init 0, [], 0⟩, [], []⟩

def c7x_mid0 : St := ⟨⟨0, 0, true, 1, fast_div32_init 0, [], 0⟩, [], []⟩

/-- The table the duplicate put leaves behind. -/
def c7x_bad : St := ⟨⟨0, 2, true, 1, fast_div32_init 0, [], 0⟩, [], []⟩

theorem c7x_hm_size : c7x_hm.size = 2147483648 := by simp only [c7x_hm]

theorem c7x_hm_nitems : c7x_hm.nitems = 1 := by simp only [c7x_hm]

theorem c7x_hm_minsize : c7x_hm.minsize = 1 := by simp only [c7x_hm]

theorem c7x_hm_divinfo : c7x_hm.divinfo = fast_div32_init 2147483648 := by
  simp only [c7x_hm]

theorem c7x_hm_buckets : c7x_hm.buckets = c7x_buckets := by simp only [c7x_hm]

theorem c7x_st_hm : c7x_st.hm = c7x_hm := by simp only [c7x_st]

theorem c7x_bget_zero : bget c7x_hm 0 = c7x_bucket := by
  rw [bget, c7x_hm_buckets, c7x_buckets]
  rfl

theorem c7x_bget_pos (i : Nat) (h0 : 0 < i) (hi : i < 2147483648) :
    bget c7x_hm i = emptyBucket := by
  rw [bget, c7x_hm_buckets, c7x_buckets]
  obtain ⟨j, rfl⟩ : ∃ j, i = j + 1 := ⟨i - 1, by omega⟩
  show (List.replicate 2147483647 emptyBucket).getD j emptyBucket = emptyBucket
  rw [getD_replicate, if_pos (by omega : j < 2147483647)]

theorem c7x_entriesL : entriesL c7x_hm = [(([9] : List Nat), 4)] := by
  rw [entriesL, c7x_hm_buckets, c7x_buckets]
  rw [List.filterMap_cons_some
    (show bucketEntry c7x_bucket = some (([9] : List Nat), 4) from rfl)]
  rw [filterMap_replicate_empty]

theorem c7x_mem : ((([9] : List Nat), 4)) ∈ entriesM c7x_hm := by
  rw [entriesM, c7x_entriesL]
  decide

theorem c7x_inv : Inv hzero c7x_hm := by
  refine ⟨⟨?_, ?_, ?_, ?_⟩, ?_, ?_, ?_, ?_, ?_, ?_, ?_, ?_⟩
  · rw [c7x_hm_size]
    norm_num
  · rw [c7x_hm_size]
    decide
  · rw [c7x_hm_buckets, c7x_buckets, List.length_cons, List.length_replicate, c7x_hm_size]
  · rw [c7x_hm_divinfo, c7x_hm_size]
  · rw [c7x_hm_minsize]
    norm_num
  · rw [c7x_hm_minsize, c7x_hm_size]
    norm_num
  · rw [c7x_hm_nitems, c7x_entriesL]
    rfl
  · rw [c7x_hm_nitems, c7x_hm_size]
    norm_num
  · intro i hi
    rw [c7x_hm_size] at hi
    by_cases h0 : i = 0
    · subst h0
      rw [c7x_bget_zero]
      decide
    · rw [c7x_bget_pos i (by omega) hi]
      decide
  · rw [keysL, c7x_entriesL]
    decide
  · intro i hi
    rw [c7x_hm_size] at hi
    by_cases h0 : i = 0
    · subst h0
      rw [bsound, c7x_bget_zero, c7x_hm_size]
      intro _
      decide
    · rw [bsound, c7x_bget_pos i (by omega) hi]
      intro h
      exact absurd rfl h
  · intro i hi
    rw [c7x_hm_size] at hi
    by_cases h0 : i = 0
    · subst h0
      rw [bcont, c7x_bget_zero]
      intro _ hp
      exact absurd hp (by decide)
    · rw [bcont, c7x_bget_pos i (by omega) hi]
      intro h
      exact absurd rfl h

/-- The wrapped grow: resizing the `2^31`-slot table to the wrapped target
0 "succeeds", dropping the stored pair into the empty bucket array. -/
theorem c7x_resize : rhashmap_resize hzero c7x_st
    (min (c7x_st.hm.size * 2 % pow32) ((c7x_st.hm.size + maxGrowthStep) % pow32)) =
    (true, c7x_mid) := by
  have hnsz : min (c7x_st.hm.size * 2 % pow32) ((c7x_st.hm.size + maxGrowthStep) % pow32)
      = 0 := by
    rw [c7x_st_hm, c7x_hm_size]
    decide
  rw [hnsz]
  simp only [rhashmap_resize]
  rw [if_neg (show ¬ ((0 : Nat) = 1) by omega)]
  rw [if_neg (show ¬ ((4294967295 : Nat) < 0) by omega)]
  rw [if_pos (show (takeAlloc c7x_st.allocs).1 = true from rfl)]
  refine congrArg (Prod.mk true) ?_
  simp only [resizeCore]
  rw [show c7x_st.hm.buckets = c7x_buckets by rw [c7x_st_hm, c7x_hm_buckets], c7x_buckets]
  rw [rehash_cons]
  show rehash hzero (List.replicate 2147483647 emptyBucket)
      ((rhashmap_insert hzero c7x_mid0 [9] 4).2) = c7x_mid
  rw [rehash_replicate_empty hzero 2147483647]
  rw [show rhashmap_insert hzero c7x_mid0 [9] 4 = (some 4, c7x_mid) from by decide]

/-- C7 counterexample: the claim fails at the reachable capacity-`2^31`
table holding one pair — a well-formed state (the invariant holds, the
count is far below 65535).  The 32-bit threshold product wraps to 0, the
duplicate put therefore grows, the grow target `2^31 << 1` wraps to 0, the
rehash drops the stored pair, and the put returns the NEW value: the
lookup then misses and the count is wrong, instead of "returns v1, value
and count unchanged". -/
theorem claim_C7_counterexample :
    Inv hzero c7x_st.hm ∧ c7x_st.allocs = [] ∧
    ((([9] : List Nat), 4)) ∈ entriesM c7x_st.hm ∧
    c7x_st.hm.nitems ≤ 65535 ∧ 0 < ([9] : List Nat).length ∧
    rhashmap_put hzero c7x_st [9] 7 = (some 7, c7x_bad) ∧
    rhashmap_get hzero c7x_bad.hm [9] = none ∧
    c7x_bad.hm.nitems = 2 := by
  refine ⟨?_, rfl, ?_, ?_, by decide, ?_, by decide, by decide⟩
  · rw [c7x_st_hm]
    exact c7x_inv
  · rw [c7x_st_hm]
    exact c7x_mem
  · rw [c7x_st_hm, c7x_hm_nitems]
    omega
  · have hgrow : approx85 c7x_st.hm.size < c7x_st.hm.nitems := by
      rw [c7x_st_hm, c7x_hm_size, c7x_hm_nitems]
      decide
    simp only [rhashmap_put]
    rw [if_pos hgrow, c7x_resize]
    rw [if_pos (show ((true, c7x_mid).1 = true) from rfl)]
    show rhashmap_insert hzero c7x_mid [9] 7 = (some 7, c7x_bad)
    decide

end RHM
